import Mathlib

/-!
# Kernel queue I/O (`kern/src/ns/qio.c`): embedding and verified properties

The buffer chains of `qio.c` are embedded as lists of blocks (the `next`
link of a block is the tail of the list, a null chain is the empty list), the
queue as a record that is passed through every operation, and the integer
fields `len`, `dlen`, `limit`, `eof` as mathematical integers (signed overflow
is undefined in C and is not modelled).  The store `q->blast->next = b`, made
only when `bfirst` is not null, is the append at the tail of the list: `blast`
then addresses its last block (`qinv`, kept by every operation).  Freeing a
block is dropping it.  Locks, sleeps and wake-ups have no sequential content:
an operation that would sleep reports that it is parked and hands back the
queue as it stands at that point.  The statistics counters of the block
utilities (`padblockcnt` and the like) are written and never read: they are
left out.
-/

namespace Qio

/-- One octet of payload. -/
abbrev Byte := Nat

/-- Modelled from the spec: `struct block` is declared outside the sources at
hand.  A buffer is a contiguous allocation `[base, lim)` with cursors
`base ≤ rp ≤ wp ≤ lim`; it is held as the three byte runs `[base, rp)`,
`[rp, wp)` and `[wp, lim)`.  `addr` is the address of the block header (what a
`struct block *` holds) and `bintr` the `BINTR` flag. -/
structure Block where
  addr : Nat
  front : List Byte
  data : List Byte
  back : List Byte
  bintr : Bool
  deriving DecidableEq

/-- Modelled from the spec: the macro `BLEN` (readable length, `wp - rp`). -/
def BLEN (b : Block) : Int := (b.data.length : Int)

/-- Modelled from the spec: the macro `BALLOC` (allocated footprint,
`lim - base`). -/
def BALLOC (b : Block) : Int :=
  (b.front.length : Int) + (b.data.length : Int) + (b.back.length : Int)

/-- The statement `b->rp += n`, for `n ≤ BLEN(b)`. -/
def Block.rp_add (b : Block) (n : Nat) : Block :=
  { b with front := b.front ++ b.data.take n, data := b.data.drop n }

/-- The pair `memmove(b->wp, p, n); b->wp += n` with `n` the length of `p`. -/
def Block.wp_put (b : Block) (p : List Byte) : Block :=
  { b with data := b.data ++ p, back := b.back.drop p.length }

/-- The statement `b->wp = b->rp + n`, for `n ≤ BLEN(b)`. -/
def Block.wp_set (b : Block) (n : Nat) : Block :=
  { b with data := b.data.take n, back := b.data.drop n ++ b.back }

/-- Modelled from the spec: the buffer allocator is an external collaborator.
A request for `n` bytes yields an empty block (`rp = wp`) with at least `n`
bytes of room behind the write cursor; the header address, the slack in front
and the exact room are the allocator's choice.  `ifail n` tells whether the
non-sleeping variant fails for a request of `n` bytes. -/
structure Allocator where
  addr : Nat → Nat
  front : Nat → List Byte
  room : Nat → List Byte
  room_ge : ∀ n, n ≤ (room n).length
  ifail : Nat → Bool

/-- Modelled from the spec: the sleeping allocation `allocb(n)`. -/
def allocb (A : Allocator) (n : Nat) : Block :=
  { addr := A.addr n, front := A.front n, data := [], back := A.room n, bintr := false }

/-- Modelled from the spec: the non-sleeping allocation `iallocb(n)`, which
may fail and marks its blocks `BINTR`. -/
def iallocb (A : Allocator) (n : Nat) : Option Block :=
  if A.ifail n then none else some { allocb A n with bintr := true }

/-- Source constant `Maxatomic`. -/
def Maxatomic : Nat := 64 * 1024

/-- Modelled from the spec: the error string `Ehungup`, declared outside the
sources at hand; the spec gives the default reason as "hung up". -/
def Ehungup : String := "hung up"

/-- The call `strncpy(dst, src, n)` read back as a string: at most `n`
characters of `src` are stored. -/
def strncpy (src : String) (n : Nat) : String := String.mk (src.data.take n)

/-- Source function `blocklen`: readable bytes in a chain. -/
def blocklen : List Block → Int
  | [] => 0
  | b :: next => BLEN b + blocklen next

/-- Source function `blockalloclen`: allocated bytes in a chain. -/
def blockalloclen : List Block → Int
  | [] => 0
  | b :: next => BALLOC b + blockalloclen next

/-- Modelled from the spec: the bits of `queue.state` (the enumeration is
declared outside the sources at hand), one boolean per bit. -/
structure QState where
  Qstarve : Bool
  Qmsg : Bool
  Qclosed : Bool
  Qflow : Bool
  Qcoalesce : Bool
  Qkick : Bool
  deriving DecidableEq

/-- Modelled from the spec: `struct queue` is declared outside the sources at
hand; the fields are those `qio.c` uses.  `bfirst` is the list linked from the
head pointer (empty for null), `blast` the tail pointer (an address, `none`
for null).  `kick` and `bypass` tell whether the callback is installed;
`arg` is the context pointer handed to both.  `kicks` lists the calls of
`kick`, oldest first, each by the context it was given, and `bypassed` the
calls of `bypass`, each with the context and the chain it was given. -/
structure Queue where
  bfirst : List Block
  blast : Option Nat
  len : Int
  dlen : Int
  limit : Int
  iNULLim : Int
  state : QState
  noblock : Bool
  eof : Int
  err : String
  kick : Bool
  bypass : Bool
  arg : Nat
  kicks : List Nat
  bypassed : List (Nat × List Block)
  deriving DecidableEq

/-- Outcome of a call: it returns `v`, raises the error string `e`, is parked
in a sleep, or (`fault`) runs into a state the source cannot be in at that
point (a null block where one was just found, a loop bound used up). -/
inductive Res (α : Type) where
  | ret (v : α)
  | raised (e : String)
  | asleep
  | fault
  deriving DecidableEq

/-- Modelled from the spec: storage for a queue as the constructor receives
it, every field zero. -/
def kzqueue : Queue :=
  { bfirst := [], blast := none, len := 0, dlen := 0, limit := 0, iNULLim := 0,
    state := ⟨false, false, false, false, false, false⟩, noblock := false, eof := 0,
    err := "", kick := false, bypass := false, arg := 0, kicks := [], bypassed := [] }

/-- Source function `qopen`; `msg` is the initial state word. -/
def qopen (limit : Int) (msg : QState) (kick : Bool) (arg : Nat) : Queue :=
  { kzqueue with limit := limit, iNULLim := limit, kick := kick, arg := arg,
                 state := { msg with Qstarve := true }, eof := 0, noblock := false }

/-- Source function `qbypass`. -/
def qbypass (arg : Nat) : Queue :=
  { kzqueue with limit := 0, arg := arg, bypass := true,
                 state := ⟨false, false, false, false, false, false⟩ }

/-- The test repeated at the end of every consumer: "if writer flow
controlled, restart".  Gives the queue and `dowakeup`. -/
def flowrestart (q : Queue) : Queue × Bool :=
  if q.state.Qflow && decide (q.len < Int.tdiv q.limit 2) then
    ({ q with state := { q.state with Qflow := false } }, true)
  else (q, false)

/-- Source function `qget`. -/
def qget (q : Queue) : Queue × Option Block :=
  match q.bfirst with
  | [] => ({ q with state := { q.state with Qstarve := true } }, none)
  | b :: next =>
    let q1 := { q with bfirst := next, len := q.len - BALLOC b, dlen := q.dlen - BLEN b }
    ((flowrestart q1).1, some b)

/-- The `for` loop of `qdiscard`; the list is the cursor `q->bfirst`. -/
def qdiscard_loop (len : Int) : List Block → Queue → Int → Queue × Int
  | [], q, sofar => (q, sofar)
  | b :: next, q, sofar =>
    if sofar < len then
      if BLEN b ≤ len - sofar then
        qdiscard_loop len next
          { q with bfirst := next, len := q.len - BALLOC b, dlen := q.dlen - BLEN b }
          (sofar + BLEN b)
      else
        ({ q with bfirst := b.rp_add (len - sofar).toNat :: next,
                  dlen := q.dlen - (len - sofar) }, sofar + (len - sofar))
    else (q, sofar)

/-- Source function `qdiscard`. -/
def qdiscard (q : Queue) (len : Int) : Queue × Int :=
  let r := qdiscard_loop len q.bfirst q 0
  ((flowrestart r.1).1, r.2)

/-- The first loop of `qconsume`: drop empty blocks from the head until a
block with data is found; `none` when the list runs out. -/
def qconsume_skip : List Block → Queue → Queue × Option (Block × List Block)
  | [], q => ({ q with state := { q.state with Qstarve := true } }, none)
  | b :: next, q =>
    if BLEN b > 0 then (q, some (b, next))
    else qconsume_skip next { q with bfirst := next, len := q.len - BALLOC b }

/-- Source function `qconsume`; gives the queue, the return value and the
bytes copied to `vp`. -/
def qconsume (q : Queue) (len : Nat) : Queue × Int × List Byte :=
  match qconsume_skip q.bfirst q with
  | (q1, none) => (q1, -1, [])
  | (q1, some (b, next)) =>
    let n := b.data.length
    let len1 := if n < len then n else len
    let b1 := b.rp_add len1
    let q2 := { q1 with bfirst := b1 :: next, dlen := q1.dlen - (len1 : Int) }
    let q3 :=
      if q2.state.Qmsg || decide (len1 = n) then
        { q2 with bfirst := next, len := q2.len - BALLOC b1, dlen := q2.dlen - BLEN b1 }
      else q2
    ((flowrestart q3).1, (len1 : Int), b.data.take len1)

/-- The walk to the end of the chain in `qpass` and `qpassnolim`: gives the
last block and the running `len` and `dlen`. -/
def qpass_walk : Block → List Block → Int → Int → Block × Int × Int
  | b, [], len, dlen => (b, len, dlen)
  | _, b2 :: next, len, dlen => qpass_walk b2 next (len + BALLOC b2) (dlen + BLEN b2)

/-- The common tail of `qpass` and `qpassnolim`: "add buffer to queue". -/
def qpass_add (q : Queue) (b : Block) (bnext : List Block) : Queue × Int :=
  let w := qpass_walk b bnext (BALLOC b) (BLEN b)
  let q1 := { q with bfirst := q.bfirst ++ b :: bnext, blast := some w.1.addr,
                     len := q.len + w.2.1, dlen := q.dlen + w.2.2 }
  let q2 := if q1.len ≥ Int.tdiv q1.limit 2 then
              { q1 with state := { q1.state with Qflow := true } } else q1
  let q3 := if q2.state.Qstarve then
              { q2 with state := { q2.state with Qstarve := false } } else q2
  (q3, w.2.1)

/-- Source function `qpass`; the chain is `b` followed by `bnext`. -/
def qpass (q : Queue) (b : Block) (bnext : List Block) : Queue × Int :=
  if q.len ≥ q.limit then (q, -1)
  else if q.state.Qclosed then (q, BALLOC b)
  else qpass_add q b bnext

/-- Source function `qpassnolim`. -/
def qpassnolim (q : Queue) (b : Block) (bnext : List Block) : Queue × Int :=
  if q.state.Qclosed then (q, BALLOC b)
  else qpass_add q b bnext

/-- Source function `qproduce`; `p` is the `len` bytes at `vp`. -/
def qproduce (A : Allocator) (q : Queue) (p : List Byte) : Queue × Int :=
  if q.len ≥ q.limit then
    ({ q with state := { q.state with Qflow := true } }, -1)
  else
    match iallocb A p.length with
    | none => (q, 0)
    | some b0 =>
      let b := b0.wp_put p
      let q1 := { q with bfirst := q.bfirst ++ [b], blast := some b.addr,
                         len := q.len + BALLOC b, dlen := q.dlen + BLEN b }
      let q2 := if q1.state.Qstarve then
                  { q1 with state := { q1.state with Qstarve := false } } else q1
      let q3 := if q2.len ≥ q2.limit then
                  { q2 with state := { q2.state with Qflow := true } } else q2
      (q3, (p.length : Int))

/-- Answer of `qwait`: `data` stands for 1, `eof` for 0, `error` for -1;
`sleep` is the point where the caller would sleep for data. -/
inductive Wait where
  | data
  | eof
  | error
  | sleep
  deriving DecidableEq

/-- Source function `qwait`. -/
def qwait (q : Queue) : Queue × Wait :=
  match q.bfirst with
  | _ :: _ => (q, Wait.data)
  | [] =>
    if q.state.Qclosed then
      let q1 := { q with eof := q.eof + 1 }
      if q1.eof > 3 then (q1, Wait.error)
      else if q1.err ≠ "" ∧ q1.err ≠ Ehungup then (q1, Wait.error)
      else (q1, Wait.eof)
    else ({ q with state := { q.state with Qstarve := true } }, Wait.sleep)

/-- The walk of `qaddlist` to the last block of a chain. -/
def chainlast : Block → List Block → Block
  | b, [] => b
  | _, b2 :: next => chainlast b2 next

/-- Source function `qaddlist`. -/
def qaddlist (q : Queue) (b : Block) (bnext : List Block) : Queue :=
  { q with bfirst := q.bfirst ++ b :: bnext,
           len := q.len + blockalloclen (b :: bnext),
           dlen := q.dlen + blocklen (b :: bnext),
           blast := some (chainlast b bnext).addr }

/-- Source function `qremove`. -/
def qremove (q : Queue) : Queue × Option Block :=
  match q.bfirst with
  | [] => (q, none)
  | b :: next =>
    ({ q with bfirst := next, dlen := q.dlen - BLEN b, len := q.len - BALLOC b }, some b)

/-- Source function `bl2mem`: gives the bytes stored at `p` and the first
unconsumed block with what follows it. -/
def bl2mem : List Block → Nat → List Byte × List Block
  | [], _ => ([], [])
  | b :: next, n =>
    if b.data.length > n then (b.data.take n, b.rp_add n :: next)
    else
      let r := bl2mem next (n - b.data.length)
      (b.data ++ r.1, r.2)

/-- Source function `qputback`. -/
def qputback (q : Queue) (b : Block) : Queue :=
  { q with bfirst := b :: q.bfirst,
           blast := if q.bfirst = [] then some b.addr else q.blast,
           len := q.len + BALLOC b, dlen := q.dlen + BLEN b }

/-- Source function `qwakeup_iunlock`. -/
def qwakeup_iunlock (q : Queue) : Queue :=
  let r := flowrestart q
  if r.2 && r.1.kick then { r.1 with kicks := r.1.kicks ++ [r.1.arg] } else r.1

/-- Source function `qbread`; `none` is the null block of the end of file. -/
def qbread (A : Allocator) (q : Queue) (len : Nat) : Queue × Res (Option Block) :=
  match qwait q with
  | (q1, Wait.eof) => (q1, Res.ret none)
  | (q1, Wait.error) => (q1, Res.raised q1.err)
  | (q1, Wait.sleep) => (q1, Res.asleep)
  | (q1, Wait.data) =>
    match qremove q1 with
    | (q2, none) => (q2, Res.fault)
    | (q2, some nb) =>
      let n := nb.data.length
      if n > len then
        let q3 :=
          if !q2.state.Qmsg then
            qputback q2 ((allocb A (n - len)).wp_put (nb.data.drop len))
          else q2
        (qwakeup_iunlock q3, Res.ret (some (nb.wp_set len)))
      else (qwakeup_iunlock q2, Res.ret (some nb))

/-- What `qread` hands back: the queue, the outcome and the bytes stored in
the caller's buffer `vp`. -/
structure ReadRet where
  q : Queue
  ret : Res Int
  out : List Byte
  deriving DecidableEq

/-- The `for (;;)` of `qread` in coalesce mode: "grab the first block plus as
many following blocks as will completely fit in the read".  Gives the queue,
the chain `first` and the count `n`; the first argument bounds the number of
rounds. -/
def qread_grab : Nat → Queue → Int → Int → Queue × List Block × Int
  | 0, q, n, _ => (q, [], n)
  | fuel + 1, q, n, len =>
    match qremove q with
    | (q1, none) => (q1, [], n)
    | (q1, some b) =>
      let n1 := n + BLEN b
      match q1.bfirst with
      | [] => (q1, [b], n1)
      | b2 :: _ =>
        if n1 + BLEN b2 > len then (q1, [b], n1)
        else
          let r := qread_grab fuel q1 n1 len
          (r.1, b :: r.2.1, r.2.2)

/-- The end of `qread`, from "copy to user space outside of the ilock" on. -/
def qread_finish (q : Queue) (first : List Block) (n : Int) (len : Nat) : ReadRet :=
  let r := bl2mem first len
  match r.2 with
  | [] => { q := qwakeup_iunlock q, ret := Res.ret n, out := r.1 }
  | b :: _ =>
    let q1 := if q.state.Qmsg then q else qputback q b
    { q := qwakeup_iunlock q1, ret := Res.ret (n - BLEN b), out := r.1 }

/-- The body of `qread` from the label `again`; the first argument bounds the
number of times `goto again` is taken. -/
def qread_again : Nat → Queue → Nat → ReadRet
  | 0, q, _ => { q := q, ret := Res.fault, out := [] }
  | fuel + 1, q, len =>
    match qwait q with
    | (q1, Wait.eof) => { q := q1, ret := Res.ret 0, out := [] }
    | (q1, Wait.error) => { q := q1, ret := Res.raised q1.err, out := [] }
    | (q1, Wait.sleep) => { q := q1, ret := Res.asleep, out := [] }
    | (q1, Wait.data) =>
      if q1.state.Qcoalesce then
        match q1.bfirst with
        | [] => { q := q1, ret := Res.fault, out := [] }
        | b :: _ =>
          if BLEN b ≤ 0 then qread_again fuel (qremove q1).1 len
          else
            let g := qread_grab q1.bfirst.length q1 0 (len : Int)
            qread_finish g.1 g.2.1 g.2.2 len
      else
        match qremove q1 with
        | (q2, none) => { q := q2, ret := Res.fault, out := [] }
        | (q2, some first) => qread_finish q2 [first] (BLEN first) len

/-- Source function `qread`.  Every `goto again` removes a block, so one more
round than there are blocks queued is enough. -/
def qread (q : Queue) (len : Nat) : ReadRet :=
  qread_again (q.bfirst.length + 1) q len

/-- Source function `qnotfull`. -/
def qnotfull (q : Queue) : Bool :=
  decide (q.len < q.limit) || q.state.Qclosed

/-- What `qbwrite` hands back: the queue, the global counter `noblockcnt`, the
outcome, and `held`: the writer is in the flow-control loop at the end of
`qbwrite` and returns the value in `ret` once `qnotfull` holds. -/
structure WriteRet where
  q : Queue
  noblockcnt : Nat
  ret : Res Int
  held : Bool
  deriving DecidableEq

/-- Source function `qbwrite`; the chain is `b` followed by `bnext`, and
`noblockcnt` is the 32-bit global counter. -/
def qbwrite (q : Queue) (noblockcnt : Nat) (b : Block) (bnext : List Block) : WriteRet :=
  let n := BLEN b
  if q.bypass then
    { q := { q with bypassed := q.bypassed ++ [(q.arg, b :: bnext)] }, noblockcnt := noblockcnt,
      ret := Res.ret n, held := false }
  else if q.state.Qclosed then
    { q := q, noblockcnt := noblockcnt, ret := Res.raised q.err, held := false }
  else if decide (q.len ≥ q.limit) && q.noblock then
    { q := q, noblockcnt := (noblockcnt + n.toNat) % 2 ^ 32, ret := Res.ret n, held := false }
  else
    let q1 := { q with bfirst := q.bfirst ++ [b], blast := some b.addr,
                       len := q.len + BALLOC b, dlen := q.dlen + n }
    let dowakeup := q1.state.Qstarve
    let q2 := if q1.state.Qstarve then
                { q1 with state := { q1.state with Qstarve := false } } else q1
    let q3 := if q2.kick && (dowakeup || q2.state.Qkick) then
                { q2 with kicks := q2.kicks ++ [q2.arg] } else q2
    if q3.noblock || qnotfull q3 then
      { q := q3, noblockcnt := noblockcnt, ret := Res.ret n, held := false }
    else
      { q := { q3 with state := { q3.state with Qflow := true } }, noblockcnt := noblockcnt,
        ret := Res.ret n, held := true }

/-- What `qwrite` hands back: as for `qbwrite`, with `sofar` the number of
bytes handed to `qbwrite` up to this point. -/
structure QwriteRet where
  q : Queue
  noblockcnt : Nat
  ret : Res Int
  held : Bool
  sofar : Nat
  deriving DecidableEq

/-- The `do ... while` of `qwrite`; the first argument bounds the number of
rounds.  A writer held by flow control inside `qbwrite` stops there. -/
def qwrite_loop (A : Allocator) : Nat → Queue → Nat → List Byte → Nat → QwriteRet
  | 0, q, c, _, sofar => { q := q, noblockcnt := c, ret := Res.fault, held := false, sofar := sofar }
  | fuel + 1, q, c, p, sofar =>
    let n := if p.length - sofar > Maxatomic then Maxatomic else p.length - sofar
    let b := (allocb A n).wp_put ((p.drop sofar).take n)
    let r := qbwrite q c b []
    match r.ret with
    | Res.ret _ =>
      if r.held then
        { q := r.q, noblockcnt := r.noblockcnt, ret := Res.ret (p.length : Int), held := true,
          sofar := sofar + n }
      else if decide (sofar + n < p.length) && !r.q.state.Qmsg then
        qwrite_loop A fuel r.q r.noblockcnt p (sofar + n)
      else
        { q := r.q, noblockcnt := r.noblockcnt, ret := Res.ret (p.length : Int), held := false,
          sofar := sofar + n }
    | Res.raised e =>
      { q := r.q, noblockcnt := r.noblockcnt, ret := Res.raised e, held := false, sofar := sofar }
    | Res.asleep =>
      { q := r.q, noblockcnt := r.noblockcnt, ret := Res.asleep, held := false, sofar := sofar }
    | Res.fault =>
      { q := r.q, noblockcnt := r.noblockcnt, ret := Res.fault, held := false, sofar := sofar }

/-- Source function `qwrite`; `p` is the `len` bytes at `vp`.  Every round but
the last moves at least one byte, so `len + 1` rounds are enough. -/
def qwrite (A : Allocator) (q : Queue) (noblockcnt : Nat) (p : List Byte) : QwriteRet :=
  qwrite_loop A (p.length + 1) q noblockcnt p 0

/-- The `do ... while` of `qiwrite`; `dowakeup` is set once and never reset.
Gives the queue and `sofar`. -/
def qiwrite_loop (A : Allocator) : Nat → Queue → List Byte → Nat → Bool → Queue × Nat
  | 0, q, _, sofar, _ => (q, sofar)
  | fuel + 1, q, p, sofar, dowakeup =>
    let n := if p.length - sofar > Maxatomic then Maxatomic else p.length - sofar
    match iallocb A n with
    | none => (q, sofar)
    | some b0 =>
      let b := b0.wp_put ((p.drop sofar).take n)
      if q.dlen ≥ 16 * 1024 then (q, sofar)
      else
        let q1 := { q with bfirst := q.bfirst ++ [b], blast := some b.addr,
                           len := q.len + BALLOC b, dlen := q.dlen + (n : Int) }
        let dowakeup1 := dowakeup || q1.state.Qstarve
        let q2 := if q1.state.Qstarve then
                    { q1 with state := { q1.state with Qstarve := false } } else q1
        let q3 := if dowakeup1 && q2.kick then { q2 with kicks := q2.kicks ++ [q2.arg] } else q2
        if decide (sofar + n < p.length) && !q3.state.Qmsg then
          qiwrite_loop A fuel q3 p (sofar + n) dowakeup1
        else (q3, sofar + n)

/-- Source function `qiwrite`; `p` is the `len` bytes at `vp`. -/
def qiwrite (A : Allocator) (q : Queue) (p : List Byte) : Queue × Nat :=
  qiwrite_loop A (p.length + 1) q p 0 false

/-- Source function `qclose`; `errmax` is `sizeof(q->err)`. -/
def qclose (errmax : Nat) (q : Queue) : Queue :=
  { q with state := { q.state with Qclosed := true, Qflow := false, Qstarve := false },
           err := strncpy Ehungup errmax,
           bfirst := [], len := 0, dlen := 0, noblock := false }

/-- Source function `qhangup`; `none` is a null `msg`. -/
def qhangup (errmax : Nat) (q : Queue) (msg : Option String) : Queue :=
  { q with state := { q.state with Qclosed := true },
           err := match msg with
                  | none => strncpy Ehungup errmax
                  | some m => if m = "" then strncpy Ehungup errmax else strncpy m errmax }

/-- Source function `qisclosed`. -/
def qisclosed (q : Queue) : Bool := q.state.Qclosed

/-- Source function `qreopen`. -/
def qreopen (q : Queue) : Queue :=
  { q with state := { q.state with Qclosed := false, Qstarve := true },
           eof := 0, limit := q.iNULLim }

/-- Source function `qlen`. -/
def qlen (q : Queue) : Int := q.dlen

/-- Source function `qwindow`. -/
def qwindow (q : Queue) : Int :=
  let l := q.limit - q.len
  if l < 0 then 0 else l

/-- Source function `qcanread`. -/
def qcanread (q : Queue) : Bool := !q.bfirst.isEmpty

/-- Source function `qsetlimit`. -/
def qsetlimit (q : Queue) (limit : Int) : Queue := { q with limit := limit }

/-- Source function `qnoblock`. -/
def qnoblock (q : Queue) (onoff : Bool) : Queue := { q with noblock := onoff }

/-- Source function `qflush`. -/
def qflush (q : Queue) : Queue := { q with bfirst := [], len := 0, dlen := 0 }

/-- Source function `qfull`. -/
def qfull (q : Queue) : Bool := q.state.Qflow

/-- Readable bytes of a chain, in order. -/
def payload : List Block → List Byte
  | [] => []
  | b :: next => b.data ++ payload next

/-- One producer call of a write trace. -/
inductive WriteOp where
  | write (p : List Byte)
  | bwrite (b : Block) (bnext : List Block)
  | produce (p : List Byte)
  | pass (b : Block) (bnext : List Block)

/-- Run one producer call on the queue and the drop counter. -/
def WriteOp.run (A : Allocator) (s : Queue × Nat) : WriteOp → Queue × Nat
  | WriteOp.write p => ((qwrite A s.1 s.2 p).q, (qwrite A s.1 s.2 p).noblockcnt)
  | WriteOp.bwrite b bnext => ((qbwrite s.1 s.2 b bnext).q, (qbwrite s.1 s.2 b bnext).noblockcnt)
  | WriteOp.produce p => ((qproduce A s.1 p).1, s.2)
  | WriteOp.pass b bnext => ((qpass s.1 b bnext).1, s.2)

/-- The payload a producer call carries: the bytes at `vp`, the readable
bytes of the block given to `qbwrite` (of that block alone: `qbwrite` sets its
`next` to null), those of the whole chain given to `qpass`. -/
def WriteOp.sent : WriteOp → List Byte
  | WriteOp.write p => p
  | WriteOp.bwrite b _ => b.data
  | WriteOp.produce p => p
  | WriteOp.pass b bnext => payload (b :: bnext)

/-- The call enqueues its payload: `qwrite` on a blocking queue without
bypass hands every byte to `qbwrite` before it is held by flow control,
`qbwrite` finds no bypass and does not take its non-blocking drop, `qproduce`
and `qpass` find the queue under its limit and the allocation of `qproduce`
succeeds. -/
def WriteOp.enqueues (A : Allocator) (s : Queue × Nat) : WriteOp → Prop
  | WriteOp.write p =>
    s.1.bypass = false ∧ s.1.noblock = false ∧ (qwrite A s.1 s.2 p).sofar = p.length
  | WriteOp.bwrite _ _ => s.1.bypass = false ∧ ¬ (s.1.len ≥ s.1.limit ∧ s.1.noblock = true)
  | WriteOp.produce p => s.1.len < s.1.limit ∧ A.ifail p.length = false
  | WriteOp.pass _ _ => s.1.len < s.1.limit

/-- Run a write trace. -/
def runWrites (A : Allocator) : Queue × Nat → List WriteOp → Queue × Nat
  | s, [] => s
  | s, w :: ws => runWrites A (w.run A s) ws

/-- Every call of the trace enqueues its payload. -/
def allEnqueue (A : Allocator) : Queue × Nat → List WriteOp → Prop
  | _, [] => True
  | s, w :: ws => w.enqueues A s ∧ allEnqueue A (w.run A s) ws

/-- An allocator for worked examples: exact room, no slack, address
`1000 + n`, the non-sleeping variant never failing. -/
def exAlloc : Allocator :=
  { addr := fun n => 1000 + n, front := fun _ => [], room := fun n => List.replicate n 0,
    room_ge := fun n => by simp, ifail := fun _ => false }

/-- The state word of a plain stream queue: no bit set. -/
def Qstream : QState := ⟨false, false, false, false, false, false⟩

/-- The call produces one buffer: `qwrite` of at most `Maxatomic` bytes, and
`qbwrite` and `qpass` of a block with no successor. -/
def WriteOp.single : WriteOp → Prop
  | WriteOp.write p => p.length ≤ Maxatomic
  | WriteOp.bwrite _ bnext => bnext = []
  | WriteOp.produce _ => True
  | WriteOp.pass _ bnext => bnext = []

/-- One `qread` per buffer size, in order: the outcome and the bytes of each
call, and the queue at the end. -/
def readEach : Queue → List Nat → List (Res Int × List Byte) × Queue
  | q, [] => ([], q)
  | q, n :: ns =>
    let r := qread q n
    ((r.ret, r.out) :: (readEach r.q ns).1, (readEach r.q ns).2)

/-- What a message-mode read of `n` bytes makes of a message `m`: its first
`n` bytes, the count returned being their number. -/
def msgRead (n : Nat) (m : List Byte) : Res Int × List Byte :=
  (Res.ret ((min n m.length : Nat) : Int), m.take n)

/-- The state word of a message queue: only `Qmsg` set. -/
def Qmessage : QState := ⟨false, true, false, false, false, false⟩

/-- The queue holds a buffer that `qread` can return: any buffer, and under
coalescing a buffer with data (empty ones are dropped on sight). -/
def canRead (q : Queue) : Prop :=
  ∃ b ∈ q.bfirst, (q.state.Qcoalesce = true → b.data ≠ [])

/-- The flow-controlled bit of `q` is clear exactly when its footprint is
under half its limit (C division, rounding toward zero). -/
def flowCleared (q : Queue) : Prop :=
  q.state.Qflow = false ↔ q.len < Int.tdiv q.limit 2

/-- One queue operation of a trace, with its arguments. -/
inductive Op where
  | pass (b : Block) (bnext : List Block)
  | passnolim (b : Block) (bnext : List Block)
  | produce (p : List Byte)
  | bwrite (b : Block) (bnext : List Block)
  | write (p : List Byte)
  | iwrite (p : List Byte)
  | addlist (b : Block) (bnext : List Block)
  | get
  | remove
  | putback (b : Block)
  | discard (len : Int)
  | consume (len : Nat)
  | read (len : Nat)
  | bread (len : Nat)
  | flush
  | close
  | hangup (msg : Option String)
  | reopen
  | setlimit (limit : Int)
  | noblock (onoff : Bool)

/-- The queue after one operation. -/
def step (A : Allocator) (errmax : Nat) (q : Queue) : Op → Queue
  | Op.pass b bnext => (qpass q b bnext).1
  | Op.passnolim b bnext => (qpassnolim q b bnext).1
  | Op.produce p => (qproduce A q p).1
  | Op.bwrite b bnext => (qbwrite q 0 b bnext).q
  | Op.write p => (qwrite A q 0 p).q
  | Op.iwrite p => (qiwrite A q p).1
  | Op.addlist b bnext => qaddlist q b bnext
  | Op.get => (qget q).1
  | Op.remove => (qremove q).1
  | Op.putback b => qputback q b
  | Op.discard len => (qdiscard q len).1
  | Op.consume len => (qconsume q len).1
  | Op.read len => (qread q len).q
  | Op.bread len => (qbread A q len).1
  | Op.flush => qflush q
  | Op.close => qclose errmax q
  | Op.hangup msg => qhangup errmax q msg
  | Op.reopen => qreopen q
  | Op.setlimit limit => qsetlimit q limit
  | Op.noblock onoff => qnoblock q onoff

/-- The queue after a trace of operations. -/
def runOps (A : Allocator) (errmax : Nat) : Queue → List Op → Queue
  | q, [] => q
  | q, o :: os => runOps A errmax (step A errmax q o) os

/-- Accounting and tail invariant of a queue: `dlen` and `len` are the sums
of `BLEN` and `BALLOC` over the blocks linked from `bfirst`, and when that
list is not empty `blast` is the address of its last block. -/
def qinv (q : Queue) : Prop :=
  q.dlen = blocklen q.bfirst ∧ q.len = blockalloclen q.bfirst ∧
  (q.bfirst ≠ [] → q.blast = q.bfirst.getLast?.map Block.addr)

/-- The operation is one of the hand-off entry points `qpass`, `qpassnolim`. -/
def Op.isPass : Op → Bool
  | Op.pass _ _ => true
  | Op.passnolim _ _ => true
  | _ => false

/-- The operation is one of the copying producers `qproduce`, `qbwrite`,
`qwrite`. -/
def Op.isWrite : Op → Bool
  | Op.produce _ => true
  | Op.bwrite _ _ => true
  | Op.write _ => true
  | _ => false

/-- The queue `q` marked closed with the reason `e` stored: what `qhangup`
makes of `q`. -/
def hungof (e : String) (q : Queue) : Queue :=
  { q with state := { q.state with Qclosed := true }, err := e }

/-- The string `qhangup` stores for `msg`: `Ehungup` for a null or empty
`msg`, else `msg`. -/
def hangupMsg (msg : Option String) : String :=
  match msg with
  | none => Ehungup
  | some m => if m = "" then Ehungup else m

/-- The predicates of the development are decidable, so that they can be
evaluated on concrete queues. -/
instance WriteOp.decEnqueues (A : Allocator) (s : Queue × Nat) (w : WriteOp) :
    Decidable (w.enqueues A s) := by
  cases w <;> unfold WriteOp.enqueues <;> infer_instance

instance WriteOp.decSingle (w : WriteOp) : Decidable w.single := by
  cases w <;> unfold WriteOp.single <;> infer_instance

/-- Decision procedure for `allEnqueue`. -/
def decAllEnqueue (A : Allocator) :
    (s : Queue × Nat) → (ws : List WriteOp) → Decidable (allEnqueue A s ws)
  | _, [] => isTrue trivial
  | s, w :: ws =>
    match WriteOp.decEnqueues A s w, decAllEnqueue A (w.run A s) ws with
    | isTrue h1, isTrue h2 => isTrue ⟨h1, h2⟩
    | isFalse h1, _ => isFalse (fun h => h1 h.1)
    | _, isFalse h2 => isFalse (fun h => h2 h.2)

instance instDecAllEnqueue (A : Allocator) (s : Queue × Nat) (ws : List WriteOp) :
    Decidable (allEnqueue A s ws) := decAllEnqueue A s ws

instance instDecCanRead (q : Queue) : Decidable (canRead q) := by
  unfold canRead; infer_instance

instance instDecFlowCleared (q : Queue) : Decidable (flowCleared q) := by
  unfold flowCleared; infer_instance

instance instDecQinv (q : Queue) : Decidable (qinv q) := by
  unfold qinv; infer_instance

/-- One blocking read of a trace, with its buffer size. -/
inductive RdOp where
  | read (len : Nat)
  | bread (len : Nat)

/-- The queue after one blocking read. -/
def RdOp.run (A : Allocator) (q : Queue) : RdOp → Queue
  | RdOp.read len => (qread q len).q
  | RdOp.bread len => (qbread A q len).1

/-- The queue after a trace of blocking reads. -/
def runReads (A : Allocator) : Queue → List RdOp → Queue
  | q, [] => q
  | q, o :: os => runReads A (o.run A q) os

/-- What a blocking read of a closed queue with nothing queued answers, for
the EOF counter `eof` and the stored string `err` found on entry: the value
of `qwait`, with `zero` the clean end of file of the caller. -/
def eofAnswer (α : Type) (zero : α) (eof : Int) (err : String) : Res α :=
  if eof + 1 > 3 then Res.raised err
  else if err ≠ "" ∧ err ≠ Ehungup then Res.raised err
  else Res.ret zero

/-- The fields of a queue that only its constructor sets: `q2` has the
initial limit, the callbacks, the mode bits and the callback context of `q`. -/
def sameMode (q q2 : Queue) : Prop :=
  q2.iNULLim = q.iNULLim ∧ q2.bypass = q.bypass ∧ q2.kick = q.kick ∧
  q2.state.Qmsg = q.state.Qmsg ∧ q2.state.Qcoalesce = q.state.Qcoalesce ∧
  q2.state.Qkick = q.state.Qkick ∧ q2.arg = q.arg

/-- One test of the flow-control loop that ends `qbwrite`, made by a writer
held there when the queue stands as `q`: the writer leaves the loop (`true`)
when the queue is non-blocking or `qnotfull` holds, else it sets the
flow-controlled bit and stays in the loop. -/
def qbwrite_wait (q : Queue) : Queue × Bool :=
  if q.noblock || qnotfull q then (q, true)
  else ({ q with state := { q.state with Qflow := true } }, false)

/-- The pair `nbp->rp += n; nbp->wp = nbp->rp` on a fresh block (`rp = wp`):
both cursors skip `n` bytes of room. -/
def Block.skip (b : Block) (n : Nat) : Block :=
  { b with front := b.front ++ b.back.take n, data := [], back := b.back.drop n }

/-- The statement `b->rp -= n`, for `n ≤ rp - base`. -/
def Block.rp_sub (b : Block) (n : Nat) : Block :=
  { b with front := b.front.take (b.front.length - n),
           data := b.front.drop (b.front.length - n) ++ b.data }

/-- Outcome of a call that can end in `panic`. -/
inductive Fatal (α : Type) where
  | ok (v : α)
  | panicked (msg : String)
  deriving DecidableEq

/-- Source function `padblock`; the chain is `bp` followed by `bnext`, and the
chain headed by the block returned is given. -/
def padblock (A : Allocator) (bp : Block) (bnext : List Block) (size : Int) :
    Fatal (List Block) :=
  if size ≥ 0 then
    if (bp.front.length : Int) ≥ size then Fatal.ok (bp.rp_sub size.toNat :: bnext)
    else if bnext ≠ [] then Fatal.panicked "padblock"
    else
      let n := BLEN bp
      let nbp := (allocb A (size + n).toNat).skip size.toNat
      let nbp1 := nbp.wp_put bp.data
      Fatal.ok [nbp1.rp_sub size.toNat]
  else
    let size1 := -size
    if bnext ≠ [] then Fatal.panicked "padblock"
    else if (bp.back.length : Int) ≥ size1 then Fatal.ok [bp]
    else
      let n := BLEN bp
      Fatal.ok [(allocb A (size1 + n).toNat).wp_put bp.data]

/-- The `for` loop of `concatblock`: the readable bytes of every block of the
chain are appended to `nb`. -/
def concat_loop (nb : Block) : List Block → Block
  | [] => nb
  | f :: next => concat_loop (nb.wp_put f.data) next

/-- Source function `concatblock`; gives the chain headed by the block
returned. -/
def concatblock (A : Allocator) (bp : Block) (bnext : List Block) : List Block :=
  match bnext with
  | [] => [bp]
  | _ :: _ => [concat_loop (allocb A (blocklen (bp :: bnext)).toNat) (bp :: bnext)]

/-- The `for` loop of `pullupblock`: `bp` is the head, the list what follows
it, `n` the number of bytes still to bring into the head.  The empty list is
the null return.  (A negative `BLEN`, which the source guards against, does
not exist here.) -/
def pullup_loop : Block → List Block → Int → List Block
  | _, [], _ => []
  | bp, nbp :: rest, n =>
    let i := BLEN nbp
    if i > n then bp.wp_put (nbp.data.take n.toNat) :: nbp.rp_add n.toNat :: rest
    else
      let bp1 := bp.wp_put nbp.data
      if n - i = 0 then bp1 :: rest else pullup_loop bp1 rest (n - i)

/-- Source function `pullupblock`; the empty list is the null return. -/
def pullupblock (A : Allocator) (bp : Block) (bnext : List Block) (n : Int) : List Block :=
  if BLEN bp ≥ n then bp :: bnext
  else if (bp.data.length : Int) + (bp.back.length : Int) < n then
    pullup_loop (allocb A n.toNat) (bp :: bnext) (n - BLEN (allocb A n.toNat))
  else pullup_loop bp bnext (n - BLEN bp)

/-- The first loop of `trimblock`: blocks wholly before `offset` are dropped.
Gives the chain from the block that holds `offset` on and the offset into it;
running off the end of the chain is a fault. -/
def trim_skip : List Block → Int → Res (List Block × Int)
  | [], _ => Res.fault
  | bp :: next, offset =>
    if BLEN bp < offset then trim_skip next (offset - BLEN bp)
    else Res.ret (bp :: next, offset)

/-- The second loop of `trimblock` with the cut that follows it: blocks wholly
inside `len` are kept, the block where `len` ends has its write cursor moved
back to `rp + len`, and what follows it is freed. -/
def trim_take : List Block → Int → Res (List Block)
  | [], _ => Res.fault
  | bp :: next, len =>
    if BLEN bp < len then
      match trim_take next (len - BLEN bp) with
      | Res.ret r => Res.ret (bp :: r)
      | Res.raised e => Res.raised e
      | Res.asleep => Res.asleep
      | Res.fault => Res.fault
    else Res.ret [bp.wp_set len.toNat]

/-- Source function `trimblock`; the empty list is the null chain. -/
def trimblock (bp : List Block) (offset len : Int) : Res (List Block) :=
  if blocklen bp < offset + len then Res.ret []
  else
    match trim_skip bp offset with
    | Res.ret (b :: next, offset1) => trim_take (b.rp_add offset1.toNat :: next) len
    | Res.ret ([], _) => Res.fault
    | Res.raised e => Res.raised e
    | Res.asleep => Res.asleep
    | Res.fault => Res.fault

/-- The `for` loop of `copyblock`: gives the new block and what is left of
`count`. -/
def copy_loop (nbp : Block) : List Block → Int → Block × Int
  | [], count => (nbp, count)
  | bp :: next, count =>
    if count > 0 then
      let l := if BLEN bp > count then count else BLEN bp
      copy_loop (nbp.wp_put (bp.data.take l.toNat)) next (count - l)
    else (nbp, count)

/-- Source function `copyblock`; `none` is the null return.  The second
component is the chain as the call leaves it: no statement of `copyblock`
stores into a block of the chain. -/
def copyblock (A : Allocator) (bp : Block) (bnext : List Block) (count : Int) :
    Option Block × List Block :=
  match (if bp.bintr then iallocb A count.toNat else some (allocb A count.toNat)) with
  | none => (none, bp :: bnext)
  | some nbp =>
    let r := copy_loop nbp (bp :: bnext) count
    let nbp1 := if r.2 > 0 then r.1.wp_put (List.replicate r.2.toNat 0) else r.1
    (some nbp1, bp :: bnext)

/-- Source function `adjustblock`; the empty list is the null return.  The
`memset` of the bytes between the old write cursor and `rp + len` and the
store of the new write cursor are one `wp_put` of zeros. -/
def adjustblock (A : Allocator) (bp : Block) (bnext : List Block) (len : Int) : List Block :=
  if len < 0 then []
  else if len > (bp.data.length : Int) + (bp.back.length : Int) then
    match (copyblock A bp bnext len).1 with
    | none => []
    | some nbp => [nbp]
  else
    let n := BLEN bp
    let bp1 := if len > n then bp.wp_put (List.replicate (len - n).toNat 0) else bp
    bp1.wp_set len.toNat :: bnext

/-- The queue made by `qbypass(bypass, arg)` after `qbwrite` has been called
on each chain of `xs` in turn. -/
def bypassRun (arg : Nat) (xs : List (Block × List Block)) : Queue :=
  xs.foldl (fun q x => (qbwrite q 0 x.1 x.2).q) (qbypass arg)

/-- Number of buffers `qwrite` makes of `r` bytes still to write: one per
`Maxatomic` bytes, and one for an empty write. -/
def chunks (r : Nat) : Nat := if r = 0 then 1 else (r + (Maxatomic - 1)) / Maxatomic

/-- The operation is a consumer call: it takes data off the queue. -/
def Op.isRead : Op → Bool
  | Op.get => true
  | Op.discard _ => true
  | Op.consume _ => true
  | Op.read _ => true
  | Op.bread _ => true
  | _ => false

/-- The fields that decide whether a writer waits, apart from `len`: `q2` has
the limit, the blocking mode and the closed bit of `q`. -/
def sameCtl (q q2 : Queue) : Prop :=
  q2.limit = q.limit ∧ q2.noblock = q.noblock ∧ q2.state.Qclosed = q.state.Qclosed

/-- An allocator for worked examples that keeps 64 bytes of headroom in front
of every block, exact room behind, address `2000 + n`. -/
def slackAlloc : Allocator :=
  { addr := fun n => 2000 + n, front := fun _ => List.replicate 64 0,
    room := fun n => List.replicate n 0, room_ge := fun n => by simp, ifail := fun _ => false }

/-- The flow-control scenario, first step: a queue opened with limit 4096 in
stream mode, then `qwrite` of `p1`. -/
def scen1 (A : Allocator) (p1 : List Byte) : QwriteRet :=
  qwrite A (qopen 4096 Qstream false 0) 0 p1

/-- The flow-control scenario, second step: `qwrite` of `p2` after `scen1`. -/
def scen2 (A : Allocator) (p1 p2 : List Byte) : QwriteRet :=
  qwrite A (scen1 A p1).q (scen1 A p1).noblockcnt p2

/-- The `while` loop of `pullblock`: the chain is `*bph`, `count` what is
left to throw away and `bytes` what was thrown away; the first argument
bounds the number of rounds.  Gives the chain left and `bytes`. -/
def pullblock_loop : Nat → List Block → Int → Int → Res (List Block × Int)
  | 0, _, _, _ => Res.fault
  | _ + 1, [], _, bytes => Res.ret ([], bytes)
  | fuel + 1, bp :: next, count, bytes =>
    if count ≠ 0 then
      let n := if count < BLEN bp then count else BLEN bp
      let bp1 := bp.rp_add n.toNat
      if BLEN bp1 = 0 then pullblock_loop fuel next (count - n) (bytes + n)
      else pullblock_loop fuel (bp1 :: next) (count - n) (bytes + n)
    else Res.ret (bp :: next, bytes)

/-- Source function `pullblock`, called with a non-null `bph`; `c` is the
chain `*bph` on entry, and the chain `*bph` on return is given with the
value returned.  Every round but the last frees a block, so two more rounds
than there are blocks are enough. -/
def pullblock (c : List Block) (count : Int) : Res (List Block × Int) :=
  pullblock_loop (c.length + 2) c count 0

/-- Source function `pullupqueue`; the value returned is the `bfirst` of the
queue given.  An empty queue is a fault: `BLEN(q->bfirst)` reads through a
null pointer. -/
def pullupqueue (A : Allocator) (q : Queue) (n : Int) : Res Queue :=
  match q.bfirst with
  | [] => Res.fault
  | b :: next =>
    if BLEN b ≥ n then Res.ret q
    else
      Res.ret { q with bfirst := pullupblock A b next n,
                       blast := (pullupblock A b next n).getLast?.map Block.addr }

/-- The buffers a coalescing read takes after the head, in the words of the
specification: every following buffer as long as the running total `n` of
readable bytes still fits in `len`. -/
def fitMore (len : Int) : Int → List Block → List Block
  | _, [] => []
  | n, b :: rest => if n + BLEN b > len then [] else b :: fitMore len (n + BLEN b) rest

/-- An allocator for worked examples whose non-sleeping variant always
fails; otherwise as `exAlloc`. -/
def failAlloc : Allocator :=
  { addr := fun n => 1000 + n, front := fun _ => [], room := fun n => List.replicate n 0,
    room_ge := fun n => by simp, ifail := fun _ => true }

/-- What the restart check at the end of a blocking read looks at and what
records the calls of `kick`: `q2` has the flow-controlled bit, the `kick`
callback, the context and the log of `kick` calls of `q`. -/
def kframe (q q2 : Queue) : Prop :=
  q2.state.Qflow = q.state.Qflow ∧ q2.kick = q.kick ∧ q2.arg = q.arg ∧ q2.kicks = q.kicks

/-! ## Lemmas and theorems -/

@[simp]
theorem payload_nil : payload [] = [] := rfl

@[simp]
theorem payload_cons (b : Block) (l : List Block) :
    payload (b :: l) = b.data ++ payload l := rfl

@[simp]
theorem payload_append (l m : List Block) :
    payload (l ++ m) = payload l ++ payload m := by
  induction l with
  | nil => simp
  | cons b l ih => simp [ih]

@[simp]
theorem flowrestart_bfirst (q : Queue) : (flowrestart q).1.bfirst = q.bfirst := by
  unfold flowrestart; split <;> rfl

@[simp]
theorem flowrestart_len (q : Queue) : (flowrestart q).1.len = q.len := by
  unfold flowrestart; split <;> rfl

@[simp]
theorem flowrestart_dlen (q : Queue) : (flowrestart q).1.dlen = q.dlen := by
  unfold flowrestart; split <;> rfl

@[simp]
theorem flowrestart_limit (q : Queue) : (flowrestart q).1.limit = q.limit := by
  unfold flowrestart; split <;> rfl

@[simp]
theorem flowrestart_blast (q : Queue) : (flowrestart q).1.blast = q.blast := by
  unfold flowrestart; split <;> rfl

@[simp]
theorem flowrestart_Qmsg (q : Queue) : (flowrestart q).1.state.Qmsg = q.state.Qmsg := by
  unfold flowrestart; split <;> rfl

@[simp]
theorem qwakeup_bfirst (q : Queue) : (qwakeup_iunlock q).bfirst = q.bfirst := by
  unfold qwakeup_iunlock; simp only []; split <;> simp

@[simp]
theorem qwakeup_len (q : Queue) : (qwakeup_iunlock q).len = q.len := by
  unfold qwakeup_iunlock; simp only []; split <;> simp

theorem qread_stream_head (q : Queue) (b : Block) (rest : List Block) (len : Nat)
    (hb : q.bfirst = b :: rest) (hc : q.state.Qcoalesce = false) :
    qread q len =
      if b.data.length > len then
        { q := qwakeup_iunlock
            (if q.state.Qmsg then (qremove q).1 else qputback (qremove q).1 (b.rp_add len)),
          ret := Res.ret (len : Int), out := b.data.take len }
      else
        { q := qwakeup_iunlock (qremove q).1, ret := Res.ret (BLEN b), out := b.data } := by
  unfold qread
  rw [hb]
  simp only [List.length_cons, qread_again, qwait, hb, hc]
  by_cases h : b.data.length > len
  · have h2 : len < b.data.length := h
    simp [qremove, hb, qread_finish, bl2mem, h2, BLEN, Block.rp_add]
    omega
  · have h2 : ¬ len < b.data.length := h
    simp [qremove, hb, qread_finish, bl2mem, h2]
theorem blocklen_eq_payload (l : List Block) : blocklen l = ((payload l).length : Int) := by
  induction l with
  | nil => rfl
  | cons b l ih => simp [blocklen, BLEN, ih]

theorem bl2mem_fits (l : List Block) (n : Nat) (h : (payload l).length ≤ n) :
    bl2mem l n = (payload l, []) := by
  induction l generalizing n with
  | nil => rfl
  | cons b l ih =>
    simp only [payload_cons, List.length_append] at h
    have h1 : ¬ b.data.length > n := by omega
    simp [bl2mem, h1, ih (n - b.data.length) (by omega)]

theorem qread_grab_spec (fuel : Nat) (q : Queue) (n len : Int) (b : Block) (rest : List Block)
    (hf : q.bfirst.length ≤ fuel) (hb : q.bfirst = b :: rest) :
    (qread_grab fuel q n len).2.1 ++ (qread_grab fuel q n len).1.bfirst = q.bfirst ∧
    (∃ more, (qread_grab fuel q n len).2.1 = b :: more) ∧
    (qread_grab fuel q n len).2.2 = n + blocklen (qread_grab fuel q n len).2.1 ∧
    ((qread_grab fuel q n len).2.1 = [b] ∨ (qread_grab fuel q n len).2.2 ≤ len) ∧
    (qread_grab fuel q n len).1.state = q.state ∧
    (qread_grab fuel q n len).1.blast = q.blast ∧
    (qread_grab fuel q n len).1.limit = q.limit ∧
    (qread_grab fuel q n len).1.len = q.len - blockalloclen (qread_grab fuel q n len).2.1 ∧
    (qread_grab fuel q n len).1.dlen = q.dlen - blocklen (qread_grab fuel q n len).2.1 := by
  induction fuel generalizing q n b rest with
  | zero => simp [hb] at hf
  | succ fuel ih =>
    cases rest with
    | nil =>
      simp [qread_grab, qremove, hb, blocklen, blockalloclen]
    | cons b2 rest2 =>
      by_cases hgt : n + BLEN b + BLEN b2 > len
      · simp [qread_grab, qremove, hb, hgt, blocklen, blockalloclen]
      · have hle : n + BLEN b + BLEN b2 ≤ len := by omega
        have hf2 : ({ q with bfirst := b2 :: rest2, dlen := q.dlen - BLEN b,
                             len := q.len - BALLOC b } : Queue).bfirst.length ≤ fuel := by
          simp [hb] at hf ⊢; omega
        have := ih { q with bfirst := b2 :: rest2, dlen := q.dlen - BLEN b,
                             len := q.len - BALLOC b } (n + BLEN b) b2 rest2 hf2 rfl
        obtain ⟨h1, ⟨more, h2⟩, h3, h4, h5, h6, h7, h8, h9⟩ := this
        simp only [qread_grab, qremove, hb, hgt, if_false]
        refine ⟨?_, ⟨_, rfl⟩, ?_, ?_, ?_, ?_, ?_, ?_, ?_⟩
        · simpa using h1
        · rw [h3]; simp [blocklen]; ring
        · right
          rcases h4 with h4 | h4
          · rw [h3, h4]; simp [blocklen]; omega
          · exact h4
        · simpa using h5
        · simpa using h6
        · simpa using h7
        · rw [h8]; simp [blockalloclen]; ring
        · rw [h9]; simp [blocklen]; ring

@[simp]
theorem qwakeup_state_Qmsg (q : Queue) :
    (qwakeup_iunlock q).state.Qmsg = q.state.Qmsg := by
  unfold qwakeup_iunlock flowrestart; simp only []; split <;> split <;> simp_all

@[simp]
theorem qwakeup_state_Qcoalesce (q : Queue) :
    (qwakeup_iunlock q).state.Qcoalesce = q.state.Qcoalesce := by
  unfold qwakeup_iunlock flowrestart; simp only []; split <;> split <;> simp_all

@[simp]
theorem qwakeup_state_Qclosed (q : Queue) :
    (qwakeup_iunlock q).state.Qclosed = q.state.Qclosed := by
  unfold qwakeup_iunlock flowrestart; simp only []; split <;> split <;> simp_all

theorem qbwrite_enq (q : Queue) (c : Nat) (b : Block) (bnext : List Block)
    (ho : q.state.Qclosed = false) (hby : q.bypass = false)
    (hacc : ¬ (q.len ≥ q.limit ∧ q.noblock = true)) :
    (qbwrite q c b bnext).q.bfirst = q.bfirst ++ [b] ∧
    (qbwrite q c b bnext).q.blast = some b.addr ∧
    (qbwrite q c b bnext).q.len = q.len + BALLOC b ∧
    (qbwrite q c b bnext).q.dlen = q.dlen + BLEN b ∧
    (qbwrite q c b bnext).q.limit = q.limit ∧
    (qbwrite q c b bnext).q.state.Qclosed = false ∧
    (qbwrite q c b bnext).q.state.Qmsg = q.state.Qmsg ∧
    (qbwrite q c b bnext).q.state.Qcoalesce = q.state.Qcoalesce ∧
    (qbwrite q c b bnext).q.state.Qstarve = false ∧
    (qbwrite q c b bnext).q.bypass = false ∧
    (qbwrite q c b bnext).q.noblock = q.noblock ∧
    (qbwrite q c b bnext).ret = Res.ret (BLEN b) ∧
    (qbwrite q c b bnext).noblockcnt = c := by
  have h1 : ¬ (decide (q.len ≥ q.limit) && q.noblock) = true := by
    simpa using hacc
  unfold qbwrite
  simp only [hby, ho, h1, Bool.false_eq_true, if_false]
  split_ifs <;> simp_all

theorem qpass_add_bfirst (q : Queue) (b : Block) (bnext : List Block) :
    (qpass_add q b bnext).1.bfirst = q.bfirst ++ b :: bnext ∧
    (qpass_add q b bnext).1.state.Qclosed = q.state.Qclosed ∧
    (qpass_add q b bnext).1.state.Qmsg = q.state.Qmsg ∧
    (qpass_add q b bnext).1.bypass = q.bypass := by
  unfold qpass_add
  simp only []
  split_ifs <;> simp_all

theorem qread_msg_head (q : Queue) (b : Block) (rest : List Block) (len : Nat)
    (hb : q.bfirst = b :: rest) (hc : q.state.Qcoalesce = false) (hm : q.state.Qmsg = true) :
    ((qread q len).ret, (qread q len).out) = msgRead len b.data ∧
    (qread q len).q.bfirst = rest ∧
    (qread q len).q.state.Qmsg = true ∧
    (qread q len).q.state.Qcoalesce = false := by
  rw [qread_stream_head q b rest len hb hc]
  by_cases h : b.data.length > len
  · simp [h, hm, msgRead, qremove, hb, hc]
    omega
  · have h2 : b.data.length ≤ len := by omega
    simp [h, hm, msgRead, qremove, hb, hc, BLEN, List.take_of_length_le h2, h2]

theorem readEach_msg (sizes : List Nat) (q : Queue) (hc : q.state.Qcoalesce = false)
    (hm : q.state.Qmsg = true) (hlen : sizes.length ≤ q.bfirst.length) :
    (readEach q sizes).1 = List.zipWith msgRead sizes (q.bfirst.map Block.data) := by
  induction sizes generalizing q with
  | nil => simp [readEach]
  | cons n ns ih =>
    cases hb : q.bfirst with
    | nil => simp [hb] at hlen
    | cons b rest =>
      obtain ⟨h1, h2, h3, h4⟩ := qread_msg_head q b rest n hb hc hm
      have := ih (qread q n).q h4 h3 (by rw [h2]; simp [hb] at hlen; omega)
      simp only [readEach, List.map_cons, List.zipWith_cons_cons, this, h2]
      rw [h1]

theorem WriteOp.run_single (A : Allocator) (s : Queue × Nat) (w : WriteOp)
    (ho : s.1.state.Qclosed = false)
    (hs : w.single) (hacc : w.enqueues A s) :
    (w.run A s).1.bfirst.map Block.data = s.1.bfirst.map Block.data ++ [w.sent] ∧
    (w.run A s).1.state.Qclosed = false ∧
    (w.run A s).1.state.Qmsg = s.1.state.Qmsg ∧
    (w.run A s).1.state.Qcoalesce = s.1.state.Qcoalesce := by
  cases w with
  | write p =>
    have hp : p.length ≤ Maxatomic := hs
    have hn : ¬ p.length > Maxatomic := by omega
    obtain ⟨hby, hnb, -⟩ := hacc
    have hacc2 : ¬ (s.1.len ≥ s.1.limit ∧ s.1.noblock = true) := by simp [hnb]
    generalize hbk : (allocb A p.length).wp_put p = b
    have hbd : b.data = p := by rw [← hbk]; simp [Block.wp_put, allocb]
    obtain ⟨e1, -, -, -, -, e6, e7, e8, -, -, -, e12, -⟩ :=
      qbwrite_enq s.1 s.2 b [] ho hby hacc2
    simp only [WriteOp.run, WriteOp.sent, qwrite, qwrite_loop, Nat.sub_zero, hn, if_false,
      List.drop_zero, List.take_length, hbk, e12, Nat.zero_add, lt_self_iff_false,
      decide_False, Bool.false_and, Bool.false_eq_true]
    split_ifs <;> simp [e1, e6, e7, e8, hbd]
  | bwrite b bnext =>
    obtain ⟨e1, -, -, -, -, e6, e7, e8, -, -, -, -, -⟩ :=
      qbwrite_enq s.1 s.2 b bnext ho hacc.1 hacc.2
    simp [WriteOp.run, WriteOp.sent, e1, e6, e7, e8]
  | produce p =>
    have h1 : ¬ s.1.len ≥ s.1.limit := by
      have := hacc.1
      omega
    have ha := hacc.2
    simp only [WriteOp.run, WriteOp.sent, qproduce, h1, if_false, iallocb, ha,
      Bool.false_eq_true]
    split_ifs <;> simp_all [Block.wp_put, allocb]
  | pass b bnext =>
    have hb : bnext = [] := hs
    have hl : ¬ s.1.len ≥ s.1.limit := by
      have : s.1.len < s.1.limit := hacc
      omega
    subst hb
    simp only [WriteOp.run, qpass, hl, if_false, ho, Bool.false_eq_true, WriteOp.sent,
      qpass_add]
    split_ifs <;> simp_all

theorem runWrites_single (A : Allocator) (ws : List WriteOp) (s : Queue × Nat)
    (ho : s.1.state.Qclosed = false)
    (hs : ∀ w ∈ ws, w.single) (hacc : allEnqueue A s ws) :
    (runWrites A s ws).1.bfirst.map Block.data
      = s.1.bfirst.map Block.data ++ ws.map WriteOp.sent ∧
    (runWrites A s ws).1.state.Qmsg = s.1.state.Qmsg ∧
    (runWrites A s ws).1.state.Qcoalesce = s.1.state.Qcoalesce := by
  induction ws generalizing s with
  | nil => simp [runWrites]
  | cons w ws ih =>
    obtain ⟨h1, h2, h4, h5⟩ :=
      WriteOp.run_single A s w ho (hs w (List.mem_cons_self _ _)) hacc.1
    obtain ⟨i1, i2, i3⟩ :=
      ih (w.run A s) h2 (fun x hx => hs x (List.mem_cons_of_mem _ hx)) hacc.2
    exact ⟨by simp [runWrites, i1, h1], by simp [runWrites, i2, h4],
      by simp [runWrites, i3, h5]⟩

/-- C2 (as amended): in message mode with coalescing off, every message
enqueued as one buffer (`qwrite` of at most 65536 bytes, `qbwrite` or `qpass`
of a block without successor) is one read unit: the k-th `qread`, with buffer
size `n`, returns exactly the first `min n L` bytes of the k-th queued message
of length `L`, nothing of later messages, and what it did not return of that
message is gone. -/
theorem msg_boundary_single (A : Allocator) (q : Queue) (c : Nat) (ws : List WriteOp)
    (sizes : List Nat) (ho : q.state.Qclosed = false)
    (hm : q.state.Qmsg = true) (hc : q.state.Qcoalesce = false)
    (hs : ∀ w ∈ ws, w.single) (hacc : allEnqueue A (q, c) ws)
    (hlen : sizes.length ≤ q.bfirst.length + ws.length) :
    (readEach (runWrites A (q, c) ws).1 sizes).1
      = List.zipWith msgRead sizes (q.bfirst.map Block.data ++ ws.map WriteOp.sent) := by
  obtain ⟨h1, h2, h3⟩ := runWrites_single A ws (q, c) ho hs hacc
  rw [← h1]
  apply readEach_msg
  · rw [h3]; exact hc
  · rw [h2]; exact hm
  · have := congrArg List.length h1
    simp at this
    omega

theorem msg_boundary_single_witness :
    (readEach (runWrites exAlloc (qopen 1024 Qmessage false 0, 0)
        [WriteOp.write (List.replicate 100 1), WriteOp.write (List.replicate 100 2),
         WriteOp.write (List.replicate 100 3)]).1 [200, 200, 200]).1
      = [(Res.ret 100, List.replicate 100 1), (Res.ret 100, List.replicate 100 2),
         (Res.ret 100, List.replicate 100 3)] :=
  msg_boundary_single exAlloc (qopen 1024 Qmessage false 0) 0
    [WriteOp.write (List.replicate 100 1), WriteOp.write (List.replicate 100 2),
     WriteOp.write (List.replicate 100 3)] [200, 200, 200]
    (by decide) (by decide) (by decide) (by decide) (by decide) (by decide)

/-- C2 (counterexample): a two-buffer chain holding the message `[1, 2, 3, 4]`,
handed to `qpass` on an empty message-mode queue, is not returned by a
`qread` with a buffer of 10 bytes; the read returns the first buffer only. -/
theorem msg_boundary_chain_counterexample :
    (qread (qpass (qopen 1024 Qmessage false 0) ⟨1, [], [1, 2], [], false⟩
        [⟨2, [], [3, 4], [], false⟩]).1 10).out = [1, 2] ∧
    (qread (qpass (qopen 1024 Qmessage false 0) ⟨1, [], [1, 2], [], false⟩
        [⟨2, [], [3, 4], [], false⟩]).1 10).ret = Res.ret 2 ∧
    (qread (qpass (qopen 1024 Qmessage false 0) ⟨1, [], [1, 2], [], false⟩
        [⟨2, [], [3, 4], [], false⟩]).1 10).out
      ≠ payload [⟨1, [], [1, 2], [], false⟩, ⟨2, [], [3, 4], [], false⟩] := by
  decide

theorem tdiv_two (l : Int) : Int.tdiv l 2 = if 0 ≤ l then l / 2 else -((-l) / 2) := by
  split_ifs with h
  · exact Int.tdiv_eq_ediv h (by decide)
  · have h2 : (0 : Int) ≤ -l := by omega
    have := Int.tdiv_eq_ediv h2 (show (0 : Int) ≤ 2 by decide)
    rw [Int.neg_tdiv] at this
    omega

theorem qpass_walk_spec (b : Block) (bnext : List Block) (len dlen : Int) :
    (qpass_walk b bnext len dlen).1 = chainlast b bnext ∧
    (qpass_walk b bnext len dlen).2.1 = len + blockalloclen bnext ∧
    (qpass_walk b bnext len dlen).2.2 = dlen + blocklen bnext := by
  induction bnext generalizing b len dlen with
  | nil => simp [qpass_walk, chainlast, blockalloclen, blocklen]
  | cons b2 next ih =>
    obtain ⟨h1, h2, h3⟩ := ih b2 (len + BALLOC b2) (dlen + BLEN b2)
    simp only [qpass_walk, chainlast, blockalloclen, blocklen, h1, h2, h3]
    exact ⟨trivial, by ring, by ring⟩

theorem qpass_add_flow (q : Queue) (b : Block) (bnext : List Block) :
    (qpass_add q b bnext).1.len = q.len + blockalloclen (b :: bnext) ∧
    (qpass_add q b bnext).1.dlen = q.dlen + blocklen (b :: bnext) ∧
    (qpass_add q b bnext).1.limit = q.limit ∧
    (qpass_add q b bnext).1.state.Qflow
      = (q.state.Qflow || decide (q.len + blockalloclen (b :: bnext) ≥ Int.tdiv q.limit 2)) := by
  obtain ⟨-, h2, h3⟩ := qpass_walk_spec b bnext (BALLOC b) (BLEN b)
  unfold qpass_add
  simp only [h2, h3, blockalloclen, blocklen]
  split_ifs <;> simp_all

theorem BALLOC_nonneg (b : Block) : 0 ≤ BALLOC b := by
  unfold BALLOC; omega

theorem BLEN_nonneg (b : Block) : 0 ≤ BLEN b := by
  unfold BLEN; omega

theorem BLEN_le_BALLOC (b : Block) : BLEN b ≤ BALLOC b := by
  unfold BLEN BALLOC; omega

theorem blockalloclen_nonneg (l : List Block) : 0 ≤ blockalloclen l := by
  induction l with
  | nil => simp [blockalloclen]
  | cons b l ih => have := BALLOC_nonneg b; simp [blockalloclen]; omega

theorem flowrestart_flow (q : Queue) :
    (flowrestart q).1.state.Qflow
      = (q.state.Qflow && !decide (q.len < Int.tdiv q.limit 2)) := by
  unfold flowrestart
  split_ifs with h <;> simp_all

theorem qwakeup_flow (q : Queue) :
    (qwakeup_iunlock q).state.Qflow
      = (q.state.Qflow && !decide (q.len < Int.tdiv q.limit 2)) := by
  have h := flowrestart_flow q
  unfold qwakeup_iunlock
  simp only []
  split_ifs <;> simpa using h

@[simp]
theorem qwakeup_limit (q : Queue) : (qwakeup_iunlock q).limit = q.limit := by
  unfold qwakeup_iunlock; simp only []; split <;> simp

/-- The restart check seen from outside: with the bit set before, it is clear
afterwards exactly when `len` is under half the limit; it is never set. -/
theorem qwakeup_iff (q : Queue) :
    (q.state.Qflow = true →
      ((qwakeup_iunlock q).state.Qflow = false
        ↔ (qwakeup_iunlock q).len < Int.tdiv (qwakeup_iunlock q).limit 2)) ∧
    ((qwakeup_iunlock q).state.Qflow = true → q.state.Qflow = true) := by
  rw [qwakeup_flow, qwakeup_len, qwakeup_limit]
  constructor
  · intro h; simp [h]
  · intro h; simp at h; exact h.1

theorem flowrestart_iff (q : Queue) :
    (q.state.Qflow = true →
      ((flowrestart q).1.state.Qflow = false
        ↔ (flowrestart q).1.len < Int.tdiv (flowrestart q).1.limit 2)) ∧
    ((flowrestart q).1.state.Qflow = true → q.state.Qflow = true) := by
  rw [flowrestart_flow, flowrestart_len, flowrestart_limit]
  constructor
  · intro h; simp [h]
  · intro h; simp at h; exact h.1

theorem qdiscard_loop_state (len : Int) (l : List Block) (q : Queue) (sofar : Int) :
    (qdiscard_loop len l q sofar).1.state = q.state ∧
    (qdiscard_loop len l q sofar).1.limit = q.limit := by
  induction l generalizing q sofar with
  | nil => simp [qdiscard_loop]
  | cons b next ih =>
    simp only [qdiscard_loop]
    split_ifs
    · exact ih _ _
    · exact ⟨rfl, rfl⟩
    · exact ⟨rfl, rfl⟩

theorem qconsume_skip_state (l : List Block) (q : Queue) :
    ((∃ b ∈ l, b.data ≠ []) →
      ∃ b next, (qconsume_skip l q).2 = some (b, next) ∧ b.data ≠ [] ∧
        (qconsume_skip l q).1.state = q.state ∧ (qconsume_skip l q).1.limit = q.limit) ∧
    ((qconsume_skip l q).2 = none →
      (qconsume_skip l q).1.state.Qflow = q.state.Qflow) ∧
    ((qconsume_skip l q).1.state.Qflow = q.state.Qflow) := by
  induction l generalizing q with
  | nil => simp [qconsume_skip]
  | cons b next ih =>
    by_cases hb : BLEN b > 0
    · have hd : b.data ≠ [] := by
        intro h; simp [BLEN, h] at hb
      simp [qconsume_skip, hb, hd]
    · have hd : b.data = [] := by
        simp [BLEN] at hb; exact hb
      obtain ⟨i1, i2, i3⟩ := ih { q with bfirst := next, len := q.len - BALLOC b }
      simp only [qconsume_skip, hb, if_false]
      refine ⟨?_, ?_, ?_⟩
      · rintro ⟨x, hx, hxd⟩
        simp only [List.mem_cons] at hx
        rcases hx with rfl | hx
        · exact absurd hd hxd
        · exact i1 ⟨x, hx, hxd⟩
      · exact i2
      · exact i3

theorem qread_finish_wakeup (q : Queue) (first : List Block) (n : Int) (len : Nat) :
    ∃ q0, (qread_finish q first n len).q = qwakeup_iunlock q0 ∧ q0.state = q.state ∧
      q0.limit = q.limit := by
  unfold qread_finish
  simp only []
  split
  · exact ⟨q, rfl, rfl, rfl⟩
  · split_ifs
    · exact ⟨q, rfl, rfl, rfl⟩
    · exact ⟨_, rfl, rfl, rfl⟩

theorem qread_again_flow (fuel : Nat) (q : Queue) (len : Nat) (hf : q.bfirst.length < fuel) :
    (canRead q → ∃ q0, (qread_again fuel q len).q = qwakeup_iunlock q0 ∧
        q0.state = q.state ∧ q0.limit = q.limit) ∧
    (¬ canRead q → (qread_again fuel q len).q.state.Qflow = q.state.Qflow) := by
  induction fuel generalizing q with
  | zero => omega
  | succ fuel ih =>
    cases hb : q.bfirst with
    | nil =>
      refine ⟨fun h => ?_, fun _ => ?_⟩
      · obtain ⟨x, hx, -⟩ := h
        simp [hb] at hx
      · simp only [qread_again, qwait, hb]
        split_ifs <;> rfl
    | cons b rest =>
      cases hc : q.state.Qcoalesce with
      | false =>
        have hcr : canRead q := ⟨b, by simp [hb], by simp [hc]⟩
        refine ⟨fun _ => ?_, fun h => absurd hcr h⟩
        simp only [qread_again, qwait, hb, hc, qremove, Bool.false_eq_true, if_false]
        obtain ⟨q0, h1, h2, h3⟩ := qread_finish_wakeup
          { q with bfirst := rest, dlen := q.dlen - BLEN b, len := q.len - BALLOC b }
          [b] (BLEN b) len
        exact ⟨q0, h1, h2, h3⟩
      | true =>
        by_cases hz : BLEN b ≤ 0
        · have hd : b.data = [] := by
            simp [BLEN] at hz; exact hz
          have hr : (qremove q).1.bfirst = rest := by simp [qremove, hb]
          have hs : (qremove q).1.state = q.state := by simp [qremove, hb]
          have hl : (qremove q).1.limit = q.limit := by simp [qremove, hb]
          have hf2 : (qremove q).1.bfirst.length < fuel := by
            rw [hr]; simp [hb] at hf; omega
          have hcan : canRead q ↔ canRead (qremove q).1 := by
            unfold canRead
            rw [hr, hs, hb]
            constructor
            · rintro ⟨x, hx, hxd⟩
              simp only [List.mem_cons] at hx
              rcases hx with rfl | hx
              · exact absurd hd (hxd hc)
              · exact ⟨x, hx, hxd⟩
            · rintro ⟨x, hx, hxd⟩
              exact ⟨x, List.mem_cons_of_mem _ hx, hxd⟩
          obtain ⟨i1, i2⟩ := ih (qremove q).1 hf2
          simp only [qread_again, qwait, hb, hc, hz, if_true]
          rw [hs, hl] at i1
          rw [hs] at i2
          exact ⟨fun h => i1 (hcan.mp h), fun h => i2 (fun h2 => h (hcan.mpr h2))⟩
        · have hd : b.data ≠ [] := by
            intro h; simp [BLEN, h] at hz
          have hcr : canRead q := ⟨b, by simp [hb], fun _ => hd⟩
          refine ⟨fun _ => ?_, fun h => absurd hcr h⟩
          have hg := qread_grab_spec q.bfirst.length q 0 (len : Int) b rest (le_refl _) hb
          simp only [qread_again, qwait, hb, hc, hz, if_false, if_true]
          rw [hb] at hg
          generalize qread_grab (b :: rest).length q 0 (len : Int) = G at hg ⊢
          obtain ⟨-, -, -, -, g5, -, g7, -, -⟩ := hg
          obtain ⟨q0, h1, h2, h3⟩ := qread_finish_wakeup G.1 G.2.1 G.2.2 len
          exact ⟨q0, h1, by rw [h2, g5], by rw [h3, g7]⟩

theorem qwakeup_of_state (q q0 : Queue) (hs : q0.state = q.state) :
    (q.state.Qflow = true → flowCleared (qwakeup_iunlock q0)) ∧
    ((qwakeup_iunlock q0).state.Qflow = true → q.state.Qflow = true) := by
  obtain ⟨h1, h2⟩ := qwakeup_iff q0
  rw [hs] at h1 h2
  exact ⟨h1, h2⟩

theorem qget_flow (q : Queue) :
    (q.state.Qflow = true → q.bfirst ≠ [] → flowCleared (qget q).1) ∧
    ((qget q).1.state.Qflow = true → q.state.Qflow = true) := by
  cases hb : q.bfirst with
  | nil => simp [qget, hb]
  | cons b next =>
    simp only [qget, hb]
    obtain ⟨h1, h2⟩ := flowrestart_iff
      { q with bfirst := next, len := q.len - BALLOC b, dlen := q.dlen - BLEN b }
    exact ⟨fun hq _ => h1 hq, h2⟩

theorem qdiscard_flow (q : Queue) (len : Int) :
    (q.state.Qflow = true → flowCleared (qdiscard q len).1) ∧
    ((qdiscard q len).1.state.Qflow = true → q.state.Qflow = true) := by
  obtain ⟨h1, h2⟩ := flowrestart_iff (qdiscard_loop len q.bfirst q 0).1
  rw [(qdiscard_loop_state len q.bfirst q 0).1] at h1 h2
  exact ⟨h1, h2⟩

theorem qconsume_flow (q : Queue) (len : Nat) :
    (q.state.Qflow = true → (∃ b ∈ q.bfirst, b.data ≠ []) → flowCleared (qconsume q len).1) ∧
    ((qconsume q len).1.state.Qflow = true → q.state.Qflow = true) := by
  obtain ⟨s1, -, s3⟩ := qconsume_skip_state q.bfirst q
  unfold qconsume
  generalize qconsume_skip q.bfirst q = R at s1 s3
  obtain ⟨q1, o⟩ := R
  cases o with
  | none =>
    refine ⟨fun _ he => ?_, fun h => ?_⟩
    · obtain ⟨b, next, hsome, -⟩ := s1 he
      simp at hsome
    · simp only [] at h s3 ⊢
      rw [← s3]; exact h
  | some bn =>
    obtain ⟨b, next⟩ := bn
    simp only [] at s3 ⊢
    refine ⟨fun hq _ => ?_, fun h => ?_⟩
    · split_ifs <;> exact (flowrestart_iff _).1 (by simpa [s3] using hq)
    · split_ifs at h <;>
        · have := (flowrestart_iff _).2 h
          simpa [s3] using this

theorem qbread_flow (A : Allocator) (q : Queue) (len : Nat) :
    (q.state.Qflow = true → q.bfirst ≠ [] → flowCleared (qbread A q len).1) ∧
    ((qbread A q len).1.state.Qflow = true → q.state.Qflow = true) := by
  cases hb : q.bfirst with
  | nil =>
    refine ⟨fun _ h => absurd rfl h, ?_⟩
    simp only [qbread, qwait, hb]
    split_ifs <;> exact id
  | cons b rest =>
    simp only [qbread, qwait, hb, qremove]
    split_ifs <;>
      exact ⟨fun hq _ => (qwakeup_of_state q _ (by rfl)).1 hq,
        (qwakeup_of_state q _ (by rfl)).2⟩

theorem qread_flow (q : Queue) (len : Nat) :
    (q.state.Qflow = true → canRead q → flowCleared (qread q len).q) ∧
    ((qread q len).q.state.Qflow = true → q.state.Qflow = true) := by
  obtain ⟨h1, h2⟩ := qread_again_flow (q.bfirst.length + 1) q len (Nat.lt_succ_self _)
  refine ⟨fun hq hc => ?_, fun h => ?_⟩
  · obtain ⟨q0, e1, e2, -⟩ := h1 hc
    unfold qread
    rw [e1]
    exact (qwakeup_of_state q q0 e2).1 hq
  · by_cases hc : canRead q
    · obtain ⟨q0, e1, e2, -⟩ := h1 hc
      unfold qread at h
      rw [e1] at h
      exact (qwakeup_of_state q q0 e2).2 h
    · have := h2 hc
      unfold qread at h
      rw [this] at h
      exact h

/-- C4 (as amended): for a queue whose flow-controlled bit is set, every
consumer that reaches its restart check (`qdiscard` always, `qget` and
`qbread` when a buffer is queued, `qconsume` when a buffer with data is
queued, `qread` when a buffer it can return is queued) leaves the bit clear
if and only if the footprint `len` after the call is under `limit / 2` in C
division; and no consumer call, on any queue, sets the bit. -/
theorem consumer_flow_restart (A : Allocator) (q : Queue) (n : Nat) (k : Int) :
    (q.state.Qflow = true →
      flowCleared (qdiscard q k).1 ∧
      (q.bfirst ≠ [] → flowCleared (qget q).1 ∧ flowCleared (qbread A q n).1) ∧
      ((∃ b ∈ q.bfirst, b.data ≠ []) → flowCleared (qconsume q n).1) ∧
      (canRead q → flowCleared (qread q n).q)) ∧
    ((qget q).1.state.Qflow = true → q.state.Qflow = true) ∧
    ((qdiscard q k).1.state.Qflow = true → q.state.Qflow = true) ∧
    ((qconsume q n).1.state.Qflow = true → q.state.Qflow = true) ∧
    ((qread q n).q.state.Qflow = true → q.state.Qflow = true) ∧
    ((qbread A q n).1.state.Qflow = true → q.state.Qflow = true) :=
  ⟨fun hq => ⟨(qdiscard_flow q k).1 hq,
      fun hb => ⟨(qget_flow q).1 hq hb, (qbread_flow A q n).1 hq hb⟩,
      (qconsume_flow q n).1 hq, (qread_flow q n).1 hq⟩,
    (qget_flow q).2, (qdiscard_flow q k).2, (qconsume_flow q n).2, (qread_flow q n).2,
    (qbread_flow A q n).2⟩

theorem consumer_flow_restart_witness :
    flowCleared (qdiscard (qbwrite (qopen 4 Qstream false 0) 0
      ⟨1, [], [1, 2, 3, 4], [], false⟩ []).q 3).1 :=
  ((consumer_flow_restart exAlloc (qbwrite (qopen 4 Qstream false 0) 0
      ⟨1, [], [1, 2, 3, 4], [], false⟩ []).q 3 3).1 (by decide)).1

/-- C4 (counterexample): a blocking `qbwrite` of four bytes on a queue of
limit 4 sets the flow-controlled bit, `qflush` empties the queue, and the
consumer `qget` then finds nothing and returns with the bit still set although
`len = 0 < limit / 2 = 2`. -/
theorem consumer_flow_restart_counterexample :
    (qflush (qbwrite (qopen 4 Qstream false 0) 0
      ⟨1, [], [1, 2, 3, 4], [], false⟩ []).q).state.Qflow = true ∧
    (qget (qflush (qbwrite (qopen 4 Qstream false 0) 0
      ⟨1, [], [1, 2, 3, 4], [], false⟩ []).q)).1.state.Qflow = true ∧
    (qget (qflush (qbwrite (qopen 4 Qstream false 0) 0
      ⟨1, [], [1, 2, 3, 4], [], false⟩ []).q)).1.len
      < Int.tdiv (qget (qflush (qbwrite (qopen 4 Qstream false 0) 0
          ⟨1, [], [1, 2, 3, 4], [], false⟩ []).q)).1.limit 2 := by
  decide

theorem blocklen_append (l m : List Block) : blocklen (l ++ m) = blocklen l + blocklen m := by
  induction l with
  | nil => simp [blocklen]
  | cons b l ih => simp [blocklen, ih]; ring

theorem blockalloclen_append (l m : List Block) :
    blockalloclen (l ++ m) = blockalloclen l + blockalloclen m := by
  induction l with
  | nil => simp [blockalloclen]
  | cons b l ih => simp [blockalloclen, ih]; ring

theorem blocklen_le_blockalloclen (l : List Block) : blocklen l ≤ blockalloclen l := by
  induction l with
  | nil => simp [blocklen, blockalloclen]
  | cons b l ih =>
    have := BLEN_le_BALLOC b
    simp [blocklen, blockalloclen]; omega

theorem getLast_chainlast (b : Block) (l : List Block) :
    (b :: l).getLast? = some (chainlast b l) := by
  induction l generalizing b with
  | nil => simp [chainlast]
  | cons b2 l ih => rw [List.getLast?_cons_cons, ih b2]; simp [chainlast]

theorem qinv_congr (q q2 : Queue) (h1 : q2.bfirst = q.bfirst) (h2 : q2.blast = q.blast)
    (h3 : q2.len = q.len) (h4 : q2.dlen = q.dlen) (h : qinv q) : qinv q2 := by
  unfold qinv at h ⊢
  rw [h1, h2, h3, h4]; exact h

theorem qinv_append (q q2 : Queue) (b : Block) (bnext : List Block)
    (h1 : q2.bfirst = q.bfirst ++ b :: bnext) (h2 : q2.blast = some (chainlast b bnext).addr)
    (h3 : q2.len = q.len + blockalloclen (b :: bnext))
    (h4 : q2.dlen = q.dlen + blocklen (b :: bnext)) (h : qinv q) : qinv q2 := by
  obtain ⟨i1, i2, -⟩ := h
  refine ⟨?_, ?_, ?_⟩
  · rw [h4, h1, blocklen_append, i1]
  · rw [h3, h1, blockalloclen_append, i2]
  · intro _
    rw [h1, h2, List.getLast?_append, getLast_chainlast]
    simp

theorem qinv_pop (q q2 : Queue) (b : Block) (rest : List Block) (hb : q.bfirst = b :: rest)
    (h1 : q2.bfirst = rest) (h2 : q2.blast = q.blast) (h3 : q2.len = q.len - BALLOC b)
    (h4 : q2.dlen = q.dlen - BLEN b) (h : qinv q) : qinv q2 := by
  obtain ⟨i1, i2, i3⟩ := h
  rw [hb] at i1 i2 i3
  refine ⟨?_, ?_, ?_⟩
  · rw [h4, h1, i1]; simp [blocklen]
  · rw [h3, h1, i2]; simp [blockalloclen]
  · intro hne
    rw [h1] at hne ⊢
    rw [h2, i3 (by simp)]
    cases rest with
    | nil => exact absurd rfl hne
    | cons x xs => rw [List.getLast?_cons_cons]

theorem qinv_push (q q2 : Queue) (b : Block) (h1 : q2.bfirst = b :: q.bfirst)
    (h2 : q2.blast = if q.bfirst = [] then some b.addr else q.blast)
    (h3 : q2.len = q.len + BALLOC b) (h4 : q2.dlen = q.dlen + BLEN b) (h : qinv q) :
    qinv q2 := by
  obtain ⟨i1, i2, i3⟩ := h
  refine ⟨?_, ?_, ?_⟩
  · rw [h4, h1, i1]; simp [blocklen]; ring
  · rw [h3, h1, i2]; simp [blockalloclen]; ring
  · intro _
    rw [h1, h2]
    cases hq : q.bfirst with
    | nil => simp
    | cons x xs =>
      rw [List.getLast?_cons_cons, ← hq]
      simp only [hq, reduceCtorEq, if_false]
      rw [← hq]; exact i3 (by simp [hq])

theorem qinv_empty (q : Queue) (h1 : q.bfirst = []) (h3 : q.len = 0) (h4 : q.dlen = 0) :
    qinv q := by
  refine ⟨by rw [h4, h1]; rfl, by rw [h3, h1]; rfl, fun h => absurd h1 h⟩

@[simp]
theorem flowrestart_fields (q : Queue) :
    (flowrestart q).1.bfirst = q.bfirst ∧ (flowrestart q).1.blast = q.blast ∧
    (flowrestart q).1.len = q.len ∧ (flowrestart q).1.dlen = q.dlen := by
  unfold flowrestart; split <;> simp

theorem qwakeup_fields (q : Queue) :
    (qwakeup_iunlock q).bfirst = q.bfirst ∧ (qwakeup_iunlock q).blast = q.blast ∧
    (qwakeup_iunlock q).len = q.len ∧ (qwakeup_iunlock q).dlen = q.dlen := by
  unfold qwakeup_iunlock; simp only []; split <;> simp

theorem qinv_flowrestart (q : Queue) (h : qinv q) : qinv (flowrestart q).1 := by
  obtain ⟨h1, h2, h3, h4⟩ := flowrestart_fields q
  exact qinv_congr q _ h1 h2 h3 h4 h

theorem qinv_qwakeup (q : Queue) (h : qinv q) : qinv (qwakeup_iunlock q) := by
  obtain ⟨h1, h2, h3, h4⟩ := qwakeup_fields q
  exact qinv_congr q _ h1 h2 h3 h4 h

theorem qinv_drop_front (q q2 : Queue) (first : List Block)
    (h1 : first ++ q2.bfirst = q.bfirst) (h2 : q2.blast = q.blast)
    (h3 : q2.len = q.len - blockalloclen first) (h4 : q2.dlen = q.dlen - blocklen first)
    (h : qinv q) : qinv q2 := by
  obtain ⟨i1, i2, i3⟩ := h
  rw [← h1] at i1 i2 i3
  refine ⟨?_, ?_, ?_⟩
  · rw [h4, i1, blocklen_append]; ring
  · rw [h3, i2, blockalloclen_append]; ring
  · intro hne
    rw [h2, i3 (by simp [hne]), List.getLast?_append]
    cases hl : q2.bfirst.getLast? with
    | none => simp [List.getLast?_eq_none_iff] at hl; exact absurd hl hne
    | some x => simp

theorem qinv_qpass_add (q : Queue) (b : Block) (bnext : List Block) (h : qinv q) :
    qinv (qpass_add q b bnext).1 := by
  obtain ⟨h1, -⟩ := qpass_add_bfirst q b bnext
  obtain ⟨h3, h4, -⟩ := qpass_add_flow q b bnext
  have h2 : (qpass_add q b bnext).1.blast = some (chainlast b bnext).addr := by
    obtain ⟨w1, -, -⟩ := qpass_walk_spec b bnext (BALLOC b) (BLEN b)
    unfold qpass_add
    simp only [w1]
    split_ifs <;> rfl
  exact qinv_append q _ b bnext h1 h2 h3 h4 h

theorem qinv_qpass (q : Queue) (b : Block) (bnext : List Block) (h : qinv q) :
    qinv (qpass q b bnext).1 := by
  unfold qpass
  split_ifs
  · exact h
  · exact h
  · exact qinv_qpass_add q b bnext h

theorem qinv_qpassnolim (q : Queue) (b : Block) (bnext : List Block) (h : qinv q) :
    qinv (qpassnolim q b bnext).1 := by
  unfold qpassnolim
  split_ifs
  · exact h
  · exact qinv_qpass_add q b bnext h

theorem qinv_one (q q2 : Queue) (b : Block) (h1 : q2.bfirst = q.bfirst ++ [b])
    (h2 : q2.blast = some b.addr) (h3 : q2.len = q.len + BALLOC b)
    (h4 : q2.dlen = q.dlen + BLEN b) (h : qinv q) : qinv q2 :=
  qinv_append q q2 b [] h1 (by simpa [chainlast] using h2)
    (by simpa [blockalloclen] using h3) (by simpa [blocklen] using h4) h

theorem qinv_qproduce (A : Allocator) (q : Queue) (p : List Byte) (h : qinv q) :
    qinv (qproduce A q p).1 := by
  unfold qproduce
  split_ifs
  · exact qinv_congr q _ rfl rfl rfl rfl h
  · cases iallocb A p.length with
    | none => exact h
    | some b0 =>
      simp only []
      refine qinv_one q _ (b0.wp_put p) ?_ ?_ ?_ ?_ h <;> split_ifs <;> rfl

theorem qinv_qbwrite (q : Queue) (c : Nat) (b : Block) (bnext : List Block) (h : qinv q) :
    qinv (qbwrite q c b bnext).q := by
  unfold qbwrite
  simp only []
  split_ifs
  all_goals first
    | exact h
    | exact qinv_congr q _ rfl rfl rfl rfl h
    | exact qinv_one q _ b rfl rfl rfl rfl h

theorem qinv_qwrite_loop (A : Allocator) (fuel : Nat) (q : Queue) (c : Nat) (p : List Byte)
    (sofar : Nat) (h : qinv q) : qinv (qwrite_loop A fuel q c p sofar).q := by
  induction fuel generalizing q c sofar with
  | zero => exact h
  | succ fuel ih =>
    simp only [qwrite_loop]
    generalize hr : qbwrite q c _ [] = r
    have hi : qinv r.q := by rw [← hr]; exact qinv_qbwrite q c _ [] h
    cases r.ret with
    | ret v =>
      simp only []
      split_ifs <;> first | exact hi | exact ih _ _ _ hi
    | raised e => exact hi
    | asleep => exact hi
    | fault => exact hi

theorem iallocb_data (A : Allocator) (n : Nat) (b0 : Block) (h : iallocb A n = some b0) :
    b0.data = [] := by
  unfold iallocb at h
  split_ifs at h
  simp only [Option.some.injEq] at h
  rw [← h]; rfl

theorem qinv_qiwrite_loop (A : Allocator) (fuel : Nat) (q : Queue) (p : List Byte)
    (sofar : Nat) (d : Bool) (h : qinv q) : qinv (qiwrite_loop A fuel q p sofar d).1 := by
  induction fuel generalizing q sofar d with
  | zero => exact h
  | succ fuel ih =>
    simp only [qiwrite_loop]
    generalize hn : (if p.length - sofar > Maxatomic then Maxatomic else p.length - sofar) = n
    have hnle : n ≤ p.length - sofar := by
      rw [← hn]; split_ifs <;> omega
    cases ha : iallocb A n with
    | none => exact h
    | some b0 =>
      have hd := iallocb_data A n b0 ha
      have hbl : BLEN (b0.wp_put ((p.drop sofar).take n)) = (n : Int) := by
        simp [BLEN, Block.wp_put, hd]; omega
      have hq1 : qinv
          { q with
            bfirst := q.bfirst ++ [b0.wp_put ((p.drop sofar).take n)]
            blast := some (b0.wp_put ((p.drop sofar).take n)).addr
            len := q.len + BALLOC (b0.wp_put ((p.drop sofar).take n))
            dlen := q.dlen + (n : Int) } :=
        qinv_one q _ (b0.wp_put ((p.drop sofar).take n)) rfl rfl rfl (by rw [hbl]) h
      simp only []
      split_ifs
      all_goals first
        | exact h
        | exact qinv_congr _ _ (by rfl) (by rfl) (by rfl) (by rfl) hq1
        | exact ih _ _ _ (qinv_congr _ _ (by rfl) (by rfl) (by rfl) (by rfl) hq1)

theorem qinv_qaddlist (q : Queue) (b : Block) (bnext : List Block) (h : qinv q) :
    qinv (qaddlist q b bnext) :=
  qinv_append q _ b bnext rfl rfl rfl rfl h

theorem qinv_qremove (q : Queue) (h : qinv q) : qinv (qremove q).1 := by
  cases hb : q.bfirst with
  | nil => simpa [qremove, hb] using h
  | cons b rest =>
    simp only [qremove, hb]
    exact qinv_pop q _ b rest hb rfl rfl rfl rfl h

theorem qinv_qget (q : Queue) (h : qinv q) : qinv (qget q).1 := by
  cases hb : q.bfirst with
  | nil =>
    simp only [qget, hb]
    exact qinv_congr q _ (by rw [hb]) rfl rfl rfl h
  | cons b rest =>
    simp only [qget, hb]
    exact qinv_flowrestart _ (qinv_pop q _ b rest hb rfl rfl rfl rfl h)

theorem qinv_qputback (q : Queue) (b : Block) (h : qinv q) : qinv (qputback q b) :=
  qinv_push q _ b rfl rfl rfl rfl h

theorem qinv_head_adv (q q2 : Queue) (b : Block) (rest : List Block) (n : Nat)
    (hb : q.bfirst = b :: rest) (hn : n ≤ b.data.length)
    (h1 : q2.bfirst = b.rp_add n :: rest) (h2 : q2.blast = q.blast) (h3 : q2.len = q.len)
    (h4 : q2.dlen = q.dlen - (n : Int)) (h : qinv q) : qinv q2 := by
  obtain ⟨i1, i2, i3⟩ := h
  rw [hb] at i1 i2 i3
  refine ⟨?_, ?_, ?_⟩
  · rw [h4, h1, i1]; simp [blocklen, BLEN, Block.rp_add]; omega
  · rw [h3, h1, i2]; simp [blockalloclen, BALLOC, Block.rp_add]; omega
  · intro _
    rw [h1, h2, i3 (by simp)]
    cases rest with
    | nil => simp [Block.rp_add]
    | cons x xs => simp [List.getLast?_cons_cons]

theorem qinv_qdiscard_loop (len : Int) (l : List Block) (q : Queue) (sofar : Int)
    (hl : q.bfirst = l) (h : qinv q) : qinv (qdiscard_loop len l q sofar).1 := by
  induction l generalizing q sofar with
  | nil => exact h
  | cons b next ih =>
    simp only [qdiscard_loop]
    split_ifs with h1 h2
    · exact ih _ _ rfl (qinv_pop q _ b next hl rfl rfl rfl rfl h)
    · have hn : (len - sofar).toNat ≤ b.data.length := by
        simp only [BLEN] at h2; omega
      refine qinv_head_adv q _ b next (len - sofar).toNat hl hn rfl rfl rfl ?_ h
      simp only []
      omega
    · exact h

theorem qinv_qdiscard (q : Queue) (len : Int) (h : qinv q) : qinv (qdiscard q len).1 :=
  qinv_flowrestart _ (qinv_qdiscard_loop len q.bfirst q 0 rfl h)

theorem qinv_qconsume_skip (l : List Block) (q : Queue) (hl : q.bfirst = l) (h : qinv q) :
    qinv (qconsume_skip l q).1 ∧
    (∀ b next, (qconsume_skip l q).2 = some (b, next) →
      (qconsume_skip l q).1.bfirst = b :: next) := by
  induction l generalizing q with
  | nil =>
    simp only [qconsume_skip]
    exact ⟨qinv_congr q _ rfl rfl rfl rfl h, by simp⟩
  | cons b next ih =>
    simp only [qconsume_skip]
    split_ifs with h1
    · refine ⟨h, ?_⟩
      intro b2 next2 he
      simp only [Option.some.injEq, Prod.mk.injEq] at he
      rw [hl, he.1, he.2]
    · have hz : BLEN b = 0 := by
        have := BLEN_nonneg b
        omega
      exact ih _ rfl (qinv_pop q _ b next hl rfl rfl rfl (by simp [hz]) h)

theorem qinv_qconsume (q : Queue) (len : Nat) (h : qinv q) : qinv (qconsume q len).1 := by
  obtain ⟨s1, s2⟩ := qinv_qconsume_skip q.bfirst q rfl h
  unfold qconsume
  generalize qconsume_skip q.bfirst q = R at s1 s2
  obtain ⟨q1, o⟩ := R
  cases o with
  | none => exact s1
  | some bn =>
    obtain ⟨b, next⟩ := bn
    have hb : q1.bfirst = b :: next := s2 b next rfl
    simp only [] at s1 ⊢
    generalize hm : (if b.data.length < len then b.data.length else len) = m
    have hmle : m ≤ b.data.length := by
      rw [← hm]; split_ifs <;> omega
    have hq2 : qinv
        { q1 with
          bfirst := b.rp_add m :: next
          dlen := q1.dlen - (m : Int) } :=
      qinv_head_adv q1 _ b next m hb hmle rfl rfl rfl rfl s1
    apply qinv_flowrestart
    split_ifs
    · exact qinv_pop _ _ (b.rp_add m) next (by rfl) (by rfl) (by rfl) (by rfl) (by rfl) hq2
    · exact hq2

theorem qinv_qwait (q : Queue) (h : qinv q) : qinv (qwait q).1 := by
  unfold qwait
  split
  · exact h
  · simp only []
    split_ifs <;> exact qinv_congr q _ (by rfl) (by rfl) (by rfl) (by rfl) h

theorem qinv_qbread (A : Allocator) (q : Queue) (len : Nat) (h : qinv q) :
    qinv (qbread A q len).1 := by
  have hw := qinv_qwait q h
  unfold qbread
  generalize qwait q = W at hw
  obtain ⟨q1, w⟩ := W
  simp only [] at hw
  cases w with
  | eof => exact hw
  | error => exact hw
  | sleep => exact hw
  | data =>
    simp only []
    have hr := qinv_qremove q1 hw
    generalize qremove q1 = R at hr
    obtain ⟨q2, o⟩ := R
    simp only [] at hr
    cases o with
    | none => exact hr
    | some nb =>
      simp only []
      split_ifs
      · exact qinv_qwakeup _ (qinv_qputback _ _ hr)
      · exact qinv_qwakeup _ hr
      · exact qinv_qwakeup _ hr

theorem qinv_qread_finish (q : Queue) (first : List Block) (n : Int) (len : Nat)
    (h : qinv q) : qinv (qread_finish q first n len).q := by
  unfold qread_finish
  simp only []
  split
  · exact qinv_qwakeup _ h
  · split_ifs
    · exact qinv_qwakeup _ h
    · exact qinv_qwakeup _ (qinv_qputback _ _ h)

theorem qinv_qread_again (fuel : Nat) (q : Queue) (len : Nat) (h : qinv q) :
    qinv (qread_again fuel q len).q := by
  induction fuel generalizing q with
  | zero => exact h
  | succ fuel ih =>
    have hw := qinv_qwait q h
    have hwb : (qwait q).1.bfirst = q.bfirst := by
      unfold qwait; split
      · rfl
      · simp only []
        split_ifs <;> rfl
    simp only [qread_again]
    generalize qwait q = W at hw hwb
    obtain ⟨q1, w⟩ := W
    simp only [] at hw hwb
    cases w with
    | eof => exact hw
    | error => exact hw
    | sleep => exact hw
    | data =>
      simp only []
      split_ifs
      · cases hb : q1.bfirst with
        | nil => exact hw
        | cons b rest =>
          simp only []
          split_ifs
          · exact ih _ (qinv_qremove q1 hw)
          · have hg := qread_grab_spec q1.bfirst.length q1 0 (len : Int) b rest (le_refl _) hb
            rw [hb] at hg
            generalize qread_grab (b :: rest).length q1 0 (len : Int) = G at hg ⊢
            obtain ⟨g1, -, -, -, -, g6, -, g8, g9⟩ := hg
            exact qinv_qread_finish _ _ _ _ (qinv_drop_front q1 G.1 G.2.1 (by rw [hb]; exact g1) g6 g8 g9 hw)
      · have hr := qinv_qremove q1 hw
        generalize qremove q1 = R at hr
        obtain ⟨q2, o⟩ := R
        cases o with
        | none => exact hr
        | some first => exact qinv_qread_finish _ _ _ _ hr

theorem qinv_step (A : Allocator) (errmax : Nat) (q : Queue) (o : Op) (h : qinv q) :
    qinv (step A errmax q o) := by
  cases o with
  | pass b bnext => exact qinv_qpass q b bnext h
  | passnolim b bnext => exact qinv_qpassnolim q b bnext h
  | produce p => exact qinv_qproduce A q p h
  | bwrite b bnext => exact qinv_qbwrite q 0 b bnext h
  | write p => exact qinv_qwrite_loop A _ q 0 p 0 h
  | iwrite p => exact qinv_qiwrite_loop A _ q p 0 false h
  | addlist b bnext => exact qinv_qaddlist q b bnext h
  | get => exact qinv_qget q h
  | remove => exact qinv_qremove q h
  | putback b => exact qinv_qputback q b h
  | discard len => exact qinv_qdiscard q len h
  | consume len => exact qinv_qconsume q len h
  | read len => exact qinv_qread_again _ q len h
  | bread len => exact qinv_qbread A q len h
  | flush => exact qinv_empty _ rfl rfl rfl
  | close => exact qinv_empty _ rfl rfl rfl
  | hangup msg => exact qinv_congr q _ rfl rfl rfl rfl h
  | reopen => exact qinv_congr q _ rfl rfl rfl rfl h
  | setlimit limit => exact qinv_congr q _ rfl rfl rfl rfl h
  | noblock onoff => exact qinv_congr q _ rfl rfl rfl rfl h

theorem qinv_runOps (A : Allocator) (errmax : Nat) (os : List Op) (q : Queue) (h : qinv q) :
    qinv (runOps A errmax q os) := by
  induction os generalizing q with
  | nil => exact h
  | cons o os ih => exact ih _ (qinv_step A errmax q o h)

theorem qinv_qopen (limit : Int) (msg : QState) (kick : Bool) (arg : Nat) :
    qinv (qopen limit msg kick arg) :=
  qinv_empty _ rfl rfl rfl

theorem qbwrite_flow (q : Queue) (c : Nat) (b : Block) (bnext : List Block) :
    ((qbwrite q c b bnext).held = false →
      (qbwrite q c b bnext).q.state.Qflow = q.state.Qflow) ∧
    (q.state.Qflow = false → (qbwrite q c b bnext).q.state.Qflow = true →
      (qbwrite q c b bnext).q.len ≥ (qbwrite q c b bnext).q.limit) := by
  unfold qbwrite qnotfull
  simp only []
  split_ifs <;> simp_all

theorem qwrite_loop_flow (A : Allocator) (fuel : Nat) (q : Queue) (c : Nat) (p : List Byte)
    (sofar : Nat) (h0 : q.state.Qflow = false)
    (h1 : (qwrite_loop A fuel q c p sofar).q.state.Qflow = true) :
    (qwrite_loop A fuel q c p sofar).q.len ≥ (qwrite_loop A fuel q c p sofar).q.limit := by
  induction fuel generalizing q c sofar with
  | zero => simp [qwrite_loop, h0] at h1
  | succ fuel ih =>
    simp only [qwrite_loop] at h1 ⊢
    generalize (if p.length - sofar > Maxatomic then Maxatomic else p.length - sofar) = n
      at h1 ⊢
    generalize (allocb A n).wp_put ((p.drop sofar).take n) = b at h1 ⊢
    have hf := qbwrite_flow q c b []
    generalize qbwrite q c b [] = r at hf h1 ⊢
    obtain ⟨f1, f2⟩ := hf
    cases hret : r.ret with
    | ret v =>
      simp only [hret] at h1 ⊢
      by_cases hh : r.held = true
      · simp only [hh, if_true] at h1 ⊢
        exact f2 h0 h1
      · have hh2 : r.held = false := by simpa using hh
        simp only [hh2, Bool.false_eq_true, if_false] at h1 ⊢
        split_ifs at h1 ⊢
        all_goals first
          | exact ih _ _ _ (by rw [f1 hh2]; exact h0) h1
          | exact f2 h0 h1
    | raised e => simp only [hret] at h1 ⊢; exact f2 h0 h1
    | asleep => simp only [hret] at h1 ⊢; exact f2 h0 h1
    | fault => simp only [hret] at h1 ⊢; exact f2 h0 h1

theorem qiwrite_loop_flow (A : Allocator) (fuel : Nat) (q : Queue) (p : List Byte)
    (sofar : Nat) (d : Bool) :
    (qiwrite_loop A fuel q p sofar d).1.state.Qflow = q.state.Qflow := by
  induction fuel generalizing q sofar d with
  | zero => rfl
  | succ fuel ih =>
    simp only [qiwrite_loop]
    cases iallocb A (if p.length - sofar > Maxatomic then Maxatomic else p.length - sofar) with
    | none => rfl
    | some b0 =>
      simp only []
      split_ifs
      all_goals first
        | rfl
        | rw [ih]

/-- C3 (as amended): on an open queue whose footprint `len` is not negative,
the flow-controlled bit is set whenever `len >= limit` holds after `qproduce`
returns, after `qpass` (entered under the limit) or `qpassnolim` has enqueued
its chain, and after `qbwrite` has enqueued its block on a blocking queue,
where the writer is then held in the flow-control loop.  `qiwrite` and
`qbwrite` on a non-blocking queue leave the bit as it was. -/
theorem flow_set_at_limit (q : Queue) (ho : q.state.Qclosed = false) (hlen : 0 ≤ q.len) :
    (∀ (A : Allocator) (p : List Byte),
      (qproduce A q p).1.len ≥ (qproduce A q p).1.limit → qfull (qproduce A q p).1 = true) ∧
    (∀ (b : Block) (bnext : List Block), q.len < q.limit →
      (qpass q b bnext).1.len ≥ (qpass q b bnext).1.limit → qfull (qpass q b bnext).1 = true) ∧
    (∀ (b : Block) (bnext : List Block),
      (qpassnolim q b bnext).1.len ≥ (qpassnolim q b bnext).1.limit →
        qfull (qpassnolim q b bnext).1 = true) ∧
    (∀ (c : Nat) (b : Block) (bnext : List Block), q.bypass = false → q.noblock = false →
      (qbwrite q c b bnext).q.len ≥ (qbwrite q c b bnext).q.limit →
        qfull (qbwrite q c b bnext).q = true ∧ (qbwrite q c b bnext).held = true) ∧
    (∀ (A : Allocator) (p : List Byte), qfull (qiwrite A q p).1 = qfull q) ∧
    (∀ (c : Nat) (b : Block) (bnext : List Block), q.noblock = true →
      qfull (qbwrite q c b bnext).q = qfull q ∧ (qbwrite q c b bnext).held = false) := by
  have hadd : ∀ (b : Block) (bnext : List Block),
      (qpass_add q b bnext).1.len ≥ (qpass_add q b bnext).1.limit →
        qfull (qpass_add q b bnext).1 = true := by
    intro b bnext h
    obtain ⟨h1, -, h3, h4⟩ := qpass_add_flow q b bnext
    rw [h1, h3] at h
    have hn := blockalloclen_nonneg (b :: bnext)
    have ht := tdiv_two q.limit
    simp only [qfull, h4, Bool.or_eq_true, decide_eq_true_eq]
    right
    split_ifs at ht <;> omega
  refine ⟨?_, ?_, ?_, ?_, ?_, ?_⟩
  · intro A p
    unfold qproduce qfull
    by_cases h1 : q.len ≥ q.limit
    · simp [h1]
    · simp only [h1, if_false]
      cases iallocb A p.length with
      | none => simp; omega
      | some b0 =>
        simp only []
        split_ifs <;> simp_all
  · intro b bnext hl
    have h1 : ¬ q.len ≥ q.limit := by omega
    simp only [qpass, h1, if_false, ho, Bool.false_eq_true]
    exact hadd b bnext
  · intro b bnext
    simp only [qpassnolim, ho, if_false, Bool.false_eq_true]
    exact hadd b bnext
  · intro c b bnext hby hnb
    unfold qbwrite qfull qnotfull
    simp only [hby, ho, hnb, Bool.and_false, Bool.false_eq_true, if_false]
    split_ifs <;> simp_all
  · intro A p
    exact qiwrite_loop_flow A (p.length + 1) q p 0 false
  · intro c b bnext hnb
    have hh : (qbwrite q c b bnext).held = false := by
      unfold qbwrite
      simp only []
      split_ifs <;> simp_all
    exact ⟨(qbwrite_flow q c b bnext).1 hh, hh⟩

theorem flow_set_at_limit_witness :
    qfull (qproduce exAlloc (qopen 4 Qstream false 0) [1, 2, 3, 4, 5]).1 = true :=
  (flow_set_at_limit (qopen 4 Qstream false 0) (by decide) (by decide)).1 exAlloc
    [1, 2, 3, 4, 5] (by decide)

/-- C3 (counterexample): three producer calls that complete on an open queue
with `len >= limit` and leave the flow-controlled bit clear: `qiwrite` of ten
bytes on a queue of limit 4, `qbwrite` of a four-byte block on a non-blocking
queue of limit 4, and `qpass` on a queue of limit 0. -/
theorem flow_set_at_limit_counterexample :
    ((qiwrite exAlloc (qopen 4 Qstream false 0) [1, 2, 3, 4, 5, 6, 7, 8, 9, 10]).1.state.Qclosed
        = false ∧
      (qiwrite exAlloc (qopen 4 Qstream false 0) [1, 2, 3, 4, 5, 6, 7, 8, 9, 10]).1.len
        ≥ (qiwrite exAlloc (qopen 4 Qstream false 0) [1, 2, 3, 4, 5, 6, 7, 8, 9, 10]).1.limit ∧
      qfull (qiwrite exAlloc (qopen 4 Qstream false 0) [1, 2, 3, 4, 5, 6, 7, 8, 9, 10]).1
        = false) ∧
    ((qbwrite (qnoblock (qopen 4 Qstream false 0) true) 0 ⟨1, [], [1, 2, 3, 4], [], false⟩
        []).q.len
        ≥ (qbwrite (qnoblock (qopen 4 Qstream false 0) true) 0 ⟨1, [], [1, 2, 3, 4], [], false⟩
          []).q.limit ∧
      (qbwrite (qnoblock (qopen 4 Qstream false 0) true) 0 ⟨1, [], [1, 2, 3, 4], [], false⟩
        []).held = false ∧
      qfull (qbwrite (qnoblock (qopen 4 Qstream false 0) true) 0
        ⟨1, [], [1, 2, 3, 4], [], false⟩ []).q = false) ∧
    ((qpass (qopen 0 Qstream false 0) ⟨1, [], [1, 2], [], false⟩ []).1.len
        ≥ (qpass (qopen 0 Qstream false 0) ⟨1, [], [1, 2], [], false⟩ []).1.limit ∧
      qfull (qpass (qopen 0 Qstream false 0) ⟨1, [], [1, 2], [], false⟩ []).1 = false) := by
  decide

/-- C5 (as amended): an operation turns the flow-controlled bit from clear to
set only in two ways: `qproduce`, `qbwrite` and `qwrite` with `len >= limit`
at that moment, and `qpass` and `qpassnolim` with `len >= limit / 2` (C
division) after enqueuing their chain; no other operation sets the bit. -/
theorem flow_set_threshold (A : Allocator) (errmax : Nat) (q : Queue) (o : Op)
    (h0 : q.state.Qflow = false) (h1 : (step A errmax q o).state.Qflow = true) :
    (o.isWrite = true ∧ (step A errmax q o).len ≥ (step A errmax q o).limit) ∨
    (o.isPass = true ∧
      (step A errmax q o).len ≥ Int.tdiv (step A errmax q o).limit 2) := by
  have hadd : ∀ b bnext, (qpass_add q b bnext).1.state.Qflow = true →
      (qpass_add q b bnext).1.len ≥ Int.tdiv (qpass_add q b bnext).1.limit 2 := by
    intro b bnext h
    obtain ⟨a1, -, a3, a4⟩ := qpass_add_flow q b bnext
    rw [a4, h0] at h
    rw [a1, a3]
    simpa using h
  cases o with
  | pass b bnext =>
    right
    refine ⟨rfl, ?_⟩
    simp only [step, qpass] at h1 ⊢
    split_ifs at h1 ⊢
    · rw [h0] at h1; cases h1
    · rw [h0] at h1; cases h1
    · exact hadd b bnext h1
  | passnolim b bnext =>
    right
    refine ⟨rfl, ?_⟩
    simp only [step, qpassnolim] at h1 ⊢
    split_ifs at h1 ⊢
    · rw [h0] at h1; cases h1
    · exact hadd b bnext h1
  | produce p =>
    left
    refine ⟨rfl, ?_⟩
    simp only [step] at h1 ⊢
    unfold qproduce at h1 ⊢
    by_cases c1 : q.len ≥ q.limit
    · simp only [c1, if_true] at h1 ⊢
    · simp only [c1, if_false] at h1 ⊢
      cases ha : iallocb A p.length with
      | none =>
        simp only [ha] at h1
        rw [h0] at h1; cases h1
      | some b0 =>
        simp only [ha] at h1 ⊢
        split_ifs at h1 ⊢ <;> simp_all
  | bwrite b bnext => exact Or.inl ⟨rfl, (qbwrite_flow q 0 b bnext).2 h0 h1⟩
  | write p => exact Or.inl ⟨rfl, qwrite_loop_flow A _ q 0 p 0 h0 h1⟩
  | iwrite p =>
    have := qiwrite_loop_flow A (p.length + 1) q p 0 false
    simp only [step, qiwrite] at h1
    rw [this, h0] at h1; cases h1
  | addlist b bnext => simp [step, qaddlist, h0] at h1
  | get => have := (qget_flow q).2 h1; rw [h0] at this; cases this
  | remove =>
    cases hb : q.bfirst <;> simp [step, qremove, hb, h0] at h1
  | putback b => simp [step, qputback, h0] at h1
  | discard len => have := (qdiscard_flow q len).2 h1; rw [h0] at this; cases this
  | consume len => have := (qconsume_flow q len).2 h1; rw [h0] at this; cases this
  | read len => have := (qread_flow q len).2 h1; rw [h0] at this; cases this
  | bread len => have := (qbread_flow A q len).2 h1; rw [h0] at this; cases this
  | flush => simp [step, qflush, h0] at h1
  | close => simp [step, qclose] at h1
  | hangup msg => simp [step, qhangup, h0] at h1
  | reopen => simp [step, qreopen, h0] at h1
  | setlimit limit => simp [step, qsetlimit, h0] at h1
  | noblock onoff => simp [step, qnoblock, h0] at h1

theorem flow_set_threshold_witness :
    (Op.isWrite (Op.produce [1, 2, 3, 4, 5]) = true ∧
      (step exAlloc 128 (qopen 4 Qstream false 0) (Op.produce [1, 2, 3, 4, 5])).len
        ≥ (step exAlloc 128 (qopen 4 Qstream false 0) (Op.produce [1, 2, 3, 4, 5])).limit) ∨
    (Op.isPass (Op.produce [1, 2, 3, 4, 5]) = true ∧
      (step exAlloc 128 (qopen 4 Qstream false 0) (Op.produce [1, 2, 3, 4, 5])).len
        ≥ Int.tdiv (step exAlloc 128 (qopen 4 Qstream false 0)
            (Op.produce [1, 2, 3, 4, 5])).limit 2) :=
  flow_set_threshold exAlloc 128 (qopen 4 Qstream false 0) (Op.produce [1, 2, 3, 4, 5])
    (by decide) (by decide)

/-- C5 (counterexample): `qpass` of a six-byte block on an empty queue of
limit 10 turns the flow-controlled bit from clear to set with
`len = 6 < limit = 10`. -/
theorem flow_set_threshold_counterexample :
    (qopen 10 Qstream false 0).state.Qflow = false ∧
    (qpass (qopen 10 Qstream false 0) ⟨1, [], [1, 2, 3, 4, 5, 6], [], false⟩ []).1.state.Qflow
      = true ∧
    (qpass (qopen 10 Qstream false 0) ⟨1, [], [1, 2, 3, 4, 5, 6], [], false⟩ []).1.len
      < (qpass (qopen 10 Qstream false 0) ⟨1, [], [1, 2, 3, 4, 5, 6], [], false⟩ []).1.limit := by
  decide

/-- C6: in every state reached from a freshly opened queue by any trace of
queue operations, `dlen <= len`.  (A block has its readable bytes inside its
allocation by construction, so every buffer handed in has readable length at
most its footprint.) -/
theorem dlen_le_len_reachable (A : Allocator) (errmax : Nat) (limit : Int) (msg : QState)
    (kick : Bool) (arg : Nat) (os : List Op) :
    (runOps A errmax (qopen limit msg kick arg) os).dlen
      ≤ (runOps A errmax (qopen limit msg kick arg) os).len := by
  obtain ⟨h1, h2, -⟩ := qinv_runOps A errmax os _ (qinv_qopen limit msg kick arg)
  rw [h1, h2]
  exact blocklen_le_blockalloclen _

/-- C7 (as amended): in every state reached from a freshly opened queue by
any trace of queue operations, when the head pointer `bfirst` is not null the
tail pointer `blast` is not null either and holds the address of the last
block of the list. -/
theorem blast_follows_bfirst (A : Allocator) (errmax : Nat) (limit : Int) (msg : QState)
    (kick : Bool) (arg : Nat) (os : List Op)
    (hne : (runOps A errmax (qopen limit msg kick arg) os).bfirst ≠ []) :
    (runOps A errmax (qopen limit msg kick arg) os).blast ≠ none ∧
    (runOps A errmax (qopen limit msg kick arg) os).blast
      = (runOps A errmax (qopen limit msg kick arg) os).bfirst.getLast?.map Block.addr := by
  obtain ⟨-, -, h3⟩ := qinv_runOps A errmax os _ (qinv_qopen limit msg kick arg)
  have h := h3 hne
  refine ⟨?_, h⟩
  rw [h]
  cases hl : (runOps A errmax (qopen limit msg kick arg) os).bfirst.getLast? with
  | none => simp [List.getLast?_eq_none_iff] at hl; exact absurd hl hne
  | some x => simp

theorem blast_follows_bfirst_witness :
    (runOps exAlloc 128 (qopen 100 Qstream false 0)
        [Op.write [1, 2, 3], Op.produce [4, 5], Op.get]).blast ≠ none ∧
    (runOps exAlloc 128 (qopen 100 Qstream false 0)
        [Op.write [1, 2, 3], Op.produce [4, 5], Op.get]).blast
      = (runOps exAlloc 128 (qopen 100 Qstream false 0)
        [Op.write [1, 2, 3], Op.produce [4, 5], Op.get]).bfirst.getLast?.map Block.addr :=
  blast_follows_bfirst exAlloc 128 100 Qstream false 0
    [Op.write [1, 2, 3], Op.produce [4, 5], Op.get] (by decide)

/-- C7 (counterexample): after one `qbwrite` and one `qget` on a fresh queue
the head pointer is null and the tail pointer is not. -/
theorem blast_follows_bfirst_counterexample :
    (runOps exAlloc 128 (qopen 100 Qstream false 0)
        [Op.bwrite ⟨1, [], [1, 2, 3], [], false⟩ [], Op.get]).bfirst = [] ∧
    (runOps exAlloc 128 (qopen 100 Qstream false 0)
        [Op.bwrite ⟨1, [], [1, 2, 3], [], false⟩ [], Op.get]).blast = some 1 := by
  decide

theorem strncpy_fits (s : String) (n : Nat) (h : s.length < n) : strncpy s n = s := by
  unfold strncpy
  have : s.data.length ≤ n := by
    have : s.length = s.data.length := rfl
    omega
  rw [List.take_of_length_le this]

/-- C8: after `qclose` the queue is empty (`qlen` is 0, `qcanread` is false,
`len` is 0), the closed bit is set, the flow-controlled and starved bits are
clear, and the stored error string is "hung up" (the error array being large
enough to hold it). -/
theorem qclose_spec (errmax : Nat) (q : Queue) (hfit : Ehungup.length < errmax) :
    qlen (qclose errmax q) = 0 ∧ qcanread (qclose errmax q) = false ∧
    (qclose errmax q).len = 0 ∧ (qclose errmax q).bfirst = [] ∧
    (qclose errmax q).state.Qclosed = true ∧ (qclose errmax q).state.Qflow = false ∧
    (qclose errmax q).state.Qstarve = false ∧ (qclose errmax q).err = "hung up" := by
  refine ⟨rfl, rfl, rfl, rfl, rfl, rfl, rfl, ?_⟩
  show strncpy Ehungup errmax = "hung up"
  rw [strncpy_fits Ehungup errmax hfit]
  rfl

theorem qclose_spec_witness :
    qlen (qclose 128 (qbwrite (qopen 4 Qstream false 0) 0
        ⟨1, [], [1, 2, 3, 4], [], false⟩ []).q) = 0 ∧
    qcanread (qclose 128 (qbwrite (qopen 4 Qstream false 0) 0
        ⟨1, [], [1, 2, 3, 4], [], false⟩ []).q) = false ∧
    (qclose 128 (qbwrite (qopen 4 Qstream false 0) 0
        ⟨1, [], [1, 2, 3, 4], [], false⟩ []).q).len = 0 ∧
    (qclose 128 (qbwrite (qopen 4 Qstream false 0) 0
        ⟨1, [], [1, 2, 3, 4], [], false⟩ []).q).bfirst = [] ∧
    (qclose 128 (qbwrite (qopen 4 Qstream false 0) 0
        ⟨1, [], [1, 2, 3, 4], [], false⟩ []).q).state.Qclosed = true ∧
    (qclose 128 (qbwrite (qopen 4 Qstream false 0) 0
        ⟨1, [], [1, 2, 3, 4], [], false⟩ []).q).state.Qflow = false ∧
    (qclose 128 (qbwrite (qopen 4 Qstream false 0) 0
        ⟨1, [], [1, 2, 3, 4], [], false⟩ []).q).state.Qstarve = false ∧
    (qclose 128 (qbwrite (qopen 4 Qstream false 0) 0
        ⟨1, [], [1, 2, 3, 4], [], false⟩ []).q).err = "hung up" :=
  qclose_spec 128 (qbwrite (qopen 4 Qstream false 0) 0 ⟨1, [], [1, 2, 3, 4], [], false⟩ []).q
    (by decide)

/-- C10: on a closed or hung-up queue without bypass, `qbwrite` and `qwrite`
raise the stored error string and leave the queue (buffers, `len`, `dlen`,
state bits and all else) and the drop counter as they were. -/
theorem qbwrite_closed_raises (A : Allocator) (q : Queue) (c : Nat) (b : Block)
    (bnext : List Block) (p : List Byte) (hc : q.state.Qclosed = true)
    (hby : q.bypass = false) :
    (qbwrite q c b bnext).ret = Res.raised q.err ∧ (qbwrite q c b bnext).q = q ∧
    (qbwrite q c b bnext).noblockcnt = c ∧
    (qwrite A q c p).ret = Res.raised q.err ∧ (qwrite A q c p).q = q ∧
    (qwrite A q c p).noblockcnt = c := by
  have h : ∀ b bnext, qbwrite q c b bnext
      = { q := q, noblockcnt := c, ret := Res.raised q.err, held := false } := by
    intro b bnext
    unfold qbwrite
    simp [hc, hby]
  refine ⟨by rw [h], by rw [h], by rw [h], ?_, ?_, ?_⟩ <;>
    simp [qwrite, qwrite_loop, h]

theorem qbwrite_closed_raises_witness :
    (qbwrite (qhangup 128 (qopen 100 Qstream false 0) (some "reason")) 0
        ⟨1, [], [1, 2], [], false⟩ []).ret = Res.raised "reason" ∧
    (qbwrite (qhangup 128 (qopen 100 Qstream false 0) (some "reason")) 0
        ⟨1, [], [1, 2], [], false⟩ []).q = qhangup 128 (qopen 100 Qstream false 0) (some "reason") ∧
    (qbwrite (qhangup 128 (qopen 100 Qstream false 0) (some "reason")) 0
        ⟨1, [], [1, 2], [], false⟩ []).noblockcnt = 0 ∧
    (qwrite exAlloc (qhangup 128 (qopen 100 Qstream false 0) (some "reason")) 0 [7, 8]).ret
      = Res.raised "reason" ∧
    (qwrite exAlloc (qhangup 128 (qopen 100 Qstream false 0) (some "reason")) 0 [7, 8]).q
      = qhangup 128 (qopen 100 Qstream false 0) (some "reason") ∧
    (qwrite exAlloc (qhangup 128 (qopen 100 Qstream false 0) (some "reason")) 0 [7, 8]).noblockcnt
      = 0 :=
  qbwrite_closed_raises exAlloc (qhangup 128 (qopen 100 Qstream false 0) (some "reason")) 0
    ⟨1, [], [1, 2], [], false⟩ [] [7, 8] (by decide) (by decide)

theorem qhangup_eq_hungof (errmax : Nat) (q : Queue) (msg : Option String)
    (hfit : (hangupMsg msg).length < errmax) :
    qhangup errmax q msg = hungof (hangupMsg msg) q := by
  unfold qhangup hungof
  cases msg with
  | none =>
    simp only [hangupMsg] at hfit ⊢
    rw [strncpy_fits _ _ hfit]
  | some m =>
    simp only [hangupMsg] at hfit ⊢
    split_ifs at hfit ⊢ <;> rw [strncpy_fits _ _ hfit]

theorem qbwrite_closed_keeps (q : Queue) (c : Nat) (b : Block) (bnext : List Block)
    (hc : q.state.Qclosed = true) :
    (qbwrite q c b bnext).q.bfirst = q.bfirst ∧ (qbwrite q c b bnext).q.dlen = q.dlen ∧
    (qbwrite q c b bnext).q.state.Qclosed = true := by
  unfold qbwrite
  simp only [hc, if_true]
  split_ifs <;> simp [hc]

theorem qwrite_loop_closed_keeps (A : Allocator) (fuel : Nat) (q : Queue) (c : Nat)
    (p : List Byte) (sofar : Nat) (hc : q.state.Qclosed = true) :
    (qwrite_loop A fuel q c p sofar).q.bfirst = q.bfirst ∧
    (qwrite_loop A fuel q c p sofar).q.dlen = q.dlen := by
  induction fuel generalizing q c sofar with
  | zero => exact ⟨rfl, rfl⟩
  | succ fuel ih =>
    simp only [qwrite_loop]
    generalize (if p.length - sofar > Maxatomic then Maxatomic else p.length - sofar) = n
    generalize (allocb A n).wp_put ((p.drop sofar).take n) = b
    obtain ⟨k1, k2, k3⟩ := qbwrite_closed_keeps q c b [] hc
    generalize qbwrite q c b [] = r at k1 k2 k3 ⊢
    cases r.ret with
    | ret v =>
      simp only []
      split_ifs
      · exact ⟨k1, k2⟩
      · obtain ⟨i1, i2⟩ := ih r.q r.noblockcnt (sofar + n) k3
        exact ⟨i1.trans k1, i2.trans k2⟩
      · exact ⟨k1, k2⟩
    | raised e => exact ⟨k1, k2⟩
    | asleep => exact ⟨k1, k2⟩
    | fault => exact ⟨k1, k2⟩

/-- The producers that test the closed bit: on a closed or hung-up queue
`qbwrite`, `qwrite`, `qpass` and `qpassnolim` leave the queued buffers and
`qlen` as they were. -/
theorem closed_rejects_checked (A : Allocator) (q : Queue) (c : Nat) (b : Block)
    (bnext : List Block) (p : List Byte) (hc : q.state.Qclosed = true) :
    ((qbwrite q c b bnext).q.bfirst = q.bfirst ∧ qlen (qbwrite q c b bnext).q = qlen q) ∧
    ((qwrite A q c p).q.bfirst = q.bfirst ∧ qlen (qwrite A q c p).q = qlen q) ∧
    (qpass q b bnext).1 = q ∧ (qpassnolim q b bnext).1 = q := by
  obtain ⟨k1, k2, -⟩ := qbwrite_closed_keeps q c b bnext hc
  obtain ⟨w1, w2⟩ := qwrite_loop_closed_keeps A (p.length + 1) q c p 0 hc
  refine ⟨⟨k1, k2⟩, ⟨w1, w2⟩, ?_, ?_⟩
  · unfold qpass
    split_ifs <;> simp_all
  · simp [qpassnolim, hc]

/-- C11 (failing input): on an empty queue closed by `qclose`, and likewise
on one hung up by `qhangup`, `qproduce` of three bytes and `qiwrite` of two
bytes are not rejected: they return the byte count and the bytes are queued,
`qlen` going from 0 to 3 and to 2. -/
theorem closed_queue_accepts_produce :
    qlen (qclose 128 (qopen 100 Qstream false 0)) = 0 ∧
    (qproduce exAlloc (qclose 128 (qopen 100 Qstream false 0)) [1, 2, 3]).2 = 3 ∧
    payload (qproduce exAlloc (qclose 128 (qopen 100 Qstream false 0)) [1, 2, 3]).1.bfirst
      = [1, 2, 3] ∧
    qlen (qproduce exAlloc (qclose 128 (qopen 100 Qstream false 0)) [1, 2, 3]).1 = 3 ∧
    (qiwrite exAlloc (qclose 128 (qopen 100 Qstream false 0)) [4, 5]).2 = 2 ∧
    payload (qiwrite exAlloc (qclose 128 (qopen 100 Qstream false 0)) [4, 5]).1.bfirst
      = [4, 5] ∧
    qlen (qiwrite exAlloc (qclose 128 (qopen 100 Qstream false 0)) [4, 5]).1 = 2 ∧
    payload (qproduce exAlloc (qhangup 128 (qopen 100 Qstream false 0) none) [1, 2, 3]).1.bfirst
      = [1, 2, 3] ∧
    payload (qiwrite exAlloc (qhangup 128 (qopen 100 Qstream false 0) none) [4, 5]).1.bfirst
      = [4, 5] := by
  decide

theorem qwait_closed_empty (q : Queue) (hc : q.state.Qclosed = true) (hb : q.bfirst = []) :
    (qwait q).1 = { q with eof := q.eof + 1 } ∧
    (qwait q).2 ≠ Wait.data ∧ (qwait q).2 ≠ Wait.sleep ∧
    ((qwait q).2 = Wait.error ↔ (q.eof + 1 > 3 ∨ (q.err ≠ "" ∧ q.err ≠ Ehungup))) := by
  unfold qwait
  simp only [hb, hc, if_true]
  split_ifs with h1 h2
  · simp [h1]
  · simp [h1, h2]
  · simp [h1, h2]

theorem qread_closed_empty (q : Queue) (n : Nat) (hc : q.state.Qclosed = true)
    (hb : q.bfirst = []) :
    qread q n = { q := { q with eof := q.eof + 1 }, ret := eofAnswer Int 0 q.eof q.err,
                  out := [] } := by
  unfold qread eofAnswer
  simp only [hb, List.length_nil, qread_again, qwait, hc, if_true]
  split_ifs <;> simp_all

theorem qbread_closed_empty (A : Allocator) (q : Queue) (n : Nat)
    (hc : q.state.Qclosed = true) (hb : q.bfirst = []) :
    qbread A q n = ({ q with eof := q.eof + 1 }, eofAnswer (Option Block) none q.eof q.err) := by
  unfold qbread eofAnswer
  simp only [qwait, hb, hc, if_true]
  split_ifs <;> simp_all

theorem runReads_closed_empty (A : Allocator) (ops : List RdOp) (q : Queue)
    (hc : q.state.Qclosed = true) (hb : q.bfirst = []) :
    runReads A q ops = { q with eof := q.eof + (ops.length : Int) } := by
  induction ops generalizing q with
  | nil => simp [runReads]
  | cons o os ih =>
    have h1 : o.run A q = { q with eof := q.eof + 1 } := by
      cases o with
      | read len => simp [RdOp.run, qread_closed_empty q len hc hb]
      | bread len => simp [RdOp.run, qbread_closed_empty A q len hc hb]
    simp only [runReads, h1]
    rw [ih { q with eof := q.eof + 1 } hc hb]
    simp only [List.length_cons, Nat.cast_add, Nat.cast_one]
    congr 1
    ring
theorem reads_closed_empty (A : Allocator) (ops : List RdOp) (q : Queue) (n : Nat)
    (hc : q.state.Qclosed = true) (hb : q.bfirst = []) :
    (qread (runReads A q ops) n).ret = eofAnswer Int 0 (q.eof + (ops.length : Int)) q.err ∧
    (qread (runReads A q ops) n).out = [] ∧
    (qbread A (runReads A q ops) n).2
      = eofAnswer (Option Block) none (q.eof + (ops.length : Int)) q.err := by
  rw [runReads_closed_empty A ops q hc hb]
  rw [qread_closed_empty { q with eof := q.eof + (ops.length : Int) } n hc hb,
    qbread_closed_empty A { q with eof := q.eof + (ops.length : Int) } n hc hb]
  exact ⟨rfl, rfl, rfl⟩

theorem eofAnswer_hungup (α : Type) (zero : α) (k : Nat) :
    eofAnswer α zero (k : Int) Ehungup
      = if k < 3 then Res.ret zero else Res.raised "hung up" := by
  unfold eofAnswer
  by_cases h : k < 3
  · have h1 : ¬ ((k : Int) + 1 > 3) := by omega
    simp [h, h1]
  · have h1 : (k : Int) + 1 > 3 := by omega
    simp [h, h1, Ehungup]

theorem eofAnswer_custom (α : Type) (zero : α) (eof : Int) (m : String)
    (h1 : m ≠ "") (h2 : m ≠ Ehungup) : eofAnswer α zero eof m = Res.raised m := by
  unfold eofAnswer
  split_ifs <;> simp_all

/-- C12: on a queue closed by `qclose` with the EOF counter at 0 (it is then
empty and holds the error "hung up"), whatever mix of `qread` and `qbread`
calls came before, the next blocking read reports the clean end of file
(`qread` returns 0 and copies nothing, `qbread` returns no block) when fewer
than three reads came before, and raises the stored error "hung up" from the
fourth read on. -/
theorem closed_eof_then_error (A : Allocator) (errmax : Nat) (q : Queue) (ops : List RdOp)
    (n : Nat) (hfit : Ehungup.length < errmax) (heof : q.eof = 0) :
    (qread (runReads A (qclose errmax q) ops) n).ret
      = (if ops.length < 3 then Res.ret 0 else Res.raised "hung up") ∧
    (qread (runReads A (qclose errmax q) ops) n).out = [] ∧
    (qbread A (runReads A (qclose errmax q) ops) n).2
      = (if ops.length < 3 then Res.ret none else Res.raised "hung up") := by
  have hc : (qclose errmax q).state.Qclosed = true := rfl
  have hb : (qclose errmax q).bfirst = [] := rfl
  have he : (qclose errmax q).err = Ehungup := by
    show strncpy Ehungup errmax = Ehungup
    exact strncpy_fits Ehungup errmax hfit
  have h0 : (qclose errmax q).eof = 0 := heof
  obtain ⟨r1, r2, r3⟩ := reads_closed_empty A ops (qclose errmax q) n hc hb
  rw [r1, r3, he, h0, zero_add]
  exact ⟨eofAnswer_hungup Int 0 ops.length, r2, eofAnswer_hungup (Option Block) none ops.length⟩

theorem closed_eof_then_error_witness :
    (qread (runReads exAlloc (qclose 128 (qopen 100 Qstream false 0))
        [RdOp.read 5, RdOp.bread 5, RdOp.read 1]) 7).ret
      = (if [RdOp.read 5, RdOp.bread 5, RdOp.read 1].length < 3 then Res.ret 0
          else Res.raised "hung up") ∧
    (qread (runReads exAlloc (qclose 128 (qopen 100 Qstream false 0))
        [RdOp.read 5, RdOp.bread 5, RdOp.read 1]) 7).out = [] ∧
    (qbread exAlloc (runReads exAlloc (qclose 128 (qopen 100 Qstream false 0))
        [RdOp.read 5, RdOp.bread 5, RdOp.read 1]) 7).2
      = (if [RdOp.read 5, RdOp.bread 5, RdOp.read 1].length < 3 then Res.ret none
          else Res.raised "hung up") :=
  closed_eof_then_error exAlloc 128 (qopen 100 Qstream false 0)
    [RdOp.read 5, RdOp.bread 5, RdOp.read 1] 7 (by decide) (by decide)

/-- C13 (as amended): on an empty queue hung up with a custom reason (a
string that is neither empty nor "hung up", and fits the error array), every
blocking read, the first one included, raises an error carrying the stored
reason: no read returns 0. -/
theorem custom_reason_raised_at_once (A : Allocator) (errmax : Nat) (q : Queue)
    (ops : List RdOp) (n : Nat) (m : String) (hb : q.bfirst = []) (h1 : m ≠ "")
    (h2 : m ≠ Ehungup) (hfit : m.length < errmax) :
    (qread (runReads A (qhangup errmax q (some m)) ops) n).ret = Res.raised m ∧
    (qbread A (runReads A (qhangup errmax q (some m)) ops) n).2 = Res.raised m := by
  have hm : hangupMsg (some m) = m := by simp [hangupMsg, h1]
  have hq := qhangup_eq_hungof errmax q (some m) (by rw [hm]; exact hfit)
  rw [hq, hm]
  have hc : (hungof m q).state.Qclosed = true := rfl
  have hb2 : (hungof m q).bfirst = [] := hb
  have he : (hungof m q).err = m := rfl
  obtain ⟨r1, -, r3⟩ := reads_closed_empty A ops (hungof m q) n hc hb2
  rw [r1, r3, he]
  exact ⟨eofAnswer_custom Int 0 _ m h1 h2, eofAnswer_custom (Option Block) none _ m h1 h2⟩

theorem custom_reason_raised_at_once_witness :
    (qread (runReads exAlloc (qhangup 128 (qopen 100 Qstream false 0) (some "reason"))
        [RdOp.read 5]) 7).ret = Res.raised "reason" ∧
    (qbread exAlloc (runReads exAlloc (qhangup 128 (qopen 100 Qstream false 0) (some "reason"))
        [RdOp.read 5]) 7).2 = Res.raised "reason" :=
  custom_reason_raised_at_once exAlloc 128 (qopen 100 Qstream false 0) [RdOp.read 5] 7 "reason"
    (by decide) (by decide) (by decide) (by decide)

/-- C13 (counterexample): the first `qread` on an empty queue hung up with
`qhangup(q, "reason")` does not return 0; it raises "reason". -/
theorem custom_reason_counterexample :
    (qread (qhangup 128 (qopen 100 Qstream false 0) (some "reason")) 10).ret
      = Res.raised "reason" ∧
    (qread (qhangup 128 (qopen 100 Qstream false 0) (some "reason")) 10).ret ≠ Res.ret 0 := by
  decide

theorem sameMode_refl (q : Queue) : sameMode q q := ⟨rfl, rfl, rfl, rfl, rfl, rfl, rfl⟩

theorem sameMode_trans {q q2 q3 : Queue} (h1 : sameMode q q2) (h2 : sameMode q2 q3) :
    sameMode q q3 := by
  unfold sameMode at h1 h2 ⊢
  simp only [h2.1, h2.2.1, h2.2.2.1, h2.2.2.2.1, h2.2.2.2.2.1, h2.2.2.2.2.2.1,
    h2.2.2.2.2.2.2]
  exact h1

theorem sameMode_flowrestart (q : Queue) : sameMode q (flowrestart q).1 := by
  unfold flowrestart sameMode
  split_ifs <;> simp

theorem sameMode_qwakeup (q : Queue) : sameMode q (qwakeup_iunlock q) := by
  unfold qwakeup_iunlock flowrestart sameMode
  simp only []
  split_ifs <;> simp

theorem sameMode_qget (q : Queue) : sameMode q (qget q).1 := by
  unfold qget
  split
  · exact ⟨rfl, rfl, rfl, rfl, rfl, rfl, rfl⟩
  · exact sameMode_trans ⟨rfl, rfl, rfl, rfl, rfl, rfl, rfl⟩ (sameMode_flowrestart _)

theorem sameMode_qdiscard_loop (len : Int) (l : List Block) (q : Queue) (sofar : Int) :
    sameMode q (qdiscard_loop len l q sofar).1 := by
  induction l generalizing q sofar with
  | nil => exact sameMode_refl q
  | cons b next ih =>
    simp only [qdiscard_loop]
    split_ifs
    · exact sameMode_trans ⟨rfl, rfl, rfl, rfl, rfl, rfl, rfl⟩ (ih _ _)
    · exact ⟨rfl, rfl, rfl, rfl, rfl, rfl, rfl⟩
    · exact sameMode_refl q

theorem sameMode_qdiscard (q : Queue) (len : Int) : sameMode q (qdiscard q len).1 :=
  sameMode_trans (sameMode_qdiscard_loop len q.bfirst q 0) (sameMode_flowrestart _)

theorem sameMode_qconsume_skip (l : List Block) (q : Queue) :
    sameMode q (qconsume_skip l q).1 := by
  induction l generalizing q with
  | nil => exact ⟨rfl, rfl, rfl, rfl, rfl, rfl, rfl⟩
  | cons b next ih =>
    simp only [qconsume_skip]
    split_ifs
    · exact sameMode_refl q
    · exact sameMode_trans ⟨rfl, rfl, rfl, rfl, rfl, rfl, rfl⟩ (ih _)

theorem sameMode_qconsume (q : Queue) (len : Nat) : sameMode q (qconsume q len).1 := by
  have hs := sameMode_qconsume_skip q.bfirst q
  unfold qconsume
  generalize qconsume_skip q.bfirst q = R at hs
  obtain ⟨q1, o⟩ := R
  cases o with
  | none => exact hs
  | some bn =>
    obtain ⟨b, next⟩ := bn
    simp only [] at hs ⊢
    refine sameMode_trans hs (sameMode_trans ?_ (sameMode_flowrestart _))
    split_ifs <;> exact ⟨rfl, rfl, rfl, rfl, rfl, rfl, rfl⟩

theorem sameMode_qpass_add (q : Queue) (b : Block) (bnext : List Block) :
    sameMode q (qpass_add q b bnext).1 := by
  unfold qpass_add sameMode
  simp only []
  split_ifs <;> simp

theorem sameMode_qpass (q : Queue) (b : Block) (bnext : List Block) :
    sameMode q (qpass q b bnext).1 := by
  unfold qpass
  split_ifs
  · exact sameMode_refl q
  · exact sameMode_refl q
  · exact sameMode_qpass_add q b bnext

theorem sameMode_qpassnolim (q : Queue) (b : Block) (bnext : List Block) :
    sameMode q (qpassnolim q b bnext).1 := by
  unfold qpassnolim
  split_ifs
  · exact sameMode_refl q
  · exact sameMode_qpass_add q b bnext

theorem sameMode_qproduce (A : Allocator) (q : Queue) (p : List Byte) :
    sameMode q (qproduce A q p).1 := by
  unfold qproduce
  split_ifs
  · exact ⟨rfl, rfl, rfl, rfl, rfl, rfl, rfl⟩
  · cases iallocb A p.length with
    | none => exact sameMode_refl q
    | some b0 =>
      simp only [sameMode]
      split_ifs <;> simp

theorem sameMode_qbwrite (q : Queue) (c : Nat) (b : Block) (bnext : List Block) :
    sameMode q (qbwrite q c b bnext).q := by
  unfold qbwrite sameMode
  simp only []
  split_ifs <;> simp

theorem sameMode_qwrite_loop (A : Allocator) (fuel : Nat) (q : Queue) (c : Nat)
    (p : List Byte) (sofar : Nat) : sameMode q (qwrite_loop A fuel q c p sofar).q := by
  induction fuel generalizing q c sofar with
  | zero => exact sameMode_refl q
  | succ fuel ih =>
    simp only [qwrite_loop]
    generalize (if p.length - sofar > Maxatomic then Maxatomic else p.length - sofar) = n
    generalize (allocb A n).wp_put ((p.drop sofar).take n) = b
    have hk := sameMode_qbwrite q c b []
    generalize qbwrite q c b [] = r at hk ⊢
    cases r.ret with
    | ret v =>
      simp only []
      split_ifs
      · exact hk
      · exact sameMode_trans hk (ih _ _ _)
      · exact hk
    | raised e => exact hk
    | asleep => exact hk
    | fault => exact hk

theorem sameMode_qiwrite_loop (A : Allocator) (fuel : Nat) (q : Queue) (p : List Byte)
    (sofar : Nat) (d : Bool) : sameMode q (qiwrite_loop A fuel q p sofar d).1 := by
  induction fuel generalizing q sofar d with
  | zero => exact sameMode_refl q
  | succ fuel ih =>
    simp only [qiwrite_loop]
    generalize (if p.length - sofar > Maxatomic then Maxatomic else p.length - sofar) = n
    cases iallocb A n with
    | none => exact sameMode_refl q
    | some b0 =>
      simp only []
      split_ifs
      all_goals first
        | exact sameMode_refl q
        | exact ⟨rfl, rfl, rfl, rfl, rfl, rfl, rfl⟩
        | exact sameMode_trans (by exact ⟨rfl, rfl, rfl, rfl, rfl, rfl, rfl⟩) (ih _ _ _)

theorem sameMode_qremove (q : Queue) : sameMode q (qremove q).1 := by
  unfold qremove
  split <;> exact ⟨rfl, rfl, rfl, rfl, rfl, rfl, rfl⟩

theorem sameMode_qwait (q : Queue) : sameMode q (qwait q).1 := by
  unfold qwait
  split
  · exact sameMode_refl q
  · simp only []
    split_ifs <;> exact ⟨rfl, rfl, rfl, rfl, rfl, rfl, rfl⟩

theorem sameMode_qbread (A : Allocator) (q : Queue) (len : Nat) :
    sameMode q (qbread A q len).1 := by
  have hw := sameMode_qwait q
  unfold qbread
  generalize qwait q = W at hw
  obtain ⟨q1, w⟩ := W
  cases w with
  | eof => exact hw
  | error => exact hw
  | sleep => exact hw
  | data =>
    simp only [] at hw ⊢
    have hr := sameMode_qremove q1
    generalize qremove q1 = R at hr
    obtain ⟨q2, o⟩ := R
    cases o with
    | none => exact sameMode_trans hw hr
    | some nb =>
      simp only [] at hr ⊢
      refine sameMode_trans hw (sameMode_trans hr ?_)
      split_ifs
      · exact sameMode_trans (by exact ⟨rfl, rfl, rfl, rfl, rfl, rfl, rfl⟩) (sameMode_qwakeup _)
      · exact sameMode_qwakeup _
      · exact sameMode_qwakeup _

theorem sameMode_qread_finish (q : Queue) (first : List Block) (n : Int) (len : Nat) :
    sameMode q (qread_finish q first n len).q := by
  unfold qread_finish
  simp only []
  split
  · exact sameMode_qwakeup _
  · split_ifs
    · exact sameMode_qwakeup _
    · exact sameMode_trans (by exact ⟨rfl, rfl, rfl, rfl, rfl, rfl, rfl⟩) (sameMode_qwakeup _)

theorem sameMode_qread_grab (fuel : Nat) (q : Queue) (n len : Int) :
    sameMode q (qread_grab fuel q n len).1 := by
  induction fuel generalizing q n with
  | zero => exact sameMode_refl q
  | succ fuel ih =>
    cases hb : q.bfirst with
    | nil => simp [qread_grab, qremove, hb, sameMode]
    | cons b rest =>
      cases rest with
      | nil => simp [qread_grab, qremove, hb, sameMode]
      | cons b2 rest2 =>
        simp only [qread_grab, qremove, hb]
        split_ifs
        · exact ⟨rfl, rfl, rfl, rfl, rfl, rfl, rfl⟩
        · exact sameMode_trans (by exact ⟨rfl, rfl, rfl, rfl, rfl, rfl, rfl⟩) (ih _ _)

theorem sameMode_qread_again (fuel : Nat) (q : Queue) (len : Nat) :
    sameMode q (qread_again fuel q len).q := by
  induction fuel generalizing q with
  | zero => exact sameMode_refl q
  | succ fuel ih =>
    have hw := sameMode_qwait q
    simp only [qread_again]
    generalize qwait q = W at hw
    obtain ⟨q1, w⟩ := W
    cases w with
    | eof => exact hw
    | error => exact hw
    | sleep => exact hw
    | data =>
      simp only [] at hw ⊢
      refine sameMode_trans hw ?_
      split_ifs
      · cases hb : q1.bfirst with
        | nil => exact sameMode_refl q1
        | cons b rest =>
          simp only []
          split_ifs
          · exact sameMode_trans (sameMode_qremove q1) (ih _)
          · exact sameMode_trans (sameMode_qread_grab _ q1 _ _) (sameMode_qread_finish _ _ _ _)
      · have hr := sameMode_qremove q1
        generalize qremove q1 = R at hr
        obtain ⟨q2, o⟩ := R
        cases o with
        | none => exact hr
        | some first => exact sameMode_trans hr (sameMode_qread_finish _ _ _ _)

theorem sameMode_step (A : Allocator) (errmax : Nat) (q : Queue) (o : Op) :
    sameMode q (step A errmax q o) := by
  cases o with
  | pass b bnext => exact sameMode_qpass q b bnext
  | passnolim b bnext => exact sameMode_qpassnolim q b bnext
  | produce p => exact sameMode_qproduce A q p
  | bwrite b bnext => exact sameMode_qbwrite q 0 b bnext
  | write p => exact sameMode_qwrite_loop A _ q 0 p 0
  | iwrite p => exact sameMode_qiwrite_loop A _ q p 0 false
  | addlist b bnext => exact ⟨rfl, rfl, rfl, rfl, rfl, rfl, rfl⟩
  | get => exact sameMode_qget q
  | remove => exact sameMode_qremove q
  | putback b => exact ⟨rfl, rfl, rfl, rfl, rfl, rfl, rfl⟩
  | discard len => exact sameMode_qdiscard q len
  | consume len => exact sameMode_qconsume q len
  | read len => exact sameMode_qread_again _ q len
  | bread len => exact sameMode_qbread A q len
  | flush => exact ⟨rfl, rfl, rfl, rfl, rfl, rfl, rfl⟩
  | close => exact ⟨rfl, rfl, rfl, rfl, rfl, rfl, rfl⟩
  | hangup msg => exact ⟨rfl, rfl, rfl, rfl, rfl, rfl, rfl⟩
  | reopen => exact ⟨rfl, rfl, rfl, rfl, rfl, rfl, rfl⟩
  | setlimit limit => exact ⟨rfl, rfl, rfl, rfl, rfl, rfl, rfl⟩
  | noblock onoff => exact ⟨rfl, rfl, rfl, rfl, rfl, rfl, rfl⟩

theorem sameMode_runOps (A : Allocator) (errmax : Nat) (os : List Op) (q : Queue) :
    sameMode q (runOps A errmax q os) := by
  induction os generalizing q with
  | nil => exact sameMode_refl q
  | cons o os ih => exact sameMode_trans (sameMode_step A errmax q o) (ih _)

/-- C14: for a queue opened with limit `L`, after any trace of operations
(`qsetlimit` among them), `qclose` followed by `qreopen` gives a queue that is
not closed, is empty (`qlen` 0, `qcanread` false), has limit `L` again, and is
writable: a following `qbwrite` of a block enqueues it, so that the block is
the only one queued and `qlen` is its readable length, which is returned. -/
theorem close_reopen_writable (A : Allocator) (errmax : Nat) (L : Int) (msg : QState)
    (kick : Bool) (arg : Nat) (os : List Op) (c : Nat) (b : Block) (bnext : List Block) :
    (qreopen (qclose errmax (runOps A errmax (qopen L msg kick arg) os))).state.Qclosed = false ∧
    qlen (qreopen (qclose errmax (runOps A errmax (qopen L msg kick arg) os))) = 0 ∧
    qcanread (qreopen (qclose errmax (runOps A errmax (qopen L msg kick arg) os))) = false ∧
    (qreopen (qclose errmax (runOps A errmax (qopen L msg kick arg) os))).limit = L ∧
    (qbwrite (qreopen (qclose errmax (runOps A errmax (qopen L msg kick arg) os)))
        c b bnext).q.bfirst = [b] ∧
    qlen (qbwrite (qreopen (qclose errmax (runOps A errmax (qopen L msg kick arg) os)))
        c b bnext).q = BLEN b ∧
    (qbwrite (qreopen (qclose errmax (runOps A errmax (qopen L msg kick arg) os)))
        c b bnext).ret = Res.ret (BLEN b) := by
  obtain ⟨m1, m2, -⟩ := sameMode_runOps A errmax os (qopen L msg kick arg)
  have hL : (runOps A errmax (qopen L msg kick arg) os).iNULLim = L := m1
  have hby : (runOps A errmax (qopen L msg kick arg) os).bypass = false := m2
  generalize runOps A errmax (qopen L msg kick arg) os = q at hL hby
  have hacc : ¬ ((qreopen (qclose errmax q)).len ≥ (qreopen (qclose errmax q)).limit ∧
      (qreopen (qclose errmax q)).noblock = true) := by
    intro h
    exact absurd h.2 (by simp [qreopen, qclose])
  obtain ⟨e1, -, -, e4, -, -, -, -, -, -, -, e12, -⟩ :=
    qbwrite_enq (qreopen (qclose errmax q)) c b bnext rfl hby hacc
  refine ⟨rfl, rfl, rfl, hL, ?_, ?_, e12⟩
  · rw [e1]; rfl
  · show (qbwrite (qreopen (qclose errmax q)) c b bnext).q.dlen = BLEN b
    rw [e4]
    simp [qreopen, qclose]

/-- C15 (as amended): `qreopen` clears the closed bit, sets the starved bit
(as `qopen` does), resets the EOF counter to 0 and restores the limit kept
from `qopen` (the limit `L` given there, for every queue reached from
`qopen`), leaving the queued data, `len`, `dlen` and the message and coalesce
mode bits unchanged. -/
theorem qreopen_spec (q : Queue) :
    (qreopen q).state.Qclosed = false ∧ (qreopen q).state.Qstarve = true ∧
    (qreopen q).eof = 0 ∧ (qreopen q).limit = q.iNULLim ∧
    (∀ (A : Allocator) (errmax : Nat) (L : Int) (msg : QState) (kick : Bool) (arg : Nat)
        (os : List Op),
      (qreopen (runOps A errmax (qopen L msg kick arg) os)).limit = L) ∧
    (qreopen q).bfirst = q.bfirst ∧ (qreopen q).len = q.len ∧ (qreopen q).dlen = q.dlen ∧
    (qreopen q).state.Qmsg = q.state.Qmsg ∧
    (qreopen q).state.Qcoalesce = q.state.Qcoalesce := by
  refine ⟨rfl, rfl, rfl, rfl, ?_, rfl, rfl, rfl, rfl, rfl⟩
  intro A errmax L msg kick arg os
  exact (sameMode_runOps A errmax os (qopen L msg kick arg)).1

/-- C15 (counterexample): on a queue whose starved bit was cleared by a
write, `qreopen` leaves the starved bit set, not clear. -/
theorem qreopen_counterexample :
    (qbwrite (qopen 100 Qstream false 0) 0 ⟨1, [], [1, 2], [], false⟩ []).q.state.Qstarve
      = false ∧
    (qreopen (qbwrite (qopen 100 Qstream false 0) 0
      ⟨1, [], [1, 2], [], false⟩ []).q).state.Qstarve = true := by
  decide

/-- C16 (as amended): `qpass` and `qpassnolim` return the total allocated
footprint of the chain when they enqueue it, and the footprint of a
one-buffer chain when they drop it because the queue is closed; `qpass`
returns -1 when the queue is at or over its limit. -/
theorem qpass_return (q : Queue) (b : Block) (bnext : List Block) :
    (q.len < q.limit → q.state.Qclosed = false →
      (qpass q b bnext).2 = blockalloclen (b :: bnext)) ∧
    (q.state.Qclosed = false → (qpassnolim q b bnext).2 = blockalloclen (b :: bnext)) ∧
    (q.len ≥ q.limit → (qpass q b bnext).2 = -1) ∧
    (q.len < q.limit → q.state.Qclosed = true → (qpass q b []).2 = blockalloclen [b]) ∧
    (q.state.Qclosed = true → (qpassnolim q b []).2 = blockalloclen [b]) := by
  have hadd : (qpass_add q b bnext).2 = blockalloclen (b :: bnext) := by
    obtain ⟨-, w2, -⟩ := qpass_walk_spec b bnext (BALLOC b) (BLEN b)
    simp only [qpass_add, w2, blockalloclen]
  refine ⟨?_, ?_, ?_, ?_, ?_⟩
  · intro h1 h2
    have h3 : ¬ q.len ≥ q.limit := by omega
    simp only [qpass, h3, if_false, h2, Bool.false_eq_true]
    exact hadd
  · intro h2
    simp only [qpassnolim, h2, if_false, Bool.false_eq_true]
    exact hadd
  · intro h1
    simp [qpass, h1]
  · intro h1 h2
    have h3 : ¬ q.len ≥ q.limit := by omega
    simp [qpass, h3, h2, blockalloclen]
  · intro h2
    simp [qpassnolim, h2, blockalloclen]

theorem qpass_return_witness :
    (qpass (qopen 100 Qstream false 0) ⟨1, [], [1, 2], [], false⟩
        [⟨2, [], [3, 4, 5], [], false⟩]).2
      = blockalloclen [⟨1, [], [1, 2], [], false⟩, ⟨2, [], [3, 4, 5], [], false⟩] :=
  (qpass_return (qopen 100 Qstream false 0) ⟨1, [], [1, 2], [], false⟩
    [⟨2, [], [3, 4, 5], [], false⟩]).1 (by decide) (by decide)

/-- C16 (counterexample): `qpass` on a queue at its limit (limit 0) returns -1,
not the footprint 2 of the chain; and on a closed queue `qpass` of a chain of
two buffers of footprint 2 each returns 2, not 4. -/
theorem qpass_return_counterexample :
    ((qpass (qopen 0 Qstream false 0) ⟨1, [], [1, 2], [], false⟩ []).2 = -1 ∧
      blockalloclen [⟨1, [], [1, 2], [], false⟩] = 2) ∧
    ((qpass (qclose 128 (qopen 100 Qstream false 0)) ⟨1, [], [1, 2], [], false⟩
        [⟨2, [], [3, 4], [], false⟩]).2 = 2 ∧
      blockalloclen [⟨1, [], [1, 2], [], false⟩, ⟨2, [], [3, 4], [], false⟩] = 4) := by
  decide

/-- C17: `qproduce` on a queue with `len >= limit` returns -1, sets the
flow-controlled bit and changes nothing else; under the limit, when the
non-sleeping allocation fails it returns 0 and leaves the queue unchanged;
otherwise it appends exactly one buffer, holding the `n` bytes of `p`, at the
tail, adds `n` to `dlen` and the footprint of that buffer to `len`, and
returns `n`. -/
theorem qproduce_spec (A : Allocator) (q : Queue) (p : List Byte) :
    (q.len ≥ q.limit →
      qproduce A q p = ({ q with state := { q.state with Qflow := true } }, -1)) ∧
    (q.len < q.limit → A.ifail p.length = true → qproduce A q p = (q, 0)) ∧
    (q.len < q.limit → A.ifail p.length = false →
      ∃ b : Block, b.data = p ∧
        (qproduce A q p).1.bfirst = q.bfirst ++ [b] ∧
        (qproduce A q p).1.dlen = q.dlen + (p.length : Int) ∧
        (qproduce A q p).1.len = q.len + BALLOC b ∧
        (qproduce A q p).2 = (p.length : Int)) := by
  refine ⟨?_, ?_, ?_⟩
  · intro h
    simp [qproduce, h]
  · intro h1 h2
    have h3 : ¬ q.len ≥ q.limit := by omega
    simp [qproduce, h3, iallocb, h2]
  · intro h1 h2
    have h3 : ¬ q.len ≥ q.limit := by omega
    refine ⟨({ allocb A p.length with bintr := true } : Block).wp_put p, ?_, ?_⟩
    · simp [Block.wp_put, allocb]
    · simp only [qproduce, h3, if_false, iallocb, h2, Bool.false_eq_true]
      split_ifs <;> simp [BLEN, Block.wp_put, allocb]

theorem qproduce_spec_witness :
    ∃ b : Block, b.data = [1, 2, 3] ∧
      (qproduce exAlloc (qopen 100 Qstream false 0) [1, 2, 3]).1.bfirst
        = (qopen 100 Qstream false 0).bfirst ++ [b] ∧
      (qproduce exAlloc (qopen 100 Qstream false 0) [1, 2, 3]).1.dlen
        = (qopen 100 Qstream false 0).dlen + (([1, 2, 3] : List Byte).length : Int) ∧
      (qproduce exAlloc (qopen 100 Qstream false 0) [1, 2, 3]).1.len
        = (qopen 100 Qstream false 0).len + BALLOC b ∧
      (qproduce exAlloc (qopen 100 Qstream false 0) [1, 2, 3]).2
        = (([1, 2, 3] : List Byte).length : Int) :=
  (qproduce_spec exAlloc (qopen 100 Qstream false 0) [1, 2, 3]).2.2 (by decide) (by decide)

theorem qconsume_skip_none (l : List Block) (q : Queue) (hl : q.bfirst = l)
    (h : (qconsume_skip l q).2 = none) :
    (qconsume_skip l q).1
      = { q with bfirst := [], len := q.len - blockalloclen l,
                 state := { q.state with Qstarve := true } } ∧
    (∀ b ∈ l, b.data = []) := by
  induction l generalizing q with
  | nil =>
    refine ⟨?_, fun b hb => absurd hb (List.not_mem_nil b)⟩
    simp only [qconsume_skip, blockalloclen, sub_zero]
    rw [← hl]
  | cons b next ih =>
    simp only [qconsume_skip] at h ⊢
    split_ifs at h ⊢ with h1
    · have hd : b.data = [] := by
        simp [BLEN] at h1; exact h1
      obtain ⟨i1, i2⟩ := ih { q with bfirst := next, len := q.len - BALLOC b } rfl h
      refine ⟨?_, ?_⟩
      · rw [i1]
        simp only [blockalloclen]
        congr 1
        ring
      · intro x hx
        simp only [List.mem_cons] at hx
        rcases hx with rfl | hx
        · exact hd
        · exact i2 x hx

theorem qconsume_minus_one (q : Queue) (n : Nat) (h : (qconsume q n).2.1 = -1) :
    (qconsume_skip q.bfirst q).2 = none := by
  unfold qconsume at h
  generalize qconsume_skip q.bfirst q = R at h ⊢
  obtain ⟨q1, o⟩ := R
  cases o with
  | none => rfl
  | some bn =>
    obtain ⟨b, next⟩ := bn
    simp only [] at h
    split_ifs at h

theorem qiwrite_q3_starve (q1 : Queue) (d1 : Bool) :
    (if (d1 && (if q1.state.Qstarve then
                  { q1 with state := { q1.state with Qstarve := false } } else q1).kick) = true
     then { (if q1.state.Qstarve then
                  { q1 with state := { q1.state with Qstarve := false } } else q1) with
            kicks := (if q1.state.Qstarve then
                  { q1 with state := { q1.state with Qstarve := false } } else q1).kicks
              ++ [(if q1.state.Qstarve then
                  { q1 with state := { q1.state with Qstarve := false } } else q1).arg] }
     else (if q1.state.Qstarve then
                  { q1 with state := { q1.state with Qstarve := false } } else q1)).state.Qstarve
      = false := by
  cases hs : q1.state.Qstarve <;> split_ifs <;> simp_all

theorem qiwrite_loop_starve (A : Allocator) (fuel : Nat) (q : Queue) (p : List Byte)
    (sofar : Nat) (d : Bool) :
    (qiwrite_loop A fuel q p sofar d).1 = q ∨
    (qiwrite_loop A fuel q p sofar d).1.state.Qstarve = false := by
  induction fuel generalizing q sofar d with
  | zero => exact Or.inl rfl
  | succ fuel ih =>
    simp only [qiwrite_loop]
    generalize (if p.length - sofar > Maxatomic then Maxatomic else p.length - sofar) = n
    cases iallocb A n with
    | none => exact Or.inl rfl
    | some b0 =>
      simp only []
      by_cases hd : q.dlen ≥ 16 * 1024
      · rw [if_pos hd]
        exact Or.inl rfl
      · rw [if_neg hd]
        right
        have key := qiwrite_q3_starve
          { q with
            bfirst := q.bfirst ++ [b0.wp_put ((p.drop sofar).take n)]
            blast := some (b0.wp_put ((p.drop sofar).take n)).addr
            len := q.len + BALLOC (b0.wp_put ((p.drop sofar).take n))
            dlen := q.dlen + (n : Int) } (d || q.state.Qstarve)
        have hQ : ∀ (Q3 : Queue) (c : Bool) (s1 : Nat) (d1 : Bool),
            Q3.state.Qstarve = false →
            (if c = true then qiwrite_loop A fuel Q3 p s1 d1 else (Q3, s1)).1.state.Qstarve
              = false := by
          intro Q3 c s1 d1 hq
          split
          · rcases ih Q3 s1 d1 with h | h
            · rw [h]
              exact hq
            · exact h
          · exact hq
        apply hQ
        exact key
theorem qpass_add_starve (q : Queue) (b : Block) (bnext : List Block) :
    (qpass_add q b bnext).1.state.Qstarve = false := by
  unfold qpass_add
  simp only []
  split_ifs <;> simp_all

theorem qproduce_starve (A : Allocator) (q : Queue) (p : List Byte)
    (h : (qproduce A q p).1.bfirst ≠ q.bfirst) :
    (qproduce A q p).1.state.Qstarve = false := by
  unfold qproduce at h ⊢
  by_cases h1 : q.len ≥ q.limit
  · simp [h1] at h
  · simp only [h1, if_false] at h ⊢
    generalize iallocb A p.length = o at h ⊢
    cases o with
    | none => simp at h
    | some b0 =>
      simp only []
      split_ifs <;> simp_all

theorem qbwrite_starve (q : Queue) (c : Nat) (b : Block) (bnext : List Block)
    (h : (qbwrite q c b bnext).q.bfirst ≠ q.bfirst) :
    (qbwrite q c b bnext).q.state.Qstarve = false := by
  by_cases hby : q.bypass = true
  · simp [qbwrite, hby] at h
  · by_cases hc : q.state.Qclosed = true
    · simp [qbwrite, hby, hc] at h
    · by_cases hacc : q.len ≥ q.limit ∧ q.noblock = true
      · have h1 : (decide (q.len ≥ q.limit) && q.noblock) = true := by simpa using hacc
        simp [qbwrite, hby, hc, h1] at h
      · simp only [Bool.not_eq_true] at hby hc
        exact (qbwrite_enq q c b bnext hc hby hacc).2.2.2.2.2.2.2.2.1

/-- C18 (as amended): starvation protocol.  A non-blocking consumer that finds no buffer
queued (`qget` returning no block, `qconsume` on a queue with no buffer) sets
the starved bit and changes nothing else; whenever `qconsume` returns -1
every buffer that was queued was empty, the queue it leaves has no buffer,
`len` reduced by their footprint and the starved bit set, all else as before;
and after every enqueue by `qpass`, `qpassnolim`, `qproduce`, `qbwrite` or
`qiwrite` (a call that changed the chain of the queue) the starved bit is
clear. -/
theorem starvation_protocol (A : Allocator) (q : Queue) (n c : Nat) (b : Block)
    (bnext : List Block) (p : List Byte) :
    ((qget q).2 = none →
      q.bfirst = [] ∧ (qget q).1 = { q with state := { q.state with Qstarve := true } }) ∧
    (q.bfirst = [] →
      qconsume q n = ({ q with state := { q.state with Qstarve := true } }, -1, [])) ∧
    ((qconsume q n).2.1 = -1 →
      (∀ x ∈ q.bfirst, x.data = []) ∧
      (qconsume q n).1 = { q with bfirst := [], len := q.len - blockalloclen q.bfirst,
                                  state := { q.state with Qstarve := true } }) ∧
    ((qpass q b bnext).1.bfirst ≠ q.bfirst → (qpass q b bnext).1.state.Qstarve = false) ∧
    ((qpassnolim q b bnext).1.bfirst ≠ q.bfirst →
      (qpassnolim q b bnext).1.state.Qstarve = false) ∧
    ((qproduce A q p).1.bfirst ≠ q.bfirst → (qproduce A q p).1.state.Qstarve = false) ∧
    ((qbwrite q c b bnext).q.bfirst ≠ q.bfirst →
      (qbwrite q c b bnext).q.state.Qstarve = false) ∧
    ((qiwrite A q p).1.bfirst ≠ q.bfirst → (qiwrite A q p).1.state.Qstarve = false) := by
  refine ⟨?_, ?_, ?_, ?_, ?_, ?_, ?_, ?_⟩
  · intro h
    unfold qget at h ⊢
    cases hb : q.bfirst with
    | nil => simp
    | cons x xs => simp [hb] at h
  · intro h
    simp [qconsume, h, qconsume_skip]
  · intro h
    have h1 := qconsume_minus_one q n h
    obtain ⟨h2, h3⟩ := qconsume_skip_none q.bfirst q rfl h1
    refine ⟨h3, ?_⟩
    rw [← h2]
    unfold qconsume
    generalize qconsume_skip q.bfirst q = R at h1 ⊢
    obtain ⟨q1, o⟩ := R
    simp only [] at h1
    subst h1
    rfl
  · intro h
    unfold qpass at h ⊢
    split_ifs at h ⊢
    · exact absurd rfl h
    · exact absurd rfl h
    · exact qpass_add_starve q b bnext
  · intro h
    unfold qpassnolim at h ⊢
    split_ifs at h ⊢
    · exact absurd rfl h
    · exact qpass_add_starve q b bnext
  · exact qproduce_starve A q p
  · exact qbwrite_starve q c b bnext
  · intro h
    rcases qiwrite_loop_starve A (p.length + 1) q p 0 false with h1 | h1
    · exact absurd (by rw [qiwrite, h1]) h
    · exact h1

theorem starvation_protocol_witness :
    (qbwrite (qget (qopen 100 Qstream false 0)).1 0 ⟨1, [], [7], [], false⟩ []).q.bfirst
        ≠ (qget (qopen 100 Qstream false 0)).1.bfirst ∧
    (qget (qopen 100 Qstream false 0)).1.state.Qstarve = true ∧
    (qbwrite (qget (qopen 100 Qstream false 0)).1 0 ⟨1, [], [7], [], false⟩ []).q.state.Qstarve
        = false :=
  ⟨by decide, by decide,
   (starvation_protocol exAlloc (qget (qopen 100 Qstream false 0)).1 0 0
      ⟨1, [], [7], [], false⟩ [] []).2.2.2.2.2.2.1 (by decide)⟩

/-- C18 (counterexample): with one empty buffer of footprint 1 queued,
`qconsume` returns -1 but has changed more than the starved bit: the buffer
is gone from the chain and `len` went from 1 to 0.  The same after a
zero-length `qwrite`, which queues one empty buffer. -/
theorem qconsume_starve_counterexample :
    (qconsume (qbwrite (qopen 100 Qstream false 0) 0 ⟨1, [9], [], [], false⟩ []).q 5).2.1 = -1 ∧
    (qbwrite (qopen 100 Qstream false 0) 0 ⟨1, [9], [], [], false⟩ []).q.bfirst
      = [⟨1, [9], [], [], false⟩] ∧
    (qbwrite (qopen 100 Qstream false 0) 0 ⟨1, [9], [], [], false⟩ []).q.len = 1 ∧
    (qconsume (qbwrite (qopen 100 Qstream false 0) 0 ⟨1, [9], [], [], false⟩ []).q 5).1.bfirst
      = [] ∧
    (qconsume (qbwrite (qopen 100 Qstream false 0) 0 ⟨1, [9], [], [], false⟩ []).q 5).1.len = 0 ∧
    (qconsume (qbwrite (qopen 100 Qstream false 0) 0 ⟨1, [9], [], [], false⟩ []).q 5).1
      ≠ { (qbwrite (qopen 100 Qstream false 0) 0 ⟨1, [9], [], [], false⟩ []).q with
          state := { (qbwrite (qopen 100 Qstream false 0) 0
                        ⟨1, [9], [], [], false⟩ []).q.state with
                     Qstarve := true } } ∧
    (qwrite exAlloc (qopen 100 Qstream false 0) 0 []).q.bfirst.length = 1 ∧
    (qconsume (qwrite exAlloc (qopen 100 Qstream false 0) 0 []).q 5).2.1 = -1 ∧
    (qconsume (qwrite exAlloc (qopen 100 Qstream false 0) 0 []).q 5).1.bfirst = [] := by
  decide

/-- C19 (as amended): on an open queue without bypass, in non-blocking mode
and with `len >= limit`, `qbwrite` drops the block: the queue is unchanged, the call
returns the readable length `n` of the block without being held, and the
32-bit counter `noblockcnt` has `n` added to it (modulo `2 ^ 32`, so it grows
by exactly `n` short of wrapping). -/
theorem qbwrite_noblock_drop (q : Queue) (c : Nat) (b : Block) (bnext : List Block)
    (ho : q.state.Qclosed = false) (hby : q.bypass = false) (hnb : q.noblock = true)
    (hfull : q.len ≥ q.limit) :
    (qbwrite q c b bnext).q = q ∧
    (qbwrite q c b bnext).ret = Res.ret (BLEN b) ∧
    (qbwrite q c b bnext).held = false ∧
    (qbwrite q c b bnext).noblockcnt = (c + b.data.length) % 2 ^ 32 ∧
    (c + b.data.length < 2 ^ 32 → (qbwrite q c b bnext).noblockcnt = c + b.data.length) := by
  have h : qbwrite q c b bnext
      = { q := q, noblockcnt := (c + b.data.length) % 2 ^ 32, ret := Res.ret (BLEN b),
          held := false } := by
    unfold qbwrite
    simp [hby, ho, hnb, hfull, BLEN]
  rw [h]
  refine ⟨rfl, rfl, rfl, rfl, ?_⟩
  intro hlt
  exact Nat.mod_eq_of_lt hlt

theorem qbwrite_noblock_drop_witness :
    (qbwrite (qnoblock (qopen 0 Qstream false 0) true) 5 ⟨1, [], [1, 2, 3], [], false⟩ []).q
      = qnoblock (qopen 0 Qstream false 0) true ∧
    (qbwrite (qnoblock (qopen 0 Qstream false 0) true) 5 ⟨1, [], [1, 2, 3], [], false⟩ []).ret
      = Res.ret (BLEN ⟨1, [], [1, 2, 3], [], false⟩) ∧
    (qbwrite (qnoblock (qopen 0 Qstream false 0) true) 5 ⟨1, [], [1, 2, 3], [], false⟩ []).held
      = false ∧
    (qbwrite (qnoblock (qopen 0 Qstream false 0) true) 5
        ⟨1, [], [1, 2, 3], [], false⟩ []).noblockcnt
      = (5 + (⟨1, [], [1, 2, 3], [], false⟩ : Block).data.length) % 2 ^ 32 ∧
    (5 + (⟨1, [], [1, 2, 3], [], false⟩ : Block).data.length < 2 ^ 32 →
      (qbwrite (qnoblock (qopen 0 Qstream false 0) true) 5
          ⟨1, [], [1, 2, 3], [], false⟩ []).noblockcnt
        = 5 + (⟨1, [], [1, 2, 3], [], false⟩ : Block).data.length) :=
  qbwrite_noblock_drop (qnoblock (qopen 0 Qstream false 0) true) 5
    ⟨1, [], [1, 2, 3], [], false⟩ [] (by decide) (by decide) (by decide) (by decide)

/-- C19 (counterexample): the queue made by `qbypass` with context 7 and
set non-blocking is open and has `len = 0 >= limit = 0`, yet `qbwrite` of a
3-byte block hands the block to the bypass callback and returns 3 with
`noblockcnt` as it was.  On a queue without bypass the 32-bit counter wraps:
from `2 ^ 32 - 1` a dropped 3-byte block brings it to 2. -/
theorem qbwrite_noblock_drop_counterexample :
    (qnoblock (qbypass 7) true).state.Qclosed = false ∧
    (qnoblock (qbypass 7) true).noblock = true ∧
    (qnoblock (qbypass 7) true).len ≥ (qnoblock (qbypass 7) true).limit ∧
    (qbwrite (qnoblock (qbypass 7) true) 5 ⟨1, [], [1, 2, 3], [], false⟩ []).ret
      = Res.ret 3 ∧
    (qbwrite (qnoblock (qbypass 7) true) 5 ⟨1, [], [1, 2, 3], [], false⟩ []).noblockcnt = 5 ∧
    (qbwrite (qnoblock (qbypass 7) true) 5 ⟨1, [], [1, 2, 3], [], false⟩ []).q.bypassed
      = [(7, [⟨1, [], [1, 2, 3], [], false⟩])] ∧
    (qbwrite (qnoblock (qopen 0 Qstream false 0) true) 4294967295
        ⟨1, [], [1, 2, 3], [], false⟩ []).noblockcnt = 2 := by
  decide

/-- C20 (as amended): on an open queue without bypass in blocking mode,
`qbwrite` of a block with no successor enqueues it at the tail whatever `len`
is relative to `limit`: afterwards the payload of the queue is the old
payload followed by the payload of the block, `dlen` has grown by its
readable length, and that length is the value returned. -/
theorem qbwrite_enqueues_block (q : Queue) (c : Nat) (b : Block)
    (ho : q.state.Qclosed = false) (hby : q.bypass = false) (hnb : q.noblock = false) :
    (qbwrite q c b []).q.bfirst = q.bfirst ++ [b] ∧
    payload (qbwrite q c b []).q.bfirst = payload q.bfirst ++ payload [b] ∧
    (qbwrite q c b []).q.dlen = q.dlen + blocklen [b] ∧
    (qbwrite q c b []).ret = Res.ret (blocklen [b]) := by
  have hacc : ¬ (q.len ≥ q.limit ∧ q.noblock = true) := by simp [hnb]
  obtain ⟨e1, -, -, e4, -, -, -, -, -, -, -, e12, -⟩ := qbwrite_enq q c b [] ho hby hacc
  refine ⟨e1, by rw [e1]; simp, by rw [e4]; simp [blocklen], by rw [e12]; simp [blocklen]⟩

theorem qbwrite_enqueues_block_witness :
    (qbwrite (qopen 1 Qstream false 0) 0 ⟨1, [], [1, 2, 3], [], false⟩ []).q.bfirst
      = (qopen 1 Qstream false 0).bfirst ++ [⟨1, [], [1, 2, 3], [], false⟩] ∧
    payload (qbwrite (qopen 1 Qstream false 0) 0 ⟨1, [], [1, 2, 3], [], false⟩ []).q.bfirst
      = payload (qopen 1 Qstream false 0).bfirst ++ payload [⟨1, [], [1, 2, 3], [], false⟩] ∧
    (qbwrite (qopen 1 Qstream false 0) 0 ⟨1, [], [1, 2, 3], [], false⟩ []).q.dlen
      = (qopen 1 Qstream false 0).dlen + blocklen [⟨1, [], [1, 2, 3], [], false⟩] ∧
    (qbwrite (qopen 1 Qstream false 0) 0 ⟨1, [], [1, 2, 3], [], false⟩ []).ret
      = Res.ret (blocklen [⟨1, [], [1, 2, 3], [], false⟩]) :=
  qbwrite_enqueues_block (qopen 1 Qstream false 0) 0 ⟨1, [], [1, 2, 3], [], false⟩
    (by decide) (by decide) (by decide)

/-- C20 (counterexample): `qbwrite` of a chain of two buffers holding
`[1, 2]` and `[3, 4]` on an empty open blocking queue queues `[1, 2]` only and
returns 2, where the chain holds four readable bytes. -/
theorem qbwrite_chain_counterexample :
    payload (qbwrite (qopen 100 Qstream false 0) 0 ⟨1, [], [1, 2], [], false⟩
        [⟨2, [], [3, 4], [], false⟩]).q.bfirst = [1, 2] ∧
    (qbwrite (qopen 100 Qstream false 0) 0 ⟨1, [], [1, 2], [], false⟩
        [⟨2, [], [3, 4], [], false⟩]).q.dlen = 2 ∧
    (qbwrite (qopen 100 Qstream false 0) 0 ⟨1, [], [1, 2], [], false⟩
        [⟨2, [], [3, 4], [], false⟩]).ret = Res.ret 2 ∧
    payload [⟨1, [], [1, 2], [], false⟩, ⟨2, [], [3, 4], [], false⟩] = [1, 2, 3, 4] ∧
    blocklen [⟨1, [], [1, 2], [], false⟩, ⟨2, [], [3, 4], [], false⟩] = 4 := by
  decide

@[simp]
theorem wp_put_data (b : Block) (p : List Byte) : (b.wp_put p).data = b.data ++ p := rfl

@[simp]
theorem wp_put_front (b : Block) (p : List Byte) : (b.wp_put p).front = b.front := rfl

@[simp]
theorem wp_put_back (b : Block) (p : List Byte) : (b.wp_put p).back = b.back.drop p.length :=
  rfl

theorem wp_put_BALLOC (b : Block) (p : List Byte) (h : p.length ≤ b.back.length) :
    BALLOC (b.wp_put p) = BALLOC b := by
  simp only [BALLOC, wp_put_data, wp_put_front, wp_put_back, List.length_append,
    List.length_drop]
  omega

theorem allocb_room (A : Allocator) (n : Nat) : n ≤ (allocb A n).back.length :=
  A.room_ge n

theorem concat_loop_data (l : List Block) (nb : Block) :
    (concat_loop nb l).data = nb.data ++ payload l := by
  induction l generalizing nb with
  | nil => simp [concat_loop]
  | cons f next ih => simp [concat_loop, ih]

theorem payload_length (l : List Block) : ((payload l).length : Int) = blocklen l :=
  (blocklen_eq_payload l).symm

theorem blocklen_nonneg (l : List Block) : 0 ≤ blocklen l := by
  rw [blocklen_eq_payload]
  exact Int.ofNat_nonneg _

theorem blocklen_pos_ne_nil (l : List Block) (h : 0 < blocklen l) : l ≠ [] := by
  intro hl
  rw [hl] at h
  simp [blocklen] at h

theorem sameCtl_refl (q : Queue) : sameCtl q q := ⟨rfl, rfl, rfl⟩

theorem sameCtl_trans {q q2 q3 : Queue} (h1 : sameCtl q q2) (h2 : sameCtl q2 q3) :
    sameCtl q q3 :=
  ⟨h2.1.trans h1.1, h2.2.1.trans h1.2.1, h2.2.2.trans h1.2.2⟩

theorem sameCtl_flowrestart (q : Queue) : sameCtl q (flowrestart q).1 := by
  unfold flowrestart sameCtl
  split_ifs <;> simp

theorem sameCtl_qwakeup (q : Queue) : sameCtl q (qwakeup_iunlock q) := by
  unfold qwakeup_iunlock flowrestart sameCtl
  simp only []
  split_ifs <;> simp

theorem sameCtl_qget (q : Queue) : sameCtl q (qget q).1 := by
  unfold qget
  split
  · exact ⟨rfl, rfl, rfl⟩
  · exact sameCtl_trans ⟨rfl, rfl, rfl⟩ (sameCtl_flowrestart _)

theorem sameCtl_qdiscard_loop (len : Int) (l : List Block) (q : Queue) (sofar : Int) :
    sameCtl q (qdiscard_loop len l q sofar).1 := by
  induction l generalizing q sofar with
  | nil => exact sameCtl_refl q
  | cons b next ih =>
    simp only [qdiscard_loop]
    split_ifs
    · exact sameCtl_trans ⟨rfl, rfl, rfl⟩ (ih _ _)
    · exact ⟨rfl, rfl, rfl⟩
    · exact sameCtl_refl q

theorem sameCtl_qconsume_skip (l : List Block) (q : Queue) :
    sameCtl q (qconsume_skip l q).1 := by
  induction l generalizing q with
  | nil => exact ⟨rfl, rfl, rfl⟩
  | cons b next ih =>
    simp only [qconsume_skip]
    split_ifs
    · exact sameCtl_refl q
    · exact sameCtl_trans ⟨rfl, rfl, rfl⟩ (ih _)

theorem sameCtl_qconsume (q : Queue) (len : Nat) : sameCtl q (qconsume q len).1 := by
  have hs := sameCtl_qconsume_skip q.bfirst q
  unfold qconsume
  generalize qconsume_skip q.bfirst q = R at hs
  obtain ⟨q1, o⟩ := R
  cases o with
  | none => exact hs
  | some bn =>
    obtain ⟨b, next⟩ := bn
    simp only [] at hs ⊢
    refine sameCtl_trans hs (sameCtl_trans ?_ (sameCtl_flowrestart _))
    split_ifs <;> exact ⟨rfl, rfl, rfl⟩

theorem sameCtl_qremove (q : Queue) : sameCtl q (qremove q).1 := by
  unfold qremove
  split <;> exact ⟨rfl, rfl, rfl⟩

theorem sameCtl_qwait (q : Queue) : sameCtl q (qwait q).1 := by
  unfold qwait
  split
  · exact sameCtl_refl q
  · simp only []
    split_ifs <;> exact ⟨rfl, rfl, rfl⟩

theorem sameCtl_qbread (A : Allocator) (q : Queue) (len : Nat) :
    sameCtl q (qbread A q len).1 := by
  have hw := sameCtl_qwait q
  unfold qbread
  generalize qwait q = W at hw
  obtain ⟨q1, w⟩ := W
  cases w with
  | eof => exact hw
  | error => exact hw
  | sleep => exact hw
  | data =>
    simp only [] at hw ⊢
    have hr := sameCtl_qremove q1
    generalize qremove q1 = R at hr
    obtain ⟨q2, o⟩ := R
    cases o with
    | none => exact sameCtl_trans hw hr
    | some nb =>
      simp only [] at hr ⊢
      refine sameCtl_trans hw (sameCtl_trans hr ?_)
      split_ifs
      · exact sameCtl_trans (by exact ⟨rfl, rfl, rfl⟩) (sameCtl_qwakeup _)
      · exact sameCtl_qwakeup _
      · exact sameCtl_qwakeup _

theorem sameCtl_qread_finish (q : Queue) (first : List Block) (n : Int) (len : Nat) :
    sameCtl q (qread_finish q first n len).q := by
  unfold qread_finish
  simp only []
  split
  · exact sameCtl_qwakeup _
  · split_ifs
    · exact sameCtl_qwakeup _
    · exact sameCtl_trans (by exact ⟨rfl, rfl, rfl⟩) (sameCtl_qwakeup _)

theorem sameCtl_qread_grab (fuel : Nat) (q : Queue) (n len : Int) :
    sameCtl q (qread_grab fuel q n len).1 := by
  induction fuel generalizing q n with
  | zero => exact sameCtl_refl q
  | succ fuel ih =>
    cases hb : q.bfirst with
    | nil => simp [qread_grab, qremove, hb, sameCtl]
    | cons b rest =>
      cases rest with
      | nil => simp [qread_grab, qremove, hb, sameCtl]
      | cons b2 rest2 =>
        simp only [qread_grab, qremove, hb]
        split_ifs
        · exact ⟨rfl, rfl, rfl⟩
        · exact sameCtl_trans (by exact ⟨rfl, rfl, rfl⟩) (ih _ _)

theorem sameCtl_qread_again (fuel : Nat) (q : Queue) (len : Nat) :
    sameCtl q (qread_again fuel q len).q := by
  induction fuel generalizing q with
  | zero => exact sameCtl_refl q
  | succ fuel ih =>
    have hw := sameCtl_qwait q
    simp only [qread_again]
    generalize qwait q = W at hw
    obtain ⟨q1, w⟩ := W
    cases w with
    | eof => exact hw
    | error => exact hw
    | sleep => exact hw
    | data =>
      simp only [] at hw ⊢
      refine sameCtl_trans hw ?_
      split_ifs
      · cases hb : q1.bfirst with
        | nil => exact sameCtl_refl q1
        | cons b rest =>
          simp only []
          split_ifs
          · exact sameCtl_trans (sameCtl_qremove q1) (ih _)
          · exact sameCtl_trans (sameCtl_qread_grab _ q1 _ _) (sameCtl_qread_finish _ _ _ _)
      · have hr := sameCtl_qremove q1
        generalize qremove q1 = R at hr
        obtain ⟨q2, o⟩ := R
        cases o with
        | none => exact hr
        | some first => exact sameCtl_trans hr (sameCtl_qread_finish _ _ _ _)

theorem sameCtl_step (A : Allocator) (errmax : Nat) (q : Queue) (o : Op)
    (h : o.isRead = true) : sameCtl q (step A errmax q o) := by
  cases o with
  | get => exact sameCtl_qget q
  | discard len =>
    exact sameCtl_trans (sameCtl_qdiscard_loop len q.bfirst q 0) (sameCtl_flowrestart _)
  | consume len => exact sameCtl_qconsume q len
  | read len => exact sameCtl_qread_again _ q len
  | bread len => exact sameCtl_qbread A q len
  | _ => simp [Op.isRead] at h

theorem sameCtl_runOps (A : Allocator) (errmax : Nat) (os : List Op) (q : Queue)
    (h : ∀ o ∈ os, o.isRead = true) : sameCtl q (runOps A errmax q os) := by
  induction os generalizing q with
  | nil => exact sameCtl_refl q
  | cons o os ih =>
    exact sameCtl_trans (sameCtl_step A errmax q o (h o (List.mem_cons_self _ _)))
      (ih _ (fun x hx => h x (List.mem_cons_of_mem _ hx)))

theorem qbwrite_wait_iff (q : Queue) :
    ((qbwrite_wait q).2 = true ↔
      (q.noblock = true ∨ q.len < q.limit ∨ q.state.Qclosed = true)) ∧
    ((qbwrite_wait q).2 = true → (qbwrite_wait q).1 = q) ∧
    ((qbwrite_wait q).2 = false →
      (qbwrite_wait q).1 = { q with state := { q.state with Qflow := true } }) := by
  unfold qbwrite_wait qnotfull
  split_ifs with h
  · simp only [Bool.or_eq_true, decide_eq_true_eq] at h
    simp [h]
  · simp only [Bool.or_eq_true, decide_eq_true_eq] at h
    simp [h]

theorem qwrite_one (A : Allocator) (q : Queue) (c : Nat) (p : List Byte)
    (hp : p.length ≤ Maxatomic) (ho : q.state.Qclosed = false) (hby : q.bypass = false)
    (hnb : q.noblock = false) :
    (qwrite A q c p).q = (qbwrite q c ((allocb A p.length).wp_put p) []).q ∧
    (qwrite A q c p).noblockcnt = c ∧
    (qwrite A q c p).ret = Res.ret (p.length : Int) ∧
    (qwrite A q c p).held = (qbwrite q c ((allocb A p.length).wp_put p) []).held := by
  have hacc : ¬ (q.len ≥ q.limit ∧ q.noblock = true) := by simp [hnb]
  obtain ⟨-, -, -, -, -, -, -, -, -, -, -, e12, e13⟩ :=
    qbwrite_enq q c ((allocb A p.length).wp_put p) [] ho hby hacc
  have hn : (if p.length - 0 > Maxatomic then Maxatomic else p.length - 0) = p.length := by
    rw [if_neg (by omega)]
    rfl
  unfold qwrite
  simp only [qwrite_loop, hn, List.drop_zero, List.take_length, e12, e13, Nat.zero_add]
  by_cases hh : (qbwrite q c ((allocb A p.length).wp_put p) []).held = true
  · simp [hh]
  · simp [hh]

theorem qbwrite_blocking (q : Queue) (c : Nat) (b : Block) (ho : q.state.Qclosed = false)
    (hby : q.bypass = false) (hnb : q.noblock = false) :
    (qbwrite q c b []).held = decide (q.len + BALLOC b ≥ q.limit) ∧
    (qbwrite q c b []).q.state.Qflow
      = (q.state.Qflow || decide (q.len + BALLOC b ≥ q.limit)) := by
  have h1 : ¬ (decide (q.len ≥ q.limit) && q.noblock) = true := by simp [hnb]
  unfold qbwrite qnotfull
  simp only [hby, ho, h1, hnb, Bool.false_eq_true, if_false, Bool.false_or, Bool.or_false]
  split_ifs <;> simp_all

theorem allocb_put (A : Allocator) (p : List Byte) :
    BALLOC ((allocb A p.length).wp_put p) = BALLOC (allocb A p.length) ∧
    BLEN ((allocb A p.length).wp_put p) = (p.length : Int) ∧
    ((allocb A p.length).wp_put p).data = p ∧
    (p.length : Int) ≤ BALLOC (allocb A p.length) := by
  have hr := A.room_ge p.length
  refine ⟨wp_put_BALLOC _ _ hr, by simp [BLEN, Block.wp_put, allocb],
    by simp [Block.wp_put, allocb], ?_⟩
  simp only [BALLOC, allocb, List.length_nil]
  omega

theorem scen1_facts (A : Allocator) (p1 : List Byte) (h1 : p1.length = 3000) :
    (scen1 A p1).q.bfirst = [(allocb A 3000).wp_put p1] ∧
    (scen1 A p1).q.len = BALLOC (allocb A 3000) ∧
    (scen1 A p1).q.dlen = 3000 ∧ (scen1 A p1).q.limit = 4096 ∧
    (scen1 A p1).q.state.Qclosed = false ∧ (scen1 A p1).q.bypass = false ∧
    (scen1 A p1).q.noblock = false ∧
    (scen1 A p1).q.state.Qflow = decide (BALLOC (allocb A 3000) ≥ 4096) ∧
    (scen1 A p1).held = decide (BALLOC (allocb A 3000) ≥ 4096) ∧
    (scen1 A p1).ret = Res.ret 3000 ∧ (scen1 A p1).noblockcnt = 0 := by
  have hM : p1.length ≤ Maxatomic := by rw [h1]; decide
  obtain ⟨w1, w2, w3, w4⟩ := qwrite_one A (qopen 4096 Qstream false 0) 0 p1 hM rfl rfl rfl
  have hacc : ¬ ((qopen 4096 Qstream false 0).len ≥ (qopen 4096 Qstream false 0).limit ∧
      (qopen 4096 Qstream false 0).noblock = true) := by
    intro h
    exact absurd h.2 (by decide)
  obtain ⟨e1, -, e3, e4, e5, e6, -, -, -, e10, e11, -, -⟩ :=
    qbwrite_enq (qopen 4096 Qstream false 0) 0 ((allocb A p1.length).wp_put p1) [] rfl rfl hacc
  obtain ⟨f1, f2⟩ := qbwrite_blocking (qopen 4096 Qstream false 0) 0
    ((allocb A p1.length).wp_put p1) rfl rfl rfl
  obtain ⟨a1, a2, -, -⟩ := allocb_put A p1
  unfold scen1
  rw [w1, w2, w3, w4, e1, e3, e4, e5, e6, e10, e11, f1, f2, a1, a2, h1]
  refine ⟨rfl, ?_, ?_, rfl, rfl, rfl, rfl, ?_, ?_, rfl, rfl⟩
  · show (0 : Int) + BALLOC (allocb A 3000) = BALLOC (allocb A 3000)
    omega
  · show (0 : Int) + ((3000 : Nat) : Int) = 3000
    norm_num
  · show (false || decide ((0 : Int) + BALLOC (allocb A 3000) ≥ 4096))
      = decide (BALLOC (allocb A 3000) ≥ 4096)
    simp
  · show decide ((0 : Int) + BALLOC (allocb A 3000) ≥ 4096)
      = decide (BALLOC (allocb A 3000) ≥ 4096)
    simp

theorem scen2_facts (A : Allocator) (p1 p2 : List Byte) (h1 : p1.length = 3000)
    (h2 : p2.length = 2000) :
    (scen2 A p1 p2).q.bfirst = [(allocb A 3000).wp_put p1, (allocb A 2000).wp_put p2] ∧
    (scen2 A p1 p2).q.len = BALLOC (allocb A 3000) + BALLOC (allocb A 2000) ∧
    (scen2 A p1 p2).q.dlen = 5000 ∧ (scen2 A p1 p2).q.limit = 4096 ∧
    (scen2 A p1 p2).q.state.Qclosed = false ∧ (scen2 A p1 p2).q.bypass = false ∧
    (scen2 A p1 p2).q.noblock = false ∧
    (scen2 A p1 p2).q.state.Qflow = true ∧
    (scen2 A p1 p2).held = true ∧
    (scen2 A p1 p2).ret = Res.ret 2000 := by
  obtain ⟨s1, s2, s3, s4, s5, s6, s7, s8, -, -, s11⟩ := scen1_facts A p1 h1
  have hM : p2.length ≤ Maxatomic := by rw [h2]; decide
  obtain ⟨w1, -, w3, w4⟩ := qwrite_one A (scen1 A p1).q (scen1 A p1).noblockcnt p2 hM s5 s6 s7
  have hacc : ¬ ((scen1 A p1).q.len ≥ (scen1 A p1).q.limit ∧
      (scen1 A p1).q.noblock = true) := by
    intro h
    rw [s7] at h
    exact absurd h.2 (by decide)
  obtain ⟨e1, -, e3, e4, e5, e6, -, -, -, e10, e11, -, -⟩ :=
    qbwrite_enq (scen1 A p1).q (scen1 A p1).noblockcnt ((allocb A p2.length).wp_put p2) []
      s5 s6 hacc
  obtain ⟨f1, f2⟩ := qbwrite_blocking (scen1 A p1).q (scen1 A p1).noblockcnt
    ((allocb A p2.length).wp_put p2) s5 s6 s7
  obtain ⟨a1, a2, -, a4⟩ := allocb_put A p2
  obtain ⟨-, -, -, b4⟩ := allocb_put A p1
  rw [h1] at b4
  rw [h2] at a4
  have hfull : decide ((scen1 A p1).q.len + BALLOC ((allocb A p2.length).wp_put p2)
      ≥ (scen1 A p1).q.limit) = true := by
    rw [s2, s4, a1, h2]
    simp only [decide_eq_true_eq]
    push_cast at a4 b4
    omega
  unfold scen2
  simp only [h2] at w1 w3 w4 e1 e3 e4 e5 e6 e10 e11 f1 f2 a1 a2 hfull
  rw [w1, w3, w4, e1, e3, e4, e5, e6, e10, f1, f2, hfull, a1, a2, s1, s2, s3, s4]
  refine ⟨rfl, rfl, by norm_num, rfl, rfl, rfl, e11.trans s7, by simp, rfl, by norm_num⟩

/-- C21 (as amended): starting from `qopen` with limit 4096 in stream mode,
after a blocking write of 3000 bytes `qlen` is 3000, and the queue is not
flow-controlled when the footprint of the 3000-byte buffer is under 4096; a
second write of 2000 bytes is enqueued in full (`qlen` 5000, payload the two
writes in order) and leaves the queue flow-controlled with the writer held.
A writer waiting on flow control after any consumer calls leaves the wait
exactly when `len` is under the limit 4096. -/
theorem flow_scenario (A : Allocator) (errmax : Nat) (p1 p2 : List Byte) (os : List Op)
    (h1 : p1.length = 3000) (h2 : p2.length = 2000) (hos : ∀ o ∈ os, o.isRead = true) :
    qlen (scen1 A p1).q = 3000 ∧ (scen1 A p1).ret = Res.ret 3000 ∧
    (BALLOC (allocb A 3000) < 4096 →
      qfull (scen1 A p1).q = false ∧ (scen1 A p1).held = false) ∧
    qlen (scen2 A p1 p2).q = 5000 ∧ payload (scen2 A p1 p2).q.bfirst = p1 ++ p2 ∧
    (scen2 A p1 p2).ret = Res.ret 2000 ∧ qfull (scen2 A p1 p2).q = true ∧
    (scen2 A p1 p2).held = true ∧
    ((qbwrite_wait (runOps A errmax (scen2 A p1 p2).q os)).2 = true
      ↔ (runOps A errmax (scen2 A p1 p2).q os).len < 4096) := by
  obtain ⟨-, -, s3, -, -, -, -, s8, s9, s10, -⟩ := scen1_facts A p1 h1
  obtain ⟨t1, -, t3, t4, t5, -, t7, t8, t9, t10⟩ := scen2_facts A p1 p2 h1 h2
  refine ⟨s3, s10, ?_, t3, ?_, t10, t8, t9, ?_⟩
  · intro hlt
    have : decide (BALLOC (allocb A 3000) ≥ 4096) = false := by
      simp only [decide_eq_false_iff_not]
      omega
    exact ⟨by rw [qfull, s8, this], by rw [s9, this]⟩
  · rw [t1]
    simp [Block.wp_put, allocb]
  · obtain ⟨c1, c2, c3⟩ := sameCtl_runOps A errmax os (scen2 A p1 p2).q hos
    rw [(qbwrite_wait_iff _).1, c1, c2, c3, t4, t5, t7]
    simp

theorem flow_scenario_witness :
    qlen (scen1 exAlloc (List.replicate 3000 0)).q = 3000 ∧
    (scen1 exAlloc (List.replicate 3000 0)).ret = Res.ret 3000 ∧
    (BALLOC (allocb exAlloc 3000) < 4096 →
      qfull (scen1 exAlloc (List.replicate 3000 0)).q = false ∧
      (scen1 exAlloc (List.replicate 3000 0)).held = false) ∧
    qlen (scen2 exAlloc (List.replicate 3000 0) (List.replicate 2000 0)).q = 5000 ∧
    payload (scen2 exAlloc (List.replicate 3000 0) (List.replicate 2000 0)).q.bfirst
      = List.replicate 3000 0 ++ List.replicate 2000 0 ∧
    (scen2 exAlloc (List.replicate 3000 0) (List.replicate 2000 0)).ret = Res.ret 2000 ∧
    qfull (scen2 exAlloc (List.replicate 3000 0) (List.replicate 2000 0)).q = true ∧
    (scen2 exAlloc (List.replicate 3000 0) (List.replicate 2000 0)).held = true ∧
    ((qbwrite_wait (runOps exAlloc 128
        (scen2 exAlloc (List.replicate 3000 0) (List.replicate 2000 0)).q [Op.get])).2 = true
      ↔ (runOps exAlloc 128
        (scen2 exAlloc (List.replicate 3000 0) (List.replicate 2000 0)).q [Op.get]).len
          < 4096) :=
  flow_scenario exAlloc 128 (List.replicate 3000 0) (List.replicate 2000 0) [Op.get]
    (List.length_replicate 3000 0) (List.length_replicate 2000 0) (by decide)

theorem scen2_get (A : Allocator) (p1 p2 : List Byte) (h1 : p1.length = 3000)
    (h2 : p2.length = 2000) (hlo : 2048 ≤ BALLOC (allocb A 2000))
    (hhi : BALLOC (allocb A 2000) < 4096) :
    (qget (scen2 A p1 p2).q).1.len = BALLOC (allocb A 2000) ∧
    qfull (qget (scen2 A p1 p2).q).1 = true ∧
    (qbwrite_wait (qget (scen2 A p1 p2).q).1).2 = true := by
  obtain ⟨t1, t2, -, t4, t5, -, t7, t8, -, -⟩ := scen2_facts A p1 p2 h1 h2
  obtain ⟨c1, c2, c3⟩ := sameCtl_qget (scen2 A p1 p2).q
  obtain ⟨a1, -, -, -⟩ := allocb_put A p1
  rw [h1] at a1
  have hlen : (qget (scen2 A p1 p2).q).1.len = BALLOC (allocb A 2000) := by
    simp only [qget, t1, flowrestart_len, t2, a1]
    omega
  have hflow : (qget (scen2 A p1 p2).q).1.state.Qflow = true := by
    have h48 : Int.tdiv 4096 2 = 2048 := by decide
    simp only [qget, t1]
    rw [flowrestart_flow]
    simp only [t8, t2, t4, a1, h48, Bool.true_and, Bool.not_eq_true', decide_eq_false_iff_not]
    omega
  refine ⟨hlen, hflow, ?_⟩
  rw [(qbwrite_wait_iff _).1, c1, c2, c3, t4, t5, t7, hlen]
  simp [hhi]

/-- C21 (counterexample): with an allocator that keeps 64 bytes of headroom in
every block, after the two writes the writer is held with `len` 5128; one
`qget` takes the first buffer and leaves `len` at 2064, not below 2048: the
queue is still flow-controlled, yet the waiting writer leaves the wait. -/
theorem flow_scenario_counterexample :
    (scen2 slackAlloc (List.replicate 3000 0) (List.replicate 2000 0)).held = true ∧
    (scen2 slackAlloc (List.replicate 3000 0) (List.replicate 2000 0)).q.len = 5128 ∧
    (qget (scen2 slackAlloc (List.replicate 3000 0) (List.replicate 2000 0)).q).1.len
      = 2064 ∧
    qfull (qget (scen2 slackAlloc (List.replicate 3000 0) (List.replicate 2000 0)).q).1
      = true ∧
    (qbwrite_wait
      (qget (scen2 slackAlloc (List.replicate 3000 0) (List.replicate 2000 0)).q).1).2
      = true := by
  have e3 : BALLOC (allocb slackAlloc 3000) = 3064 := by
    simp only [BALLOC, allocb, slackAlloc, List.length_replicate, List.length_nil]
    norm_num
  have e2 : BALLOC (allocb slackAlloc 2000) = 2064 := by
    simp only [BALLOC, allocb, slackAlloc, List.length_replicate, List.length_nil]
    norm_num
  obtain ⟨-, t2, -, -, -, -, -, -, t9, -⟩ := scen2_facts slackAlloc (List.replicate 3000 0)
    (List.replicate 2000 0) (List.length_replicate 3000 0) (List.length_replicate 2000 0)
  obtain ⟨g1, g2, g3⟩ := scen2_get slackAlloc (List.replicate 3000 0)
    (List.replicate 2000 0) (List.length_replicate 3000 0) (List.length_replicate 2000 0)
    (by rw [e2]; decide) (by rw [e2]; decide)
  refine ⟨t9, ?_, ?_, g2, g3⟩
  · rw [t2, e3, e2]
    rfl
  · rw [g1, e2]

theorem qbwrite_bypass (q : Queue) (c : Nat) (b : Block) (bnext : List Block)
    (h : q.bypass = true) :
    qbwrite q c b bnext
      = { q := { q with bypassed := q.bypassed ++ [(q.arg, b :: bnext)] }, noblockcnt := c,
          ret := Res.ret (BLEN b), held := false } := by
  simp [qbwrite, h]

theorem bypassRun_eq (arg : Nat) (xs : List (Block × List Block)) :
    bypassRun arg xs
      = { qbypass arg with bypassed := xs.map (fun x => (arg, x.1 :: x.2)) } := by
  have key : ∀ (ys : List (Block × List Block)) (q : Queue), q.bypass = true →
      List.foldl (fun q x => (qbwrite q 0 x.1 x.2).q) q ys
        = { q with bypassed := q.bypassed ++ ys.map (fun x => (q.arg, x.1 :: x.2)) } := by
    intro ys
    induction ys with
    | nil => intro q _; simp
    | cons y ys ih =>
      intro q hq
      rw [List.foldl_cons, qbwrite_bypass q 0 y.1 y.2 hq]
      rw [ih { q with bypassed := q.bypassed ++ [(q.arg, y.1 :: y.2)] } hq]
      simp
  unfold bypassRun
  rw [key xs (qbypass arg) rfl]
  rfl

/-- C22: on a queue made by `qbypass(bypass, arg)`, after any trace of queue
operations and again after any number of earlier `qbwrite` calls, `qbwrite`
of a block `b` buffers nothing: the one thing it does is call `bypass` once,
with the context `arg` stored by `qbypass` and with `b`; it returns the
readable length of `b` without being held, and the buffer list, `len`, `dlen`,
the state bits and every other field of the queue are as before. -/
theorem qbypass_forwards (A : Allocator) (errmax : Nat) (arg : Nat) (os : List Op)
    (xs : List (Block × List Block)) (c : Nat) (b : Block) (bnext : List Block) :
    qbwrite (runOps A errmax (qbypass arg) os) c b bnext
      = { q := { runOps A errmax (qbypass arg) os with
                 bypassed := (runOps A errmax (qbypass arg) os).bypassed
                   ++ [(arg, b :: bnext)] },
          noblockcnt := c, ret := Res.ret (BLEN b), held := false } ∧
    (qbwrite (bypassRun arg xs) c b bnext).q.bypassed
      = xs.map (fun x => (arg, x.1 :: x.2)) ++ [(arg, b :: bnext)] ∧
    (qbwrite (bypassRun arg xs) c b bnext).ret = Res.ret (BLEN b) ∧
    (qbwrite (bypassRun arg xs) c b bnext).q.bfirst = [] ∧
    (qbwrite (bypassRun arg xs) c b bnext).q.len = 0 ∧
    (qbwrite (bypassRun arg xs) c b bnext).q.dlen = 0 ∧
    (qbwrite (bypassRun arg xs) c b bnext).q.state = (qbypass arg).state := by
  obtain ⟨-, m2, -, -, -, -, m7⟩ := sameMode_runOps A errmax os (qbypass arg)
  have hby : (runOps A errmax (qbypass arg) os).bypass = true := m2
  have harg : (runOps A errmax (qbypass arg) os).arg = arg := m7
  refine ⟨?_, ?_, ?_, ?_, ?_, ?_, ?_⟩
  · rw [qbwrite_bypass _ c b bnext hby]
    simp only [harg]
  · rw [bypassRun_eq, qbwrite_bypass _ c b bnext (by rfl)]
    rfl
  · rw [bypassRun_eq, qbwrite_bypass _ c b bnext (by rfl)]
  · rw [bypassRun_eq, qbwrite_bypass _ c b bnext (by rfl)]
    rfl
  · rw [bypassRun_eq, qbwrite_bypass _ c b bnext (by rfl)]
    rfl
  · rw [bypassRun_eq, qbwrite_bypass _ c b bnext (by rfl)]
    rfl
  · rw [bypassRun_eq, qbwrite_bypass _ c b bnext (by rfl)]

theorem chunks_small (r : Nat) (h : r ≤ Maxatomic) : chunks r = 1 := by
  unfold chunks Maxatomic at *
  split_ifs
  · rfl
  · omega

theorem chunks_big (r : Nat) (h : Maxatomic < r) : chunks r = 1 + chunks (r - Maxatomic) := by
  unfold chunks Maxatomic at *
  have h1 : ¬ r = 0 := by omega
  have h2 : ¬ r - 64 * 1024 = 0 := by omega
  simp only [h1, h2, if_false]
  omega

theorem chunks_eq_max (r : Nat) : chunks r = max 1 ((r + 65535) / 65536) := by
  unfold chunks Maxatomic
  split_ifs with h
  · subst h; rfl
  · have : 1 ≤ (r + 65535) / 65536 := by omega
    omega

theorem qwrite_loop_chunks (A : Allocator) (fuel : Nat) (q : Queue) (c : Nat) (p : List Byte)
    (sofar : Nat) (ho : q.state.Qclosed = false) (hm : q.state.Qmsg = false)
    (hby : q.bypass = false) (hnb : q.noblock = false) (hs : sofar ≤ p.length)
    (hf : p.length - sofar < fuel)
    (hh : (qwrite_loop A fuel q c p sofar).held = false) :
    (qwrite_loop A fuel q c p sofar).ret = Res.ret (p.length : Int) ∧
    ∃ bs, (qwrite_loop A fuel q c p sofar).q.bfirst = q.bfirst ++ bs ∧
      bs.length = chunks (p.length - sofar) ∧
      (∀ b ∈ bs, b.data.length ≤ Maxatomic) ∧ payload bs = p.drop sofar := by
  induction fuel generalizing q c sofar with
  | zero => omega
  | succ fuel ih =>
    generalize hn : (if p.length - sofar > Maxatomic then Maxatomic else p.length - sofar) = n
      at hh ⊢
    have hnle : sofar + n ≤ p.length := by
      rw [← hn]; split_ifs <;> omega
    have hnM : n ≤ Maxatomic := by
      rw [← hn]; split_ifs <;> omega
    generalize hbk : (allocb A n).wp_put ((p.drop sofar).take n) = b
    have hbd : b.data = (p.drop sofar).take n := by
      rw [← hbk]; simp [Block.wp_put, allocb]
    have hbl : b.data.length = n := by
      rw [hbd, List.length_take, List.length_drop]; omega
    have hacc : ¬ (q.len ≥ q.limit ∧ q.noblock = true) := by simp [hnb]
    obtain ⟨e1, -, -, -, -, e6, e7, -, -, e10, e11, e12, -⟩ :=
      qbwrite_enq q c b [] ho hby hacc
    simp only [qwrite_loop, hn, hbk, e12] at hh ⊢
    by_cases h1 : (qbwrite q c b []).held = true
    · simp [h1] at hh
    by_cases h2 : (decide (sofar + n < p.length) && !(qbwrite q c b []).q.state.Qmsg) = true
    · simp only [h1, h2, if_true, if_false, Bool.false_eq_true] at hh ⊢
      simp only [Bool.and_eq_true, decide_eq_true_eq] at h2
      have hbig : Maxatomic < p.length - sofar := by
        by_contra hcon
        rw [if_neg (by omega)] at hn
        omega
      have hnM2 : n = Maxatomic := by
        rw [← hn, if_pos hbig]
      have hM : 0 < Maxatomic := by decide
      obtain ⟨i1, bs, i2, i3, i4, i5⟩ :=
        ih (qbwrite q c b []).q (qbwrite q c b []).noblockcnt (sofar + n) e6
          (by rw [e7, hm]) e10 (by rw [e11, hnb]) hnle (by omega) hh
      refine ⟨i1, b :: bs, ?_, ?_, ?_, ?_⟩
      · rw [i2, e1, List.append_assoc]
        rfl
      · rw [List.length_cons, i3, chunks_big _ hbig, hnM2]
        have : p.length - (sofar + Maxatomic) = p.length - sofar - Maxatomic := by omega
        rw [this]
        omega
      · intro x hx
        simp only [List.mem_cons] at hx
        rcases hx with rfl | hx
        · omega
        · exact i4 x hx
      · rw [payload_cons, i5, hbd, ← List.drop_drop, List.take_append_drop]
    · simp only [h1, h2, if_false, Bool.false_eq_true] at hh ⊢
      have hdone : ¬ sofar + n < p.length := by
        intro hlt
        apply h2
        simp [hlt, e7, hm]
      have hrem : p.length - sofar ≤ Maxatomic := by
        by_contra hcon
        rw [if_pos (by omega)] at hn
        omega
      have hn2 : n = p.length - sofar := by omega
      refine ⟨trivial, [b], e1, ?_, ?_, ?_⟩
      · rw [chunks_small _ hrem]
        rfl
      · intro x hx
        simp only [List.mem_singleton] at hx
        subst hx
        omega
      · rw [payload_cons, payload_nil, List.append_nil, hbd, hn2]
        apply List.take_of_length_le
        simp

/-- C23 (as amended): on an open stream-mode queue in blocking mode without
bypass, when the writer is not held by flow control, `qwrite` of `n >= 0`
bytes returns `n` and appends `max(1, ceil(n / 65536))` buffers at the tail,
each holding at most 65536 bytes, whose payloads in order make up the
input. -/
theorem qwrite_chunks (A : Allocator) (q : Queue) (c : Nat) (p : List Byte)
    (ho : q.state.Qclosed = false) (hm : q.state.Qmsg = false) (hby : q.bypass = false)
    (hnb : q.noblock = false) (hh : (qwrite A q c p).held = false) :
    (qwrite A q c p).ret = Res.ret (p.length : Int) ∧
    ∃ bs, (qwrite A q c p).q.bfirst = q.bfirst ++ bs ∧
      bs.length = max 1 ((p.length + 65535) / 65536) ∧
      (∀ b ∈ bs, b.data.length ≤ 65536) ∧ payload bs = p := by
  obtain ⟨h1, bs, h2, h3, h4, h5⟩ :=
    qwrite_loop_chunks A (p.length + 1) q c p 0 ho hm hby hnb (Nat.zero_le _) (by omega) hh
  refine ⟨h1, bs, h2, ?_, h4, by simpa using h5⟩
  rw [h3, Nat.sub_zero, chunks_eq_max]

theorem qwrite_chunks_witness :
    (qwrite exAlloc (qopen 100 Qstream false 0) 0 [1, 2, 3]).ret
      = Res.ret (([1, 2, 3] : List Byte).length : Int) ∧
    ∃ bs, (qwrite exAlloc (qopen 100 Qstream false 0) 0 [1, 2, 3]).q.bfirst
        = (qopen 100 Qstream false 0).bfirst ++ bs ∧
      bs.length = max 1 ((([1, 2, 3] : List Byte).length + 65535) / 65536) ∧
      (∀ b ∈ bs, b.data.length ≤ 65536) ∧ payload bs = [1, 2, 3] :=
  qwrite_chunks exAlloc (qopen 100 Qstream false 0) 0 [1, 2, 3] (by decide) (by decide)
    (by decide) (by decide) (by decide)

/-- C23 (counterexample): on an open stream-mode queue in non-blocking mode
at its limit the writer is not held, `qwrite` of three bytes returns 3, and no
buffer is appended; on a bypass queue likewise. -/
theorem qwrite_chunks_counterexample :
    (qnoblock (qopen 0 Qstream false 0) true).state.Qclosed = false ∧
    (qnoblock (qopen 0 Qstream false 0) true).state.Qmsg = false ∧
    (qwrite exAlloc (qnoblock (qopen 0 Qstream false 0) true) 0 [1, 2, 3]).held = false ∧
    (qwrite exAlloc (qnoblock (qopen 0 Qstream false 0) true) 0 [1, 2, 3]).ret = Res.ret 3 ∧
    (qwrite exAlloc (qnoblock (qopen 0 Qstream false 0) true) 0 [1, 2, 3]).q.bfirst = [] ∧
    (qwrite exAlloc (qbypass 7) 0 [1, 2, 3]).held = false ∧
    (qwrite exAlloc (qbypass 7) 0 [1, 2, 3]).ret = Res.ret 3 ∧
    (qwrite exAlloc (qbypass 7) 0 [1, 2, 3]).q.bfirst = [] := by
  decide

/-- C25: for a single buffer `b` and every `n >= 0`, `padblock(b, n)` returns
a single buffer whose readable length is `BLEN(b) + n` and whose readable
bytes after the first `n` are the payload of `b`; for `n < 0` it returns a
single buffer with the payload of `b` and at least `|n|` bytes between its
write cursor and its limit.  Both hold on the path that pads in place and on
the path that reallocates. -/
theorem padblock_single (A : Allocator) (b : Block) (n : Int) :
    (0 ≤ n → ∃ nb, padblock A b [] n = Fatal.ok [nb] ∧ BLEN nb = BLEN b + n ∧
      nb.data.drop n.toNat = b.data ∧
      ((b.front.length : Int) ≥ n → nb = b.rp_sub n.toNat) ∧
      ((b.front.length : Int) < n → nb.addr = (allocb A (n + BLEN b).toNat).addr)) ∧
    (n < 0 → ∃ nb, padblock A b [] n = Fatal.ok [nb] ∧ nb.data = b.data ∧
      (nb.back.length : Int) ≥ -n ∧
      ((b.back.length : Int) ≥ -n → nb = b) ∧
      ((b.back.length : Int) < -n → nb.addr = (allocb A (-n + BLEN b).toNat).addr)) := by
  constructor
  · intro h0
    obtain ⟨k, rfl⟩ := Int.eq_ofNat_of_zero_le h0
    by_cases hf : (b.front.length : Int) ≥ (k : Int)
    · refine ⟨b.rp_sub k, ?_, ?_, ?_, fun _ => rfl, fun h => absurd hf (not_le.mpr h)⟩
      · simp [padblock, hf]
      · have hk : k ≤ b.front.length := by omega
        simp only [BLEN, Block.rp_sub, List.length_append, List.length_drop]
        omega
      · have hk : k ≤ b.front.length := by omega
        simp only [Block.rp_sub, Int.toNat_ofNat]
        rw [List.drop_append_of_le_length (by simp; omega)]
        have : (List.drop (b.front.length - k) b.front).length = k := by simp; omega
        rw [List.drop_of_length_le (by omega)]
        rfl
    · have hroom := A.room_ge (k + b.data.length)
      have e1 : ((k : Int) + BLEN b).toNat = k + b.data.length := by
        simp only [BLEN]; omega
      refine ⟨(((allocb A (k + b.data.length)).skip k).wp_put b.data).rp_sub k,
        ?_, ?_, ?_, fun h => absurd h hf, fun _ => ?_⟩
      · simp [padblock, hf, e1]
      · simp only [BLEN, Block.rp_sub, Block.skip, allocb, wp_put_data, wp_put_front,
          List.length_append, List.length_drop, List.length_take, List.nil_append]
        omega
      · simp only [Block.rp_sub, Block.skip, allocb, wp_put_data, wp_put_front,
          List.length_append, List.length_take, List.nil_append, Int.toNat_ofNat]
        have hm : min k (A.room (k + b.data.length)).length = k := by omega
        rw [hm, Nat.add_sub_cancel, List.drop_left' rfl,
          List.drop_append_of_le_length (by simp; omega),
          List.drop_of_length_le (by simp)]
        rfl
      · rw [e1]
        rfl
  · intro hn
    have hs : ¬ n ≥ 0 := by omega
    by_cases hb : (b.back.length : Int) ≥ -n
    · exact ⟨b, by simp [padblock, hs, hb], rfl, hb, fun _ => rfl,
        fun h => absurd hb (not_le.mpr h)⟩
    · have e1 : (-n + BLEN b).toNat = (-n).toNat + b.data.length := by
        simp only [BLEN]; omega
      have hroom := A.room_ge ((-n).toNat + b.data.length)
      refine ⟨(allocb A (-n + BLEN b).toNat).wp_put b.data, by simp [padblock, hs, hb],
        by simp [allocb], ?_, fun h => absurd h hb, fun _ => rfl⟩
      rw [e1]
      simp only [allocb, wp_put_back, List.length_drop]
      omega

theorem padblock_single_witness :
    ∃ nb, padblock exAlloc ⟨1, [7], [1, 2, 3], [], false⟩ [] 2 = Fatal.ok [nb] ∧
      BLEN nb = BLEN ⟨1, [7], [1, 2, 3], [], false⟩ + 2 ∧
      nb.data.drop (2 : Int).toNat = [1, 2, 3] ∧
      (((⟨1, [7], [1, 2, 3], [], false⟩ : Block).front.length : Int) ≥ 2 →
        nb = (⟨1, [7], [1, 2, 3], [], false⟩ : Block).rp_sub (2 : Int).toNat) ∧
      (((⟨1, [7], [1, 2, 3], [], false⟩ : Block).front.length : Int) < 2 →
        nb.addr = (allocb exAlloc (2 + BLEN ⟨1, [7], [1, 2, 3], [], false⟩).toNat).addr) :=
  (padblock_single exAlloc ⟨1, [7], [1, 2, 3], [], false⟩ 2).1 (by decide)

theorem copy_loop_spec (l : List Block) (nbp : Block) (count : Int) (h0 : 0 ≤ count) :
    (copy_loop nbp l count).1.data = nbp.data ++ (payload l).take count.toNat ∧
    (copy_loop nbp l count).2 = count - ((payload l).take count.toNat).length ∧
    (copy_loop nbp l count).1.addr = nbp.addr := by
  induction l generalizing nbp count with
  | nil => simp [copy_loop]
  | cons bp next ih =>
    simp only [copy_loop]
    by_cases hc : count > 0
    · simp only [hc, if_true]
      by_cases hl : BLEN bp > count
      · simp only [hl, if_true, sub_self]
        have hlen : count.toNat ≤ bp.data.length := by
          simp only [BLEN] at hl; omega
        obtain ⟨i1, i2, i3⟩ := ih (nbp.wp_put (bp.data.take count.toNat)) 0 (le_refl 0)
        rw [i1, i2, i3]
        simp only [Int.toNat_zero, List.take_zero, List.append_nil, wp_put_data, payload_cons,
          List.length_nil, Int.ofNat_zero, sub_zero]
        rw [List.take_append_of_le_length hlen]
        refine ⟨rfl, ?_, rfl⟩
        simp only [List.length_take]
        omega
      · simp only [hl, if_false]
        have hlen : bp.data.length ≤ count.toNat := by
          simp only [BLEN] at hl; omega
        have hb : (BLEN bp).toNat = bp.data.length := by simp [BLEN]
        obtain ⟨i1, i2, i3⟩ := ih (nbp.wp_put (bp.data.take (BLEN bp).toNat)) (count - BLEN bp)
          (by simp only [BLEN] at hl ⊢; omega)
        rw [i1, i2, i3]
        have e : (count - BLEN bp).toNat = count.toNat - bp.data.length := by
          simp only [BLEN]; omega
        simp only [wp_put_data, payload_cons, hb, List.take_length, e, List.append_assoc]
        rw [List.take_append_eq_append_take, List.take_of_length_le hlen]
        refine ⟨rfl, ?_, rfl⟩
        simp only [List.length_append, List.length_take, BLEN]
        omega
    · have hz : count = 0 := by omega
      subst hz
      simp [copy_loop]

theorem copyblock_data (A : Allocator) (b : Block) (bnext : List Block) (n : Int)
    (h0 : 0 ≤ n) (ha : b.bintr = true → A.ifail n.toNat = false) :
    ∃ nb, copyblock A b bnext n = (some nb, b :: bnext) ∧
      nb.data = (payload (b :: bnext)).take n.toNat
        ++ List.replicate (n.toNat - (payload (b :: bnext)).length) 0 ∧
      nb.addr = (allocb A n.toNat).addr := by
  have key : ∀ nbp : Block, nbp.data = [] → nbp.addr = (allocb A n.toNat).addr →
      ∃ nb, ((some (if (copy_loop nbp (b :: bnext) n).2 > 0 then
                (copy_loop nbp (b :: bnext) n).1.wp_put
                  (List.replicate (copy_loop nbp (b :: bnext) n).2.toNat 0)
              else (copy_loop nbp (b :: bnext) n).1), b :: bnext) : Option Block × List Block)
            = (some nb, b :: bnext) ∧
        nb.data = (payload (b :: bnext)).take n.toNat
          ++ List.replicate (n.toNat - (payload (b :: bnext)).length) 0 ∧
        nb.addr = (allocb A n.toNat).addr := by
    intro nbp hd hadr
    obtain ⟨c1, c2, c3⟩ := copy_loop_spec (b :: bnext) nbp n h0
    refine ⟨_, rfl, ?_, ?_⟩
    · split_ifs with hpos
      · rw [wp_put_data, c1, hd, List.nil_append, c2]
        congr 2
        simp only [List.length_take]
        omega
      · rw [c1, hd, List.nil_append]
        have : n.toNat - (payload (b :: bnext)).length = 0 := by
          rw [c2] at hpos
          simp only [List.length_take] at hpos
          omega
        rw [this]
        simp
    · split_ifs
      · exact c3.trans hadr
      · exact c3.trans hadr
  unfold copyblock
  by_cases hi : b.bintr = true
  · simp only [hi, if_true, iallocb, ha hi, Bool.false_eq_true, if_false]
    exact key _ rfl rfl
  · simp only [hi, if_false]
    exact key _ rfl rfl

theorem concatblock_data (A : Allocator) (b : Block) (bnext : List Block) :
    ∃ nb, concatblock A b bnext = [nb] ∧ nb.data = payload (b :: bnext) ∧
      BLEN nb = blocklen (b :: bnext) := by
  cases bnext with
  | nil => exact ⟨b, rfl, by simp, by simp [blocklen]⟩
  | cons b2 rest =>
    have hd : (concat_loop (allocb A (blocklen (b :: b2 :: rest)).toNat) (b :: b2 :: rest)).data
        = payload (b :: b2 :: rest) := by
      rw [concat_loop_data]
      rfl
    exact ⟨_, rfl, hd, by rw [BLEN, hd, payload_length]⟩

/-- C27: for a chain of at least one buffer, `concatblock` returns a single
buffer (no successor) whose payload is the concatenation, in chain order, of
the payloads of the buffers of the chain, so that its readable length is
`blocklen` of the chain; a chain that is a single buffer already is returned
as it is. -/
theorem concatblock_spec (A : Allocator) (b : Block) (bnext : List Block) :
    ∃ nb, concatblock A b bnext = [nb] ∧ nb.data = payload (b :: bnext) ∧
      payload (concatblock A b bnext) = payload (b :: bnext) ∧
      BLEN nb = blocklen (b :: bnext) ∧ (bnext = [] → nb = b) := by
  cases bnext with
  | nil => exact ⟨b, rfl, by simp, by simp [concatblock], by simp [blocklen], fun _ => rfl⟩
  | cons b2 rest =>
    have hd : (concat_loop (allocb A (blocklen (b :: b2 :: rest)).toNat) (b :: b2 :: rest)).data
        = payload (b :: b2 :: rest) := by
      rw [concat_loop_data]
      rfl
    refine ⟨_, rfl, hd, ?_, ?_, fun h => absurd h (by simp)⟩
    · simp only [concatblock, payload_cons, payload_nil, List.append_nil]
      exact hd
    · rw [BLEN, hd, payload_length]

theorem concatblock_spec_witness :
    ∃ nb, concatblock exAlloc ⟨1, [], [1, 2], [], false⟩ [⟨2, [9], [3, 4, 5], [8], false⟩]
        = [nb] ∧
      nb.data = payload [⟨1, [], [1, 2], [], false⟩, ⟨2, [9], [3, 4, 5], [8], false⟩] ∧
      payload (concatblock exAlloc ⟨1, [], [1, 2], [], false⟩
          [⟨2, [9], [3, 4, 5], [8], false⟩])
        = payload [⟨1, [], [1, 2], [], false⟩, ⟨2, [9], [3, 4, 5], [8], false⟩] ∧
      BLEN nb = blocklen [⟨1, [], [1, 2], [], false⟩, ⟨2, [9], [3, 4, 5], [8], false⟩] ∧
      (([⟨2, [9], [3, 4, 5], [8], false⟩] : List Block) = [] →
        nb = ⟨1, [], [1, 2], [], false⟩) :=
  concatblock_spec exAlloc ⟨1, [], [1, 2], [], false⟩ [⟨2, [9], [3, 4, 5], [8], false⟩]

/-- C30: for a chain of at least one buffer and every `n >= 0`, when the
allocation succeeds `copyblock` returns one new buffer of exactly `n`
readable bytes: the first `n` bytes of the payload of the chain, followed by
zero bytes when the chain holds fewer than `n`; the chain is left as it was. -/
theorem copyblock_spec (A : Allocator) (b : Block) (bnext : List Block) (n : Int)
    (h0 : 0 ≤ n) (ha : b.bintr = true → A.ifail n.toNat = false) :
    ∃ nb, (copyblock A b bnext n).1 = some nb ∧ BLEN nb = n ∧
      nb.data.take (payload (b :: bnext)).length = (payload (b :: bnext)).take n.toNat ∧
      nb.data.drop (payload (b :: bnext)).length
        = List.replicate (n.toNat - (payload (b :: bnext)).length) 0 ∧
      nb.addr = (allocb A n.toNat).addr ∧
      (copyblock A b bnext n).2 = b :: bnext := by
  obtain ⟨nb, h1, h2, h3⟩ := copyblock_data A b bnext n h0 ha
  refine ⟨nb, by rw [h1], ?_, ?_, ?_, h3, by rw [h1]⟩
  · rw [BLEN, h2]
    simp only [List.length_append, List.length_take, List.length_replicate]
    omega
  · rw [h2]
    by_cases hle : n.toNat ≤ (payload (b :: bnext)).length
    · have : n.toNat - (payload (b :: bnext)).length = 0 := by omega
      rw [this]
      simp only [List.replicate_zero, List.append_nil]
      rw [List.take_take]
      congr 1
      omega
    · rw [List.take_of_length_le (l := payload (b :: bnext)) (by omega),
        List.take_left' rfl]
  · rw [h2]
    by_cases hle : n.toNat ≤ (payload (b :: bnext)).length
    · have : n.toNat - (payload (b :: bnext)).length = 0 := by omega
      rw [this]
      simp only [List.replicate_zero, List.append_nil]
      exact List.drop_of_length_le (by simp)
    · rw [List.take_of_length_le (l := payload (b :: bnext)) (by omega),
        List.drop_left' rfl]

theorem copyblock_spec_witness :
    ∃ nb, (copyblock exAlloc ⟨1, [], [1, 2], [], false⟩
        [⟨2, [9], [3, 4, 5], [8], false⟩] 7).1 = some nb ∧ BLEN nb = 7 ∧
      nb.data.take (payload [⟨1, [], [1, 2], [], false⟩,
          ⟨2, [9], [3, 4, 5], [8], false⟩]).length
        = (payload [⟨1, [], [1, 2], [], false⟩, ⟨2, [9], [3, 4, 5], [8], false⟩]).take
            (7 : Int).toNat ∧
      nb.data.drop (payload [⟨1, [], [1, 2], [], false⟩,
          ⟨2, [9], [3, 4, 5], [8], false⟩]).length
        = List.replicate ((7 : Int).toNat - (payload [⟨1, [], [1, 2], [], false⟩,
            ⟨2, [9], [3, 4, 5], [8], false⟩]).length) 0 ∧
      nb.addr = (allocb exAlloc (7 : Int).toNat).addr ∧
      (copyblock exAlloc ⟨1, [], [1, 2], [], false⟩ [⟨2, [9], [3, 4, 5], [8], false⟩] 7).2
        = [⟨1, [], [1, 2], [], false⟩, ⟨2, [9], [3, 4, 5], [8], false⟩] :=
  copyblock_spec exAlloc ⟨1, [], [1, 2], [], false⟩ [⟨2, [9], [3, 4, 5], [8], false⟩] 7
    (by decide) (by decide)

/-- C26 (as amended): on a chain of more than one buffer `padblock` panics
when the size is negative, and when the size is not negative and exceeds the
room in front of the read cursor of the head (so that it would reallocate);
when the head has the room in front it is padded in place and the chain is
returned.  `adjustblock` does not fail on such a chain: for a negative length
it returns no block, for a length that fits the head it sets the readable
length of the head to it and returns the chain, and for a longer length it
returns the single buffer that `copyblock` makes of the chain (no block when
the non-sleeping allocation fails). -/
theorem padblock_multi (A : Allocator) (b b2 : Block) (rest : List Block) (n : Int) :
    (n < 0 → padblock A b (b2 :: rest) n = Fatal.panicked "padblock") ∧
    (0 ≤ n → (b.front.length : Int) < n →
      padblock A b (b2 :: rest) n = Fatal.panicked "padblock") ∧
    (0 ≤ n → n ≤ (b.front.length : Int) →
      padblock A b (b2 :: rest) n = Fatal.ok (b.rp_sub n.toNat :: b2 :: rest)) ∧
    (n < 0 → adjustblock A b (b2 :: rest) n = []) ∧
    (0 ≤ n → n ≤ (b.data.length : Int) + (b.back.length : Int) →
      ∃ h, adjustblock A b (b2 :: rest) n = h :: b2 :: rest ∧ BLEN h = n) ∧
    (0 ≤ n → (b.data.length : Int) + (b.back.length : Int) < n →
      (b.bintr = true → A.ifail n.toNat = false) →
      ∃ nb, adjustblock A b (b2 :: rest) n = [nb] ∧ BLEN nb = n ∧
        nb.data = (payload (b :: b2 :: rest)).take n.toNat
          ++ List.replicate (n.toNat - (payload (b :: b2 :: rest)).length) 0) ∧
    (0 ≤ n → (b.data.length : Int) + (b.back.length : Int) < n →
      b.bintr = true → A.ifail n.toNat = true → adjustblock A b (b2 :: rest) n = []) := by
  refine ⟨?_, ?_, ?_, ?_, ?_, ?_, ?_⟩
  · intro h
    have hs : ¬ n ≥ 0 := by omega
    simp [padblock, hs]
  · intro h0 h1
    have hs : ¬ (b.front.length : Int) ≥ n := by omega
    simp [padblock, h0, hs]
  · intro h0 h1
    simp [padblock, h0, h1]
  · intro h
    simp [adjustblock, h]
  · intro h0 h1
    have hs : ¬ n < 0 := by omega
    have hr : ¬ n > (b.data.length : Int) + (b.back.length : Int) := by omega
    refine ⟨(if n > BLEN b then b.wp_put (List.replicate (n - BLEN b).toNat 0)
      else b).wp_set n.toNat, by simp only [adjustblock, hs, hr, if_false], ?_⟩
    obtain ⟨k, rfl⟩ := Int.eq_ofNat_of_zero_le h0
    simp only [BLEN, Block.wp_set, Int.toNat_ofNat]
    split_ifs with hg
    · simp only [Block.wp_put, List.length_take, List.length_append, List.length_replicate]
      omega
    · simp only [List.length_take]
      omega
  · intro h0 h1 ha
    have hs : ¬ n < 0 := by omega
    obtain ⟨nb, c1, c2, -⟩ := copyblock_data A b (b2 :: rest) n h0 ha
    refine ⟨nb, ?_, ?_, c2⟩
    · simp only [adjustblock, hs, h1, if_false, if_true, gt_iff_lt, c1]
    · rw [BLEN, c2]
      simp only [List.length_append, List.length_take, List.length_replicate]
      omega
  · intro h0 h1 hi hf
    have hs : ¬ n < 0 := by omega
    simp [adjustblock, hs, h1, copyblock, hi, iallocb, hf]

theorem padblock_multi_witness :
    padblock exAlloc ⟨1, [], [1, 2], [], false⟩ [⟨2, [], [3], [], false⟩] (-1)
      = Fatal.panicked "padblock" :=
  (padblock_multi exAlloc ⟨1, [], [1, 2], [], false⟩ ⟨2, [], [3], [], false⟩ [] (-1)).1
    (by decide)

/-- C26 (counterexample): on a chain of two buffers whose head has two bytes
of room in front, `padblock` with size 2 returns the chain, padded in place;
and `adjustblock` returns a result for every length tried: no block for -1,
the chain with the head cut to one byte for 1, a single buffer for 5. -/
theorem padblock_multi_counterexample :
    padblock exAlloc ⟨1, [7, 8], [1, 2], [], false⟩ [⟨2, [], [3], [], false⟩] 2
      = Fatal.ok [⟨1, [], [7, 8, 1, 2], [], false⟩, ⟨2, [], [3], [], false⟩] ∧
    adjustblock exAlloc ⟨1, [7, 8], [1, 2], [], false⟩ [⟨2, [], [3], [], false⟩] (-1) = [] ∧
    adjustblock exAlloc ⟨1, [7, 8], [1, 2], [], false⟩ [⟨2, [], [3], [], false⟩] 1
      = [⟨1, [7, 8], [1], [2], false⟩, ⟨2, [], [3], [], false⟩] ∧
    adjustblock exAlloc ⟨1, [7, 8], [1, 2], [], false⟩ [⟨2, [], [3], [], false⟩] 5
      = [⟨1005, [], [1, 2, 3, 0, 0], [], false⟩] := by
  decide

theorem pullup_loop_short (rest : List Block) (bp : Block) (n : Int)
    (h : blocklen rest < n) : pullup_loop bp rest n = [] := by
  induction rest generalizing bp n with
  | nil => rfl
  | cons nbp rest ih =>
    have hr := blocklen_nonneg rest
    simp only [blocklen] at h
    have h1 : ¬ BLEN nbp > n := by omega
    have h2 : ¬ n - BLEN nbp = 0 := by omega
    simp only [pullup_loop, h1, h2, if_false]
    exact ih _ _ (by omega)

theorem pullup_loop_spec (rest : List Block) (bp : Block) (n : Int) (hn : 0 < n)
    (h : n ≤ blocklen rest) (hroom : n ≤ (bp.back.length : Int)) :
    ∃ hd tl, pullup_loop bp rest n = hd :: tl ∧
      hd.data = bp.data ++ (payload rest).take n.toNat ∧
      payload (hd :: tl) = bp.data ++ payload rest ∧
      BALLOC hd = BALLOC bp ∧ hd.front = bp.front ∧ hd.addr = bp.addr := by
  induction rest generalizing bp n with
  | nil =>
    simp only [blocklen] at h
    omega
  | cons nbp rest ih =>
    simp only [blocklen] at h
    simp only [pullup_loop]
    by_cases h1 : BLEN nbp > n
    · simp only [h1, if_true]
      have hlen : n.toNat ≤ nbp.data.length := by
        simp only [BLEN] at h1; omega
      refine ⟨_, _, rfl, ?_, ?_, ?_, rfl, rfl⟩
      · simp only [Block.wp_put, payload_cons]
        rw [List.take_append_of_le_length hlen]
      · simp only [payload_cons, Block.wp_put, Block.rp_add, List.append_assoc]
        rw [← List.append_assoc (List.take n.toNat nbp.data), List.take_append_drop]
      · apply wp_put_BALLOC
        simp only [List.length_take]
        omega
    · simp only [h1, if_false]
      have hlen : nbp.data.length ≤ n.toNat := by
        simp only [BLEN] at h1; omega
      have hfit : nbp.data.length ≤ bp.back.length := by omega
      by_cases h2 : n - BLEN nbp = 0
      · simp only [h2, if_true]
        have hnn : n.toNat = nbp.data.length := by
          simp only [BLEN] at h2; omega
        refine ⟨_, _, rfl, ?_, ?_, wp_put_BALLOC _ _ hfit, rfl, rfl⟩
        · simp only [Block.wp_put, payload_cons, hnn]
          rw [List.take_left' rfl]
        · simp only [payload_cons, Block.wp_put, List.append_assoc]
      · simp only [h2, if_false]
        obtain ⟨hd, tl, i1, i2, i3, i4, i5, i6⟩ := ih (bp.wp_put nbp.data) (n - BLEN nbp)
          (by simp only [BLEN] at h1 h2 ⊢; omega) (by omega)
          (by simp only [Block.wp_put, List.length_drop, BLEN]; omega)
        refine ⟨hd, tl, i1, ?_, ?_, i4.trans (wp_put_BALLOC _ _ hfit), i5, i6⟩
        · rw [i2]
          have e : (n - BLEN nbp).toNat = n.toNat - nbp.data.length := by
            simp only [BLEN]; omega
          simp only [Block.wp_put, payload_cons, e, List.append_assoc]
          rw [List.take_append_eq_append_take, List.take_of_length_le hlen]
        · rw [i3]
          simp only [Block.wp_put, payload_cons, List.append_assoc]

/-- C28: for a chain `c` of at least one buffer and `0 <= n <= blocklen(c)`,
`pullupblock(c, n)` returns a chain whose head has at least `n` readable
bytes and whose payload is that of `c`; the head is the head of `c` or a
block from `allocb(n)`, with its footprint as before (nothing is written past
its limit).  The same holds of `pullupblock(concatblock(c), n)`, which returns
the single buffer `concatblock` made.  When `blocklen(c) < n` no chain is
returned.  (A write past the limit of the head would show as a larger
footprint.) -/
theorem pullupblock_spec (A : Allocator) (b : Block) (bnext : List Block) (n : Int)
    (h0 : 0 ≤ n) :
    (n ≤ blocklen (b :: bnext) →
      ∃ hd tl, pullupblock A b bnext n = hd :: tl ∧ BLEN hd ≥ n ∧
        payload (hd :: tl) = payload (b :: bnext) ∧
        ((hd.addr = b.addr ∧ BALLOC hd = BALLOC b) ∨
         (hd.addr = (allocb A n.toNat).addr ∧ BALLOC hd = BALLOC (allocb A n.toNat)))) ∧
    (n ≤ blocklen (b :: bnext) →
      ∃ nb, concatblock A b bnext = [nb] ∧ pullupblock A nb [] n = [nb] ∧ BLEN nb ≥ n ∧
        payload [nb] = payload (b :: bnext)) ∧
    (blocklen (b :: bnext) < n → pullupblock A b bnext n = []) := by
  refine ⟨?_, ?_, ?_⟩
  · intro hle
    unfold pullupblock
    by_cases h1 : BLEN b ≥ n
    · simp only [h1, if_true]
      exact ⟨b, bnext, rfl, h1, rfl, Or.inl ⟨rfl, rfl⟩⟩
    · simp only [h1, if_false]
      by_cases h2 : (b.data.length : Int) + (b.back.length : Int) < n
      · simp only [h2, if_true]
        have hz : BLEN (allocb A n.toNat) = 0 := rfl
        rw [hz, sub_zero]
        have hroom := A.room_ge n.toNat
        obtain ⟨hd, tl, i1, i2, i3, i4, -, i6⟩ := pullup_loop_spec (b :: bnext)
          (allocb A n.toNat) n (by omega) hle
          (by simp only [allocb]; omega)
        refine ⟨hd, tl, i1, ?_, ?_, Or.inr ⟨i6, i4⟩⟩
        · rw [BLEN, i2]
          have hp := payload_length (b :: bnext)
          simp only [allocb, List.nil_append, List.length_take]
          omega
        · rw [i3]
          rfl
      · simp only [h2, if_false]
        simp only [blocklen] at hle
        obtain ⟨hd, tl, i1, i2, i3, i4, -, i6⟩ := pullup_loop_spec bnext b (n - BLEN b)
          (by omega) (by omega) (by simp only [BLEN]; omega)
        refine ⟨hd, tl, i1, ?_, ?_, Or.inl ⟨i6, i4⟩⟩
        · rw [BLEN, i2]
          have hp := payload_length bnext
          simp only [BLEN] at h1 hle hp
          have e : (n - (b.data.length : Int)).toNat ≤ (payload bnext).length := by omega
          simp only [List.length_append, List.length_take, BLEN, Nat.min_eq_left e]
          omega
        · rw [i3]
          rfl
  · intro hle
    obtain ⟨nb, c1, c2, c4⟩ := concatblock_data A b bnext
    have h1 : BLEN nb ≥ n := by rw [c4]; exact hle
    refine ⟨nb, c1, ?_, h1, by simp [c2]⟩
    simp [pullupblock, h1]
  · intro hlt
    unfold pullupblock
    simp only [blocklen] at hlt
    have hr := blocklen_nonneg bnext
    have h1 : ¬ BLEN b ≥ n := by omega
    simp only [h1, if_false]
    split_ifs
    · exact pullup_loop_short _ _ _ (by
        have hz : BLEN (allocb A n.toNat) = 0 := rfl
        simp only [blocklen, hz]; omega)
    · exact pullup_loop_short _ _ _ (by omega)

theorem pullupblock_spec_witness :
    ∃ hd tl, pullupblock exAlloc ⟨1, [], [1, 2], [], false⟩ [⟨2, [], [3, 4, 5], [], false⟩] 4
        = hd :: tl ∧ BLEN hd ≥ 4 ∧
      payload (hd :: tl)
        = payload [⟨1, [], [1, 2], [], false⟩, ⟨2, [], [3, 4, 5], [], false⟩] ∧
      ((hd.addr = (⟨1, [], [1, 2], [], false⟩ : Block).addr ∧
          BALLOC hd = BALLOC ⟨1, [], [1, 2], [], false⟩) ∨
       (hd.addr = (allocb exAlloc (4 : Int).toNat).addr ∧
          BALLOC hd = BALLOC (allocb exAlloc (4 : Int).toNat))) :=
  (pullupblock_spec exAlloc ⟨1, [], [1, 2], [], false⟩ [⟨2, [], [3, 4, 5], [], false⟩] 4
    (by decide)).1 (by decide)

theorem trim_skip_spec (c : List Block) (offset : Int) (hne : c ≠ []) (h0 : 0 ≤ offset)
    (h : offset ≤ blocklen c) :
    ∃ b next off1, trim_skip c offset = Res.ret (b :: next, off1) ∧ 0 ≤ off1 ∧
      off1 ≤ BLEN b ∧
      (payload (b :: next)).drop off1.toNat = (payload c).drop offset.toNat := by
  induction c generalizing offset with
  | nil => exact absurd rfl hne
  | cons bp next ih =>
    simp only [blocklen] at h
    simp only [trim_skip]
    by_cases h1 : BLEN bp < offset
    · simp only [h1, if_true]
      have hn : next ≠ [] := blocklen_pos_ne_nil next (by omega)
      obtain ⟨b, nx, off1, i1, i2, i3, i4⟩ := ih (offset - BLEN bp) hn (by omega) (by omega)
      refine ⟨b, nx, off1, i1, i2, i3, ?_⟩
      rw [i4]
      have e : offset.toNat = bp.data.length + (offset - BLEN bp).toNat := by
        simp only [BLEN] at h1 ⊢; omega
      rw [payload_cons, e, List.drop_append]
    · simp only [h1, if_false]
      exact ⟨bp, next, offset, rfl, h0, by omega, rfl⟩

theorem trim_take_spec (c : List Block) (len : Int) (hne : c ≠ []) (h0 : 0 ≤ len)
    (h : len ≤ blocklen c) :
    ∃ r, trim_take c len = Res.ret r ∧ r ≠ [] ∧
      payload r = (payload c).take len.toNat := by
  induction c generalizing len with
  | nil => exact absurd rfl hne
  | cons bp next ih =>
    simp only [blocklen] at h
    simp only [trim_take]
    by_cases h1 : BLEN bp < len
    · simp only [h1, if_true]
      have hn : next ≠ [] := blocklen_pos_ne_nil next (by omega)
      obtain ⟨r, i1, -, i3⟩ := ih (len - BLEN bp) hn (by omega) (by omega)
      refine ⟨bp :: r, by rw [i1], by simp, ?_⟩
      have e : (len - BLEN bp).toNat = len.toNat - bp.data.length := by
        simp only [BLEN]; omega
      have hle : bp.data.length ≤ len.toNat := by
        simp only [BLEN] at h1; omega
      rw [payload_cons, payload_cons, i3, e, List.take_append_eq_append_take,
        List.take_of_length_le hle]
    · simp only [h1, if_false]
      have hle : len.toNat ≤ bp.data.length := by
        simp only [BLEN] at h1; omega
      refine ⟨_, rfl, by simp, ?_⟩
      simp only [payload_cons, payload_nil, List.append_nil, Block.wp_set]
      rw [List.take_append_of_le_length hle]

theorem trimblock_ok (c : List Block) (offset len : Int) (hne : c ≠ []) (ho : 0 ≤ offset)
    (hl : 0 ≤ len) (h : blocklen c ≥ offset + len) :
    ∃ r, trimblock c offset len = Res.ret r ∧ r ≠ [] ∧
      payload r = ((payload c).drop offset.toNat).take len.toNat := by
  have h1 : ¬ blocklen c < offset + len := by omega
  obtain ⟨b, next, off1, s1, s2, s3, s4⟩ := trim_skip_spec c offset hne ho (by omega)
  have hoff : off1.toNat ≤ b.data.length := by
    simp only [BLEN] at s3; omega
  have hp : payload (b.rp_add off1.toNat :: next) = (payload c).drop offset.toNat := by
    rw [← s4]
    simp only [payload_cons, Block.rp_add]
    rw [List.drop_append_of_le_length hoff]
  have hlen : len ≤ blocklen (b.rp_add off1.toNat :: next) := by
    rw [blocklen_eq_payload, hp, List.length_drop]
    have := payload_length c
    omega
  obtain ⟨r, t1, t2, t3⟩ := trim_take_spec (b.rp_add off1.toNat :: next) len (by simp) hl hlen
  refine ⟨r, ?_, t2, by rw [t3, hp]⟩
  simp only [trimblock, h1, if_false, s1, t1]

/-- C29: for a chain `c` of at least one buffer and `offset >= 0`,
`len >= 0`: when `blocklen(c) >= offset + len`, `trimblock` returns a chain
(the walk does not run off the end of `c`) whose payload is the bytes
`[offset, offset + len)` of the payload of `c`; when
`blocklen(c) < offset + len` it returns no chain.  So
`trimblock(c, 0, blocklen(c))` has the payload of `c`. -/
theorem trimblock_spec (c : List Block) (offset len : Int) (hne : c ≠ []) (ho : 0 ≤ offset)
    (hl : 0 ≤ len) :
    (blocklen c ≥ offset + len →
      ∃ r, trimblock c offset len = Res.ret r ∧ r ≠ [] ∧
        payload r = ((payload c).drop offset.toNat).take len.toNat) ∧
    (blocklen c < offset + len → trimblock c offset len = Res.ret []) ∧
    (∃ r, trimblock c 0 (blocklen c) = Res.ret r ∧ payload r = payload c) := by
  refine ⟨trimblock_ok c offset len hne ho hl, ?_, ?_⟩
  · intro h
    simp [trimblock, h]
  · obtain ⟨r, r1, -, r3⟩ := trimblock_ok c 0 (blocklen c) hne (le_refl 0)
      (blocklen_nonneg c) (by omega)
    refine ⟨r, r1, ?_⟩
    rw [r3, Int.toNat_zero, List.drop_zero]
    apply List.take_of_length_le
    have := payload_length c
    omega

theorem trimblock_spec_witness :
    (blocklen [⟨1, [], [1, 2], [], false⟩, ⟨2, [], [3, 4, 5], [], false⟩] ≥ 1 + 3 →
      ∃ r, trimblock [⟨1, [], [1, 2], [], false⟩, ⟨2, [], [3, 4, 5], [], false⟩] 1 3
          = Res.ret r ∧ r ≠ [] ∧
        payload r = ((payload [⟨1, [], [1, 2], [], false⟩,
          ⟨2, [], [3, 4, 5], [], false⟩]).drop (1 : Int).toNat).take (3 : Int).toNat) ∧
    (blocklen [⟨1, [], [1, 2], [], false⟩, ⟨2, [], [3, 4, 5], [], false⟩] < 1 + 3 →
      trimblock [⟨1, [], [1, 2], [], false⟩, ⟨2, [], [3, 4, 5], [], false⟩] 1 3
        = Res.ret []) ∧
    (∃ r, trimblock [⟨1, [], [1, 2], [], false⟩, ⟨2, [], [3, 4, 5], [], false⟩] 0
          (blocklen [⟨1, [], [1, 2], [], false⟩, ⟨2, [], [3, 4, 5], [], false⟩])
        = Res.ret r ∧
      payload r = payload [⟨1, [], [1, 2], [], false⟩, ⟨2, [], [3, 4, 5], [], false⟩]) :=
  trimblock_spec [⟨1, [], [1, 2], [], false⟩, ⟨2, [], [3, 4, 5], [], false⟩] 1 3
    (by decide) (by decide) (by decide)

/-- C31 (as amended): for a single buffer `b` and `len >= 0`, when the
allocation, if one is needed, succeeds, `adjustblock(b, len)` returns a single buffer whose
readable length is `len` and whose bytes are the first `len` bytes of the
payload of `b`, followed by zeros when `len > BLEN(b)`: `b` itself when `len`
fits between its read cursor and its limit, else a new buffer.  For `len < 0`
it returns no buffer. -/
theorem adjustblock_single (A : Allocator) (b : Block) (len : Int)
    (ha : b.bintr = true → (b.data.length : Int) + (b.back.length : Int) < len →
      A.ifail len.toNat = false) :
    (0 ≤ len → ∃ nb, adjustblock A b [] len = [nb] ∧ BLEN nb = len ∧
      nb.data = b.data.take len.toNat ++ List.replicate (len.toNat - b.data.length) 0 ∧
      (len ≤ (b.data.length : Int) + (b.back.length : Int) → nb.addr = b.addr) ∧
      ((b.data.length : Int) + (b.back.length : Int) < len →
        nb.addr = (allocb A len.toNat).addr)) ∧
    (len < 0 → adjustblock A b [] len = []) := by
  constructor
  · intro h0
    have hs : ¬ len < 0 := by omega
    by_cases hr : len > (b.data.length : Int) + (b.back.length : Int)
    · obtain ⟨nb, c1, c2, c3⟩ := copyblock_data A b [] len h0 (fun hb => ha hb hr)
      simp only [payload_cons, payload_nil, List.append_nil] at c2
      refine ⟨nb, ?_, ?_, c2, fun h => absurd hr (by omega), fun _ => c3⟩
      · simp only [adjustblock, hs, hr, if_false, if_true, c1]
      · rw [BLEN, c2]
        simp only [List.length_append, List.length_take, List.length_replicate]
        omega
    · obtain ⟨k, rfl⟩ := Int.eq_ofNat_of_zero_le h0
      simp only [adjustblock, hs, hr, if_false, Int.toNat_ofNat]
      by_cases hg : (k : Int) > BLEN b
      · simp only [hg, if_true]
        have hk : b.data.length < k := by
          simp only [BLEN] at hg; omega
        have e : ((k : Int) - BLEN b).toNat = k - b.data.length := by
          simp only [BLEN]; omega
        refine ⟨_, rfl, ?_, ?_, fun _ => rfl, fun h => h.elim⟩
        · simp only [BLEN, Block.wp_set, Block.wp_put, e, List.length_take,
            List.length_append, List.length_replicate]
          omega
        · simp only [Block.wp_set, Block.wp_put, e]
          rw [List.take_of_length_le (by simp; omega), List.take_of_length_le (by omega)]
      · simp only [hg, if_false]
        have hk : k ≤ b.data.length := by
          simp only [BLEN] at hg; omega
        have e : k - b.data.length = 0 := by omega
        refine ⟨_, rfl, ?_, ?_, fun _ => rfl, fun h => h.elim⟩
        · simp only [BLEN, Block.wp_set, List.length_take]
          omega
        · simp only [Block.wp_set, e, List.replicate_zero, List.append_nil]
  · intro h
    simp [adjustblock, h]

theorem adjustblock_single_witness :
    (∃ nb, adjustblock exAlloc ⟨1, [], [1, 2], [9], false⟩ [] 5 = [nb] ∧ BLEN nb = 5 ∧
      nb.data = ([1, 2] : List Byte).take (5 : Int).toNat
        ++ List.replicate ((5 : Int).toNat - ([1, 2] : List Byte).length) 0 ∧
      ((5 : Int) ≤ (([1, 2] : List Byte).length : Int) + (([9] : List Byte).length : Int) →
        nb.addr = 1) ∧
      ((([1, 2] : List Byte).length : Int) + (([9] : List Byte).length : Int) < 5 →
        nb.addr = (allocb exAlloc (5 : Int).toNat).addr)) :=
  (adjustblock_single exAlloc ⟨1, [], [1, 2], [9], false⟩ 5 (by decide)).1 (by decide)

/-- C31 (counterexample): a buffer from the non-sleeping allocator (flag
`BINTR`) holding two bytes with no room behind them, and a non-sleeping
allocator that fails: `adjustblock` with length 5 returns no buffer. -/
theorem adjustblock_single_counterexample :
    adjustblock failAlloc ⟨1, [], [1, 2], [], true⟩ [] 5 = [] := by
  decide

theorem pullblock_loop_spec (fuel : Nat) (c : List Block) (count bytes : Int)
    (h0 : 0 ≤ count) (hf : c.length + 2 ≤ fuel ∨ (count = 0 ∧ 1 ≤ fuel)) :
    ∃ c2, pullblock_loop fuel c count bytes
        = Res.ret (c2, bytes + min count (blocklen c)) ∧
      payload c2 = (payload c).drop count.toNat := by
  induction fuel generalizing c count bytes with
  | zero => omega
  | succ fuel ih =>
    cases c with
    | nil =>
      refine ⟨[], ?_, by simp⟩
      simp only [pullblock_loop, blocklen]
      rw [min_eq_right h0, add_zero]
    | cons bp next =>
      have hbn := blocklen_nonneg next
      simp only [pullblock_loop]
      by_cases hc : count = 0
      · subst hc
        refine ⟨bp :: next, ?_, by simp⟩
        have hb : 0 ≤ blocklen (bp :: next) := blocklen_nonneg _
        simp [min_eq_left hb]
      · simp only [ne_eq, hc, not_false_eq_true, if_true]
        have hfuel : (bp :: next).length + 2 ≤ fuel + 1 := by
          rcases hf with h | h
          · exact h
          · exact absurd h.1 hc
        simp only [List.length_cons] at hfuel
        by_cases hlt : count < BLEN bp
        · simp only [hlt, if_true, sub_self]
          have hk : count.toNat < bp.data.length := by
            simp only [BLEN] at hlt; omega
          have hne : ¬ BLEN (bp.rp_add count.toNat) = 0 := by
            simp only [BLEN, Block.rp_add, List.length_drop]
            omega
          simp only [hne, if_false]
          obtain ⟨c2, i1, i2⟩ := ih (bp.rp_add count.toNat :: next) 0 (bytes + count)
            (le_refl 0) (Or.inr ⟨rfl, by omega⟩)
          refine ⟨c2, ?_, ?_⟩
          · rw [i1]
            have hb : 0 ≤ blocklen (bp.rp_add count.toNat :: next) := blocklen_nonneg _
            simp only [blocklen] at hb ⊢
            rw [min_eq_left hb, min_eq_left (by omega)]
            simp
          · rw [i2]
            simp only [Int.toNat_zero, List.drop_zero, payload_cons, Block.rp_add]
            rw [List.drop_append_of_le_length (by omega)]
        · simp only [hlt, if_false]
          have hk : bp.data.length ≤ count.toNat := by
            simp only [BLEN] at hlt; omega
          have hb : (BLEN bp).toNat = bp.data.length := by simp [BLEN]
          have hz : BLEN (bp.rp_add (BLEN bp).toNat) = 0 := by
            simp [BLEN, Block.rp_add]
          simp only [hz, if_true]
          obtain ⟨c2, i1, i2⟩ := ih next (count - BLEN bp) (bytes + BLEN bp)
            (by omega) (Or.inl (by omega))
          refine ⟨c2, ?_, ?_⟩
          · rw [i1]
            simp only [blocklen]
            congr 2
            rw [add_assoc]
            congr 1
            omega
          · rw [i2, payload_cons]
            have e : count.toNat = bp.data.length + (count - BLEN bp).toNat := by
              simp only [BLEN] at hlt ⊢; omega
            rw [e, List.drop_append]

/-- C32: for every chain `c` and `count >= 0`, `pullblock` comes to an end,
returns `min(count, blocklen(c))`, and leaves a chain whose payload is the
payload of `c` without its first `min(count, blocklen(c))` bytes. -/
theorem pullblock_spec (c : List Block) (count : Int) (h0 : 0 ≤ count) :
    ∃ c2, pullblock c count = Res.ret (c2, min count (blocklen c)) ∧
      payload c2 = (payload c).drop (min count (blocklen c)).toNat ∧
      payload c2 = (payload c).drop count.toNat := by
  obtain ⟨c2, h1, h2⟩ := pullblock_loop_spec (c.length + 2) c count 0 h0 (Or.inl (le_refl _))
  refine ⟨c2, by rw [pullblock, h1, zero_add], ?_, h2⟩
  rw [h2]
  by_cases hle : count ≤ blocklen c
  · rw [min_eq_left hle]
  · have hp := payload_length c
    rw [min_eq_right (by omega), List.drop_of_length_le (by omega),
      List.drop_of_length_le (by omega)]

theorem pullblock_spec_witness :
    ∃ c2, pullblock [⟨1, [], [1, 2], [], false⟩, ⟨2, [], [3, 4, 5], [], false⟩] 3
        = Res.ret (c2, min 3 (blocklen [⟨1, [], [1, 2], [], false⟩,
            ⟨2, [], [3, 4, 5], [], false⟩])) ∧
      payload c2 = (payload [⟨1, [], [1, 2], [], false⟩,
          ⟨2, [], [3, 4, 5], [], false⟩]).drop
        (min 3 (blocklen [⟨1, [], [1, 2], [], false⟩,
          ⟨2, [], [3, 4, 5], [], false⟩])).toNat ∧
      payload c2 = (payload [⟨1, [], [1, 2], [], false⟩,
          ⟨2, [], [3, 4, 5], [], false⟩]).drop (3 : Int).toNat :=
  pullblock_spec [⟨1, [], [1, 2], [], false⟩, ⟨2, [], [3, 4, 5], [], false⟩] 3 (by decide)

theorem fitMore_total (len : Int) (rest : List Block) (n : Int) (hn : n ≤ len) :
    n + blocklen (fitMore len n rest) ≤ len ∧
    (∀ b2, (rest.drop (fitMore len n rest).length).head? = some b2 →
      n + blocklen (fitMore len n rest) + BLEN b2 > len) := by
  induction rest generalizing n with
  | nil => simp [fitMore, blocklen, hn]
  | cons b rest ih =>
    simp only [fitMore]
    by_cases h : n + BLEN b > len
    · simp only [h, if_true, blocklen, add_zero, List.length_nil, List.drop_zero,
        List.head?_cons, Option.some.injEq]
      refine ⟨hn, fun b2 hb => ?_⟩
      subst hb
      exact h
    · simp only [h, if_false, blocklen, List.length_cons, List.drop_succ_cons]
      obtain ⟨i1, i2⟩ := ih (n + BLEN b) (by omega)
      refine ⟨by omega, fun b2 hb => ?_⟩
      have := i2 b2 hb
      omega

theorem qread_grab_fit (fuel : Nat) (q : Queue) (n len : Int) (b : Block) (rest : List Block)
    (hf : q.bfirst.length ≤ fuel) (hb : q.bfirst = b :: rest) :
    (qread_grab fuel q n len).2.1 = b :: fitMore len (n + BLEN b) rest ∧
    (qread_grab fuel q n len).1.bfirst
      = rest.drop (fitMore len (n + BLEN b) rest).length := by
  induction fuel generalizing q n b rest with
  | zero => simp [hb] at hf
  | succ fuel ih =>
    cases rest with
    | nil => simp [qread_grab, qremove, hb, fitMore]
    | cons b2 rest2 =>
      by_cases hgt : n + BLEN b + BLEN b2 > len
      · simp [qread_grab, qremove, hb, hgt, fitMore]
      · have hf2 : ({ q with bfirst := b2 :: rest2, dlen := q.dlen - BLEN b,
                             len := q.len - BALLOC b } : Queue).bfirst.length ≤ fuel := by
          rw [hb] at hf
          simp only [List.length_cons] at hf ⊢
          omega
        obtain ⟨i1, i2⟩ := ih { q with bfirst := b2 :: rest2, dlen := q.dlen - BLEN b,
                                       len := q.len - BALLOC b } (n + BLEN b) b2 rest2 hf2 rfl
        simp only [qread_grab, qremove, hb, hgt, if_false, fitMore]
        rw [i1, i2]
        simp

theorem qread_again_head (fuel : Nat) (q : Queue) (len : Nat) (h : Block)
    (rest : List Block) (hf : q.bfirst.length < fuel) (hc : q.state.Qcoalesce = true)
    (hm : q.state.Qmsg = false) (hb : q.bfirst = h :: rest) (hh : h.data ≠ []) :
    (BLEN h ≤ (len : Int) →
      (qread_again fuel q len).out = payload (h :: fitMore len (BLEN h) rest) ∧
      (qread_again fuel q len).ret
        = Res.ret (blocklen (h :: fitMore len (BLEN h) rest)) ∧
      (qread_again fuel q len).q.bfirst
        = rest.drop (fitMore len (BLEN h) rest).length) ∧
    (BLEN h > (len : Int) →
      (qread_again fuel q len).out = h.data.take len ∧
      (qread_again fuel q len).ret = Res.ret (len : Int) ∧
      (qread_again fuel q len).q.bfirst = h.rp_add len :: rest) := by
  cases fuel with
  | zero => omega
  | succ fuel =>
    have hpos : ¬ BLEN h ≤ 0 := by
      have : h.data.length ≠ 0 := fun e => hh (List.length_eq_zero.mp e)
      simp only [BLEN]
      omega
    obtain ⟨g1, g2⟩ := qread_grab_fit q.bfirst.length q 0 len h rest (le_refl _) hb
    obtain ⟨-, -, g3, -, g5, -, -, -, -⟩ :=
      qread_grab_spec q.bfirst.length q 0 len h rest (le_refl _) hb
    rw [zero_add] at g1 g2
    rw [g1, zero_add] at g3
    have hmg : (qread_grab q.bfirst.length q 0 (len : Int)).1.state.Qmsg = false := by
      rw [g5, hm]
    simp only [qread_again, qwait, hb, hc, if_true, hpos, if_false]
    rw [← hb]
    generalize qread_grab q.bfirst.length q 0 (len : Int) = G at g1 g2 g3 hmg
    obtain ⟨gq, gfirst, gn⟩ := G
    simp only [] at g1 g2 g3 hmg
    subst g1 g3
    constructor
    · intro hle
      obtain ⟨t1, -⟩ := fitMore_total len rest (BLEN h) hle
      have hfit : (payload (h :: fitMore len (BLEN h) rest)).length ≤ len := by
        have := blocklen_eq_payload (h :: fitMore len (BLEN h) rest)
        simp only [blocklen] at this
        omega
      simp only [qread_finish, bl2mem_fits _ len hfit, qwakeup_bfirst]
      exact ⟨trivial, trivial, g2⟩
    · intro hgt
      have hnil : fitMore len (BLEN h) rest = [] := by
        cases rest with
        | nil => rfl
        | cons b2 r2 =>
          have := BLEN_nonneg b2
          simp only [fitMore]
          rw [if_pos (by omega)]
      rw [hnil] at g2 ⊢
      simp only [List.length_nil, List.drop_zero] at g2
      have hl : h.data.length > len := by
        simp only [BLEN] at hgt; omega
      simp only [qread_finish, bl2mem, hl, if_true, hmg, Bool.false_eq_true, if_false,
        qwakeup_bfirst, qputback, g2, blocklen, add_zero]
      refine ⟨trivial, ?_, trivial⟩
      simp only [BLEN, Block.rp_add, List.length_drop]
      congr 1
      omega

theorem qread_again_coalesce (zs : List Block) (fuel : Nat) (q : Queue) (len : Nat)
    (h : Block) (rest : List Block) (hf : q.bfirst.length < fuel)
    (hc : q.state.Qcoalesce = true) (hm : q.state.Qmsg = false)
    (hb : q.bfirst = zs ++ h :: rest) (hz : ∀ z ∈ zs, z.data = []) (hh : h.data ≠ []) :
    (BLEN h ≤ (len : Int) →
      (qread_again fuel q len).out = payload (h :: fitMore len (BLEN h) rest) ∧
      (qread_again fuel q len).ret
        = Res.ret (blocklen (h :: fitMore len (BLEN h) rest)) ∧
      (qread_again fuel q len).q.bfirst
        = rest.drop (fitMore len (BLEN h) rest).length) ∧
    (BLEN h > (len : Int) →
      (qread_again fuel q len).out = h.data.take len ∧
      (qread_again fuel q len).ret = Res.ret (len : Int) ∧
      (qread_again fuel q len).q.bfirst = h.rp_add len :: rest) := by
  induction zs generalizing fuel q with
  | nil => exact qread_again_head fuel q len h rest hf hc hm hb hh
  | cons z zs ih =>
    cases fuel with
    | zero => omega
    | succ fuel =>
      have hzd : z.data = [] := hz z (List.mem_cons_self _ _)
      have hz0 : BLEN z ≤ 0 := by simp [BLEN, hzd]
      have hb2 : q.bfirst = z :: (zs ++ h :: rest) := hb
      have e : qread_again (fuel + 1) q len = qread_again fuel (qremove q).1 len := by
        simp only [qread_again, qwait, hb2, hc, if_true, hz0]
      rw [e]
      have hq : (qremove q).1 = { q with bfirst := zs ++ h :: rest, dlen := q.dlen - BLEN z,
                                         len := q.len - BALLOC z } := by
        simp only [qremove, hb2]
      rw [hq]
      apply ih
      · rw [hb2] at hf
        simp only [List.length_cons] at hf ⊢
        omega
      · exact hc
      · exact hm
      · rfl
      · exact fun x hx => hz x (List.mem_cons_of_mem _ hx)

/-- C33: on a queue in coalesce mode and not in message mode, with `zs` the
zero-length buffers at the head, `h` the first buffer with data and `rest`
what follows it: `qread` with buffer size `len` drops `zs` without returning
them.  When `h` fits in `len` it returns the concatenation of `h` and of every
following buffer as long as the running total fits in `len` (the total, which
is at most `len`, is the value returned), these leave the queue, and the
first buffer left queued, if any, would not have fitted.  When `h` alone
exceeds `len` it returns the first `len` bytes of `h` and puts `h`, its read
cursor moved past them, back at the head. -/
theorem qread_coalesce (q : Queue) (len : Nat) (zs : List Block) (h : Block)
    (rest : List Block) (hc : q.state.Qcoalesce = true) (hm : q.state.Qmsg = false)
    (hb : q.bfirst = zs ++ h :: rest) (hz : ∀ z ∈ zs, z.data = []) (hh : h.data ≠ []) :
    (BLEN h ≤ (len : Int) →
      (qread q len).out = payload (h :: fitMore len (BLEN h) rest) ∧
      (qread q len).ret = Res.ret (blocklen (h :: fitMore len (BLEN h) rest)) ∧
      blocklen (h :: fitMore len (BLEN h) rest) ≤ (len : Int) ∧
      h :: fitMore len (BLEN h) rest ++ (qread q len).q.bfirst = h :: rest ∧
      (∀ b2, (qread q len).q.bfirst.head? = some b2 →
        blocklen (h :: fitMore len (BLEN h) rest) + BLEN b2 > (len : Int))) ∧
    (BLEN h > (len : Int) →
      (qread q len).out = h.data.take len ∧
      (qread q len).ret = Res.ret (len : Int) ∧
      (qread q len).q.bfirst = h.rp_add len :: rest ∧
      (qread q len).out ++ payload (qread q len).q.bfirst = payload (h :: rest)) := by
  obtain ⟨k1, k2⟩ := qread_again_coalesce zs (q.bfirst.length + 1) q len h rest
    (Nat.lt_succ_self _) hc hm hb hz hh
  constructor
  · intro hle
    obtain ⟨a1, a2, a3⟩ := k1 hle
    obtain ⟨t1, t2⟩ := fitMore_total len rest (BLEN h) hle
    unfold qread
    rw [a1, a2, a3]
    refine ⟨rfl, rfl, by simpa [blocklen] using t1, ?_, fun b2 hb2 => ?_⟩
    · rw [List.cons_append, List.cons.injEq]
      refine ⟨rfl, ?_⟩
      have hp : ∀ (n : Int) (l : List Block),
          fitMore len n l ++ l.drop (fitMore len n l).length = l := by
        intro n l
        induction l generalizing n with
        | nil => simp [fitMore]
        | cons b l ih =>
          simp only [fitMore]
          split_ifs
          · simp
          · simp [ih]
      exact hp _ _
    · have := t2 b2 hb2
      simp only [blocklen]
      omega
  · intro hgt
    obtain ⟨a1, a2, a3⟩ := k2 hgt
    unfold qread
    rw [a1, a2, a3]
    refine ⟨rfl, rfl, rfl, ?_⟩
    simp only [payload_cons, Block.rp_add]
    rw [← List.append_assoc, List.take_append_drop]

theorem qread_coalesce_witness :
    (qread (qaddlist (qopen 100 ⟨false, false, false, false, true, false⟩ false 0)
        ⟨1, [], [], [], false⟩
        [⟨2, [], [1, 2], [], false⟩, ⟨3, [], [3, 4], [], false⟩,
         ⟨4, [], [5, 6], [], false⟩]) 5).out
      = payload (⟨2, [], [1, 2], [], false⟩
          :: fitMore ((5 : Nat) : Int) (BLEN ⟨2, [], [1, 2], [], false⟩)
            [⟨3, [], [3, 4], [], false⟩, ⟨4, [], [5, 6], [], false⟩]) :=
  ((qread_coalesce
    (qaddlist (qopen 100 ⟨false, false, false, false, true, false⟩ false 0)
      ⟨1, [], [], [], false⟩
      [⟨2, [], [1, 2], [], false⟩, ⟨3, [], [3, 4], [], false⟩, ⟨4, [], [5, 6], [], false⟩])
    5 [⟨1, [], [], [], false⟩] ⟨2, [], [1, 2], [], false⟩
    [⟨3, [], [3, 4], [], false⟩, ⟨4, [], [5, 6], [], false⟩]
    (by decide) (by decide) (by decide) (by decide) (by decide)).1 (by decide)).1

theorem kframe_refl (q : Queue) : kframe q q := ⟨rfl, rfl, rfl, rfl⟩

theorem kframe_trans {q q2 q3 : Queue} (h1 : kframe q q2) (h2 : kframe q2 q3) :
    kframe q q3 :=
  ⟨h2.1.trans h1.1, h2.2.1.trans h1.2.1, h2.2.2.1.trans h1.2.2.1,
    h2.2.2.2.trans h1.2.2.2⟩

theorem kframe_qremove (q : Queue) : kframe q (qremove q).1 := by
  unfold qremove
  split <;> exact ⟨rfl, rfl, rfl, rfl⟩

theorem kframe_qwait (q : Queue) : kframe q (qwait q).1 := by
  unfold qwait
  split
  · exact kframe_refl q
  · simp only []
    split_ifs <;> exact ⟨rfl, rfl, rfl, rfl⟩

theorem kframe_qread_grab (fuel : Nat) (q : Queue) (n len : Int) :
    kframe q (qread_grab fuel q n len).1 := by
  induction fuel generalizing q n with
  | zero => exact kframe_refl q
  | succ fuel ih =>
    cases hb : q.bfirst with
    | nil => simp [qread_grab, qremove, hb, kframe]
    | cons b rest =>
      cases rest with
      | nil => simp [qread_grab, qremove, hb, kframe]
      | cons b2 rest2 =>
        simp only [qread_grab, qremove, hb]
        split_ifs
        · exact ⟨rfl, rfl, rfl, rfl⟩
        · exact kframe_trans (by exact ⟨rfl, rfl, rfl, rfl⟩) (ih _ _)

theorem qread_finish_kick (q : Queue) (first : List Block) (n : Int) (len : Nat) :
    ∃ q0, (qread_finish q first n len).q = qwakeup_iunlock q0 ∧ kframe q q0 := by
  unfold qread_finish
  simp only []
  split
  · exact ⟨q, rfl, kframe_refl q⟩
  · split_ifs
    · exact ⟨q, rfl, kframe_refl q⟩
    · exact ⟨_, rfl, ⟨rfl, rfl, rfl, rfl⟩⟩

theorem qread_again_kick (fuel : Nat) (q : Queue) (len : Nat) :
    (∃ q0, (qread_again fuel q len).q = qwakeup_iunlock q0 ∧ kframe q q0) ∨
    kframe q (qread_again fuel q len).q := by
  induction fuel generalizing q with
  | zero => exact Or.inr (kframe_refl q)
  | succ fuel ih =>
    have hw := kframe_qwait q
    simp only [qread_again]
    generalize qwait q = W at hw
    obtain ⟨q1, w⟩ := W
    cases w with
    | eof => exact Or.inr hw
    | error => exact Or.inr hw
    | sleep => exact Or.inr hw
    | data =>
      simp only [] at hw ⊢
      have lift : ∀ (q2 : Queue) (r : Queue), kframe q1 q2 →
          ((∃ q0, r = qwakeup_iunlock q0 ∧ kframe q2 q0) ∨ kframe q2 r) →
          ((∃ q0, r = qwakeup_iunlock q0 ∧ kframe q q0) ∨ kframe q r) := by
        intro q2 r h12 hr
        rcases hr with ⟨q0, e, k⟩ | k
        · exact Or.inl ⟨q0, e, kframe_trans hw (kframe_trans h12 k)⟩
        · exact Or.inr (kframe_trans hw (kframe_trans h12 k))
      split_ifs
      · cases hb : q1.bfirst with
        | nil => exact Or.inr hw
        | cons b rest =>
          simp only []
          split_ifs
          · exact lift _ _ (kframe_qremove q1) (ih _)
          · obtain ⟨q0, e, k⟩ := qread_finish_kick
              (qread_grab (b :: rest).length q1 0 (len : Int)).1
              (qread_grab (b :: rest).length q1 0 (len : Int)).2.1
              (qread_grab (b :: rest).length q1 0 (len : Int)).2.2 len
            exact lift _ _ (kframe_qread_grab _ q1 _ _) (Or.inl ⟨q0, e, k⟩)
      · have hr := kframe_qremove q1
        generalize qremove q1 = R at hr
        obtain ⟨q2, o⟩ := R
        cases o with
        | none => exact Or.inr (kframe_trans hw hr)
        | some first =>
          simp only [] at hr ⊢
          obtain ⟨q0, e, k⟩ := qread_finish_kick q2 [first] (BLEN first) len
          exact lift _ _ hr (Or.inl ⟨q0, e, k⟩)

theorem qbread_kick (A : Allocator) (q : Queue) (len : Nat) :
    (∃ q0, (qbread A q len).1 = qwakeup_iunlock q0 ∧ kframe q q0) ∨
    kframe q (qbread A q len).1 := by
  have hw := kframe_qwait q
  unfold qbread
  generalize qwait q = W at hw
  obtain ⟨q1, w⟩ := W
  cases w with
  | eof => exact Or.inr hw
  | error => exact Or.inr hw
  | sleep => exact Or.inr hw
  | data =>
    simp only [] at hw ⊢
    have hr := kframe_qremove q1
    generalize qremove q1 = R at hr
    obtain ⟨q2, o⟩ := R
    cases o with
    | none => exact Or.inr (kframe_trans hw hr)
    | some nb =>
      simp only [] at hr ⊢
      left
      split_ifs
      · exact ⟨_, rfl, kframe_trans hw (kframe_trans hr ⟨rfl, rfl, rfl, rfl⟩)⟩
      · exact ⟨_, rfl, kframe_trans hw hr⟩
      · exact ⟨_, rfl, kframe_trans hw hr⟩

theorem qwakeup_kick (q0 : Queue) :
    ((qwakeup_iunlock q0).state.Qflow = false → q0.state.Qflow = true → q0.kick = true →
      (qwakeup_iunlock q0).kicks = q0.kicks ++ [q0.arg]) ∧
    ((qwakeup_iunlock q0).state.Qflow = q0.state.Qflow →
      (qwakeup_iunlock q0).kicks = q0.kicks) ∧
    (q0.kick = false → (qwakeup_iunlock q0).kicks = q0.kicks) := by
  unfold qwakeup_iunlock flowrestart
  simp only []
  split_ifs <;> simp_all

theorem kick_of_wakeup (q r : Queue)
    (h : (∃ q0, r = qwakeup_iunlock q0 ∧ kframe q q0) ∨ kframe q r) :
    (q.state.Qflow = true → r.state.Qflow = false → q.kick = true →
      r.kicks = q.kicks ++ [q.arg]) ∧
    (r.state.Qflow = q.state.Qflow → r.kicks = q.kicks) ∧
    (q.kick = false → r.kicks = q.kicks) := by
  rcases h with ⟨q0, e, k1, k2, k3, k4⟩ | ⟨k1, -, -, k4⟩
  · obtain ⟨w1, w2, w3⟩ := qwakeup_kick q0
    rw [e]
    rw [k1, k2, k3, k4] at w1
    rw [k1, k4] at w2
    rw [k2, k4] at w3
    exact ⟨fun a b c => w1 b a c, w2, w3⟩
  · refine ⟨fun a b _ => ?_, fun _ => k4, fun _ => k4⟩
    rw [k1, a] at b
    exact absurd b (by simp)

theorem qdiscard_loop_kicks (len : Int) (l : List Block) (q : Queue) (sofar : Int) :
    (qdiscard_loop len l q sofar).1.kicks = q.kicks := by
  induction l generalizing q sofar with
  | nil => rfl
  | cons b next ih =>
    simp only [qdiscard_loop]
    split_ifs
    · exact ih _ _
    · rfl
    · rfl

theorem qconsume_skip_kicks (l : List Block) (q : Queue) :
    (qconsume_skip l q).1.kicks = q.kicks := by
  induction l generalizing q with
  | nil => rfl
  | cons b next ih =>
    simp only [qconsume_skip]
    split_ifs
    · rfl
    · exact ih _

theorem flowrestart_kicks (q : Queue) : (flowrestart q).1.kicks = q.kicks := by
  unfold flowrestart
  split_ifs <;> rfl

theorem silent_consumers (q : Queue) (n : Nat) (k : Int) :
    (qget q).1.kicks = q.kicks ∧ (qdiscard q k).1.kicks = q.kicks ∧
    (qconsume q n).1.kicks = q.kicks := by
  refine ⟨?_, ?_, ?_⟩
  · unfold qget
    split
    · rfl
    · rw [flowrestart_kicks]
  · unfold qdiscard
    simp only []
    rw [flowrestart_kicks, qdiscard_loop_kicks]
  · have hs := qconsume_skip_kicks q.bfirst q
    unfold qconsume
    generalize qconsume_skip q.bfirst q = R at hs
    obtain ⟨q1, o⟩ := R
    cases o with
    | none => exact hs
    | some bn =>
      obtain ⟨b, next⟩ := bn
      simp only [] at hs ⊢
      rw [flowrestart_kicks]
      split_ifs <;> exact hs

theorem silent_producers (A : Allocator) (q : Queue) (b : Block) (bnext : List Block)
    (p : List Byte) :
    (qpass q b bnext).1.kicks = q.kicks ∧ (qpassnolim q b bnext).1.kicks = q.kicks ∧
    (qproduce A q p).1.kicks = q.kicks := by
  have hadd : (qpass_add q b bnext).1.kicks = q.kicks := by
    unfold qpass_add
    simp only []
    split_ifs <;> rfl
  refine ⟨?_, ?_, ?_⟩
  · unfold qpass
    split_ifs
    · rfl
    · rfl
    · exact hadd
  · unfold qpassnolim
    split_ifs
    · rfl
    · exact hadd
  · unfold qproduce
    split_ifs
    · rfl
    · cases iallocb A p.length with
      | none => rfl
      | some b0 =>
        simp only []
        split_ifs <;> rfl

theorem qbwrite_kick (q : Queue) (c : Nat) (b : Block) (bnext : List Block)
    (ho : q.state.Qclosed = false) (hby : q.bypass = false)
    (hacc : ¬ (q.len ≥ q.limit ∧ q.noblock = true)) (hk : q.kick = true)
    (hs : q.state.Qstarve = true) :
    (qbwrite q c b bnext).q.kicks = q.kicks ++ [q.arg] := by
  have h1 : ¬ (decide (q.len ≥ q.limit) && q.noblock) = true := by
    simpa using hacc
  unfold qbwrite
  simp only [hby, ho, h1, hs, hk, Bool.false_eq_true, if_false, if_true, Bool.true_or,
    Bool.and_self]
  split_ifs <;> rfl

theorem qiwrite_q3_kicks (q1 : Queue) (d1 : Bool) :
    ∃ m, (if (d1 && (if q1.state.Qstarve then
                  { q1 with state := { q1.state with Qstarve := false } } else q1).kick) = true
     then { (if q1.state.Qstarve then
                  { q1 with state := { q1.state with Qstarve := false } } else q1) with
            kicks := (if q1.state.Qstarve then
                  { q1 with state := { q1.state with Qstarve := false } } else q1).kicks
              ++ [(if q1.state.Qstarve then
                  { q1 with state := { q1.state with Qstarve := false } } else q1).arg] }
     else (if q1.state.Qstarve then
                  { q1 with state := { q1.state with Qstarve := false } } else q1)).kicks
      = q1.kicks ++ m ∧
     (if (d1 && (if q1.state.Qstarve then
                  { q1 with state := { q1.state with Qstarve := false } } else q1).kick) = true
     then { (if q1.state.Qstarve then
                  { q1 with state := { q1.state with Qstarve := false } } else q1) with
            kicks := (if q1.state.Qstarve then
                  { q1 with state := { q1.state with Qstarve := false } } else q1).kicks
              ++ [(if q1.state.Qstarve then
                  { q1 with state := { q1.state with Qstarve := false } } else q1).arg] }
     else (if q1.state.Qstarve then
                  { q1 with state := { q1.state with Qstarve := false } } else q1)).arg
      = q1.arg ∧ (∀ x ∈ m, x = q1.arg) := by
  refine ⟨if (d1 && q1.kick) = true then [q1.arg] else [], ?_, ?_, ?_⟩ <;>
    cases hs : q1.state.Qstarve <;> cases hk : q1.kick <;> cases d1 <;> simp [hk]

theorem qiwrite_tail_kicks (A : Allocator) (fuel : Nat) (p : List Byte) (Q3 : Queue)
    (c : Bool) (s1 : Nat) (d1 : Bool) (base pre : List Nat) (a : Nat)
    (ih : ∀ (q : Queue) (sofar : Nat) (d : Bool),
      ∃ more, (qiwrite_loop A fuel q p sofar d).1.kicks = q.kicks ++ more ∧
        (qiwrite_loop A fuel q p sofar d).1.arg = q.arg ∧ (∀ x ∈ more, x = q.arg))
    (hk : Q3.kicks = base ++ pre) (ha : Q3.arg = a) (hp : ∀ x ∈ pre, x = a) :
    ∃ more, (if c = true then qiwrite_loop A fuel Q3 p s1 d1 else (Q3, s1)).1.kicks
        = base ++ more ∧
      (if c = true then qiwrite_loop A fuel Q3 p s1 d1 else (Q3, s1)).1.arg = a ∧
      (∀ x ∈ more, x = a) := by
  split
  · obtain ⟨more, i1, i2, i3⟩ := ih Q3 s1 d1
    refine ⟨pre ++ more, by rw [i1, hk, List.append_assoc], i2.trans ha, ?_⟩
    intro x hx
    simp only [List.mem_append] at hx
    rcases hx with h | h
    · exact hp x h
    · rw [i3 x h, ha]
  · exact ⟨pre, hk, ha, hp⟩

theorem qiwrite_loop_kicks (A : Allocator) (fuel : Nat) (q : Queue) (p : List Byte)
    (sofar : Nat) (d : Bool) :
    ∃ more, (qiwrite_loop A fuel q p sofar d).1.kicks = q.kicks ++ more ∧
      (qiwrite_loop A fuel q p sofar d).1.arg = q.arg ∧
      (∀ x ∈ more, x = q.arg) := by
  induction fuel generalizing q sofar d with
  | zero => exact ⟨[], by simp [qiwrite_loop], rfl, by simp⟩
  | succ fuel ih =>
    simp only [qiwrite_loop]
    generalize (if p.length - sofar > Maxatomic then Maxatomic else p.length - sofar) = n
    cases iallocb A n with
    | none => exact ⟨[], by simp, rfl, by simp⟩
    | some b0 =>
      simp only []
      by_cases hd : q.dlen ≥ 16 * 1024
      · rw [if_pos hd]
        exact ⟨[], by simp, rfl, by simp⟩
      · rw [if_neg hd]
        obtain ⟨m, k1, k2, k3⟩ := qiwrite_q3_kicks
          { q with
            bfirst := q.bfirst ++ [b0.wp_put ((p.drop sofar).take n)]
            blast := some (b0.wp_put ((p.drop sofar).take n)).addr
            len := q.len + BALLOC (b0.wp_put ((p.drop sofar).take n))
            dlen := q.dlen + (n : Int) } (d || q.state.Qstarve)
        apply qiwrite_tail_kicks A fuel p _ _ _ _ q.kicks m q.arg ih
        · exact k1
        · exact k2
        · exact k3

theorem qiwrite_tail_first (A : Allocator) (fuel : Nat) (p : List Byte) (Q3 : Queue)
    (c : Bool) (s1 : Nat) (d1 : Bool) (base : List Nat) (a : Nat)
    (hk : Q3.kicks = base ++ [a]) (ha : Q3.arg = a) :
    ∃ more, (if c = true then qiwrite_loop A fuel Q3 p s1 d1 else (Q3, s1)).1.kicks
        = base ++ a :: more ∧ (∀ x ∈ more, x = a) := by
  split
  · obtain ⟨more, i1, -, i3⟩ := qiwrite_loop_kicks A fuel Q3 p s1 d1
    refine ⟨more, by rw [i1, hk]; simp, ?_⟩
    intro x hx
    rw [i3 x hx, ha]
  · exact ⟨[], by simp [hk], by simp⟩

theorem qiwrite_kick (A : Allocator) (q : Queue) (p : List Byte) (hk : q.kick = true)
    (hs : q.state.Qstarve = true)
    (ha : A.ifail (min p.length Maxatomic) = false) (hd : q.dlen < 16 * 1024) :
    ∃ more, (qiwrite A q p).1.kicks = q.kicks ++ q.arg :: more ∧
      (∀ x ∈ more, x = q.arg) := by
  have hn : (if p.length - 0 > Maxatomic then Maxatomic else p.length - 0)
      = min p.length Maxatomic := by
    split_ifs with h
    · exact (Nat.min_eq_right (by omega)).symm
    · exact (Nat.min_eq_left (by omega)).symm
  have hd2 : ¬ q.dlen ≥ 16 * 1024 := by omega
  unfold qiwrite
  simp only [qiwrite_loop, hn, iallocb, ha, hd2, hs, hk, if_false, if_true,
    Bool.false_eq_true, Bool.or_true, Bool.and_self, Nat.zero_add]
  apply qiwrite_tail_first A p.length p _ _ _ _ q.kicks q.arg
  · rfl
  · rfl

theorem qbwrite_kick_cleared (q : Queue) (c : Nat) (b : Block) (bnext : List Block)
    (hk : q.kick = true) (hs : q.state.Qstarve = true)
    (hc : (qbwrite q c b bnext).q.state.Qstarve = false) :
    (qbwrite q c b bnext).q.kicks = q.kicks ++ [q.arg] := by
  by_cases hby : q.bypass = true
  · simp [qbwrite, hby, hs] at hc
  · by_cases ho : q.state.Qclosed = true
    · simp [qbwrite, hby, ho, hs] at hc
    · by_cases hacc : (q.len ≥ q.limit ∧ q.noblock = true)
      · simp [qbwrite, hby, ho, hacc, hs] at hc
      · exact qbwrite_kick q c b bnext (by simpa using ho) (by simpa using hby) hacc hk hs

theorem qiwrite_kick_cleared (A : Allocator) (q : Queue) (p : List Byte)
    (hk : q.kick = true) (hs : q.state.Qstarve = true)
    (hc : (qiwrite A q p).1.state.Qstarve = false) :
    ∃ more, (qiwrite A q p).1.kicks = q.kicks ++ q.arg :: more ∧
      (∀ x ∈ more, x = q.arg) := by
  have hn : (if p.length - 0 > Maxatomic then Maxatomic else p.length - 0)
      = min p.length Maxatomic := by
    split_ifs with h
    · exact (Nat.min_eq_right (by omega)).symm
    · exact (Nat.min_eq_left (by omega)).symm
  by_cases ha : A.ifail (min p.length Maxatomic) = false
  · by_cases hd : q.dlen < 16 * 1024
    · exact qiwrite_kick A q p hk hs ha hd
    · have hd2 : q.dlen ≥ 16 * 1024 := by omega
      unfold qiwrite at hc
      simp only [qiwrite_loop, hn, iallocb, ha, hd2, Bool.false_eq_true, if_false,
        if_true] at hc
      rw [hs] at hc
      exact absurd hc (by simp)
  · have ha2 : A.ifail (min p.length Maxatomic) = true := by simpa using ha
    unfold qiwrite at hc
    simp only [qiwrite_loop, hn, iallocb, ha2, if_true] at hc
    rw [hs] at hc
    exact absurd hc (by simp)

/-- C34 (amended): on a queue with a `kick` callback installed, `kick` is
called with the queue's context, which is the one stored at open, when `qread`
or `qbread` clears the flow-controlled bit (one call), when `qbwrite` clears
the starved bit (one call) and when `qiwrite` clears it (a call for the chunk
that cleared it and for every later chunk of that write). -/
theorem kick_calls (A : Allocator) (q : Queue) (len c : Nat) (b : Block)
    (bnext : List Block) (p : List Byte) (hk : q.kick = true) :
    (q.state.Qflow = true → (qread q len).q.state.Qflow = false →
      (qread q len).q.kicks = q.kicks ++ [q.arg]) ∧
    (q.state.Qflow = true → (qbread A q len).1.state.Qflow = false →
      (qbread A q len).1.kicks = q.kicks ++ [q.arg]) ∧
    (q.state.Qstarve = true → (qbwrite q c b bnext).q.state.Qstarve = false →
      (qbwrite q c b bnext).q.kicks = q.kicks ++ [q.arg]) ∧
    (q.state.Qstarve = true → (qiwrite A q p).1.state.Qstarve = false →
      ∃ more, (qiwrite A q p).1.kicks = q.kicks ++ q.arg :: more ∧
        ∀ x ∈ more, x = q.arg) ∧
    (∀ (errmax : Nat) (limit : Int) (msg : QState) (arg : Nat) (os : List Op),
      (runOps A errmax (qopen limit msg true arg) os).kick = true ∧
      (runOps A errmax (qopen limit msg true arg) os).arg = arg) := by
  refine ⟨fun h1 h2 => ?_, fun h1 h2 => ?_, fun h1 h2 => ?_, fun h1 h2 => ?_, ?_⟩
  · exact (kick_of_wakeup q _ (qread_again_kick _ q len)).1 h1 h2 hk
  · exact (kick_of_wakeup q _ (qbread_kick A q len)).1 h1 h2 hk
  · exact qbwrite_kick_cleared q c b bnext hk h1 h2
  · exact qiwrite_kick_cleared A q p hk h1 h2
  · intro errmax limit msg arg os
    have h := sameMode_runOps A errmax os (qopen limit msg true arg)
    exact ⟨h.2.2.1, h.2.2.2.2.2.2⟩

theorem kick_calls_witness :
    (qopen 4 ⟨false, false, false, false, false, false⟩ true 7).kick = true ∧
    (qread (qbwrite (qopen 4 ⟨false, false, false, false, false, false⟩ true 7) 0
        ⟨1, [], [1, 2, 3, 4], [], false⟩ []).q 4).q.kicks = [7, 7] ∧
    (qbwrite (qopen 4 ⟨false, false, false, false, false, false⟩ true 7) 0
        ⟨1, [], [1, 2, 3, 4], [], false⟩ []).q.kicks = [7] :=
  ⟨by decide,
   (kick_calls exAlloc
      (qbwrite (qopen 4 ⟨false, false, false, false, false, false⟩ true 7) 0
        ⟨1, [], [1, 2, 3, 4], [], false⟩ []).q 4 0 ⟨1, [], [], [], false⟩ [] []
      (by decide)).1 (by decide) (by decide),
   (kick_calls exAlloc (qopen 4 ⟨false, false, false, false, false, false⟩ true 7) 4 0
      ⟨1, [], [1, 2, 3, 4], [], false⟩ [] [] (by decide)).2.2.1 (by decide) (by decide)⟩

/-- C34 as stated fails: with `kick` installed, `qget`, `qdiscard` and
`qconsume` clear the flow-controlled bit, and `qpass`, `qpassnolim` and
`qproduce` clear the starved bit by queuing data, without a call of `kick`. -/
theorem kick_calls_counterexample :
    (qbwrite (qopen 4 ⟨false, false, false, false, false, false⟩ true 7) 0
        ⟨1, [], [1, 2, 3, 4], [], false⟩ []).q.kick = true ∧
    (qbwrite (qopen 4 ⟨false, false, false, false, false, false⟩ true 7) 0
        ⟨1, [], [1, 2, 3, 4], [], false⟩ []).q.state.Qflow = true ∧
    (qbwrite (qopen 4 ⟨false, false, false, false, false, false⟩ true 7) 0
        ⟨1, [], [1, 2, 3, 4], [], false⟩ []).q.kicks = [7] ∧
    (qget (qbwrite (qopen 4 ⟨false, false, false, false, false, false⟩ true 7) 0
        ⟨1, [], [1, 2, 3, 4], [], false⟩ []).q).1.state.Qflow = false ∧
    (qget (qbwrite (qopen 4 ⟨false, false, false, false, false, false⟩ true 7) 0
        ⟨1, [], [1, 2, 3, 4], [], false⟩ []).q).1.kicks = [7] ∧
    (qdiscard (qbwrite (qopen 4 ⟨false, false, false, false, false, false⟩ true 7) 0
        ⟨1, [], [1, 2, 3, 4], [], false⟩ []).q 4).1.state.Qflow = false ∧
    (qdiscard (qbwrite (qopen 4 ⟨false, false, false, false, false, false⟩ true 7) 0
        ⟨1, [], [1, 2, 3, 4], [], false⟩ []).q 4).1.kicks = [7] ∧
    (qconsume (qbwrite (qopen 4 ⟨false, false, false, false, false, false⟩ true 7) 0
        ⟨1, [], [1, 2, 3, 4], [], false⟩ []).q 4).1.state.Qflow = false ∧
    (qconsume (qbwrite (qopen 4 ⟨false, false, false, false, false, false⟩ true 7) 0
        ⟨1, [], [1, 2, 3, 4], [], false⟩ []).q 4).1.kicks = [7] ∧
    (qopen 4 ⟨false, false, false, false, false, false⟩ true 7).state.Qstarve = true ∧
    (qpass (qopen 4 ⟨false, false, false, false, false, false⟩ true 7)
        ⟨1, [], [1, 2], [], false⟩ []).1.state.Qstarve = false ∧
    (qpass (qopen 4 ⟨false, false, false, false, false, false⟩ true 7)
        ⟨1, [], [1, 2], [], false⟩ []).1.bfirst = [⟨1, [], [1, 2], [], false⟩] ∧
    (qpass (qopen 4 ⟨false, false, false, false, false, false⟩ true 7)
        ⟨1, [], [1, 2], [], false⟩ []).1.kicks = [] ∧
    (qpassnolim (qopen 4 ⟨false, false, false, false, false, false⟩ true 7)
        ⟨1, [], [1, 2], [], false⟩ []).1.state.Qstarve = false ∧
    (qpassnolim (qopen 4 ⟨false, false, false, false, false, false⟩ true 7)
        ⟨1, [], [1, 2], [], false⟩ []).1.kicks = [] ∧
    (qproduce exAlloc (qopen 4 ⟨false, false, false, false, false, false⟩ true 7)
        [1, 2]).1.state.Qstarve = false ∧
    (qproduce exAlloc (qopen 4 ⟨false, false, false, false, false, false⟩ true 7)
        [1, 2]).1.bfirst.length = 1 ∧
    (qproduce exAlloc (qopen 4 ⟨false, false, false, false, false, false⟩ true 7)
        [1, 2]).1.kicks = [] := by
  decide

theorem qconsume_skip_zeros (zs : List Block) (q : Queue) (h : Block) (rest : List Block)
    (hz : ∀ z ∈ zs, z.data = []) (hh : h.data ≠ []) :
    qconsume_skip (zs ++ h :: rest) q
      = ({ q with bfirst := if zs = [] then q.bfirst else h :: rest,
                  len := q.len - blockalloclen zs }, some (h, rest)) := by
  induction zs generalizing q with
  | nil =>
    have hpos : BLEN h > 0 := by
      have : h.data.length ≠ 0 := fun e => hh (List.length_eq_zero.mp e)
      simp only [BLEN]
      omega
    simp [qconsume_skip, hpos, blockalloclen]
  | cons z zs ih =>
    have hzd : z.data = [] := hz z (List.mem_cons_self _ _)
    have hz0 : ¬ BLEN z > 0 := by simp [BLEN, hzd]
    rw [List.cons_append]
    simp only [qconsume_skip, hz0, if_false]
    rw [ih _ (fun x hx => hz x (List.mem_cons_of_mem _ hx))]
    simp only [blockalloclen, reduceCtorEq, if_false]
    by_cases hzs : zs = []
    · subst hzs
      simp [blockalloclen]
    · simp only [hzs, if_false]
      congr 2
      ring

theorem qconsume_skip_all_empty (l : List Block) (q : Queue) (h : ∀ b ∈ l, b.data = []) :
    (qconsume_skip l q).2 = none := by
  induction l generalizing q with
  | nil => rfl
  | cons b l ih =>
    have hb : ¬ BLEN b > 0 := by simp [BLEN, h b (List.mem_cons_self _ _)]
    simp only [qconsume_skip, hb, if_false]
    exact ih _ (fun x hx => h x (List.mem_cons_of_mem _ hx))

/-- C35: on a queue whose buffers are the zero-length buffers `zs`, then a
buffer `h` with `m > 0` readable bytes, then `rest`: `qconsume` with size
`len` drops `zs`, copies and returns the first `min(len, m)` bytes of `h`,
and takes from `dlen` the bytes that are no longer queued.  Out of message
mode a partly consumed `h` stays at the head, its read cursor moved on; in
message mode, and when all of `h` was consumed, `h` leaves the queue.  When
every buffer queued has zero length the value returned is -1. -/
theorem qconsume_spec (q : Queue) (len : Nat) (zs : List Block) (h : Block)
    (rest : List Block) (hb : q.bfirst = zs ++ h :: rest) (hz : ∀ z ∈ zs, z.data = [])
    (hh : h.data ≠ []) :
    (qconsume q len).2.1 = ((min len h.data.length : Nat) : Int) ∧
    (qconsume q len).2.2 = h.data.take len ∧
    (q.state.Qmsg = false → len < h.data.length →
      (qconsume q len).1.bfirst = h.rp_add len :: rest ∧
      (qconsume q len).1.dlen = q.dlen - (len : Int)) ∧
    ((q.state.Qmsg = true ∨ h.data.length ≤ len) →
      (qconsume q len).1.bfirst = rest ∧
      (qconsume q len).1.dlen = q.dlen - (h.data.length : Int)) ∧
    (qconsume q len).1.dlen
      = q.dlen - ((payload q.bfirst).length : Int)
        + ((payload (qconsume q len).1.bfirst).length : Int) ∧
    (∀ q0 : Queue, (∀ b ∈ q0.bfirst, b.data = []) → (qconsume q0 len).2.1 = -1) := by
  have hsk := qconsume_skip_zeros zs q h rest hz hh
  have hpz : payload zs = [] := by
    clear hb hsk
    induction zs with
    | nil => rfl
    | cons z zs ih =>
      rw [payload_cons, hz z (List.mem_cons_self _ _),
        ih (fun x hx => hz x (List.mem_cons_of_mem _ hx))]
      rfl
  have hpay : payload q.bfirst = h.data ++ payload rest := by
    rw [hb, payload_append, hpz, payload_cons, List.nil_append]
  have key : (qconsume q len).2.1 = ((min len h.data.length : Nat) : Int) ∧
      (qconsume q len).2.2 = h.data.take len ∧
      (q.state.Qmsg = false → len < h.data.length →
        (qconsume q len).1.bfirst = h.rp_add len :: rest ∧
        (qconsume q len).1.dlen = q.dlen - (len : Int)) ∧
      ((q.state.Qmsg = true ∨ h.data.length ≤ len) →
        (qconsume q len).1.bfirst = rest ∧
        (qconsume q len).1.dlen = q.dlen - (h.data.length : Int)) := by
    unfold qconsume
    rw [hb, hsk]
    simp only [flowrestart_bfirst, flowrestart_dlen]
    by_cases hlt : h.data.length < len
    · have hm : min len h.data.length = h.data.length := by omega
      simp only [hlt, if_true, hm, decide_True, Bool.or_true, List.take_of_length_le
        (le_of_lt hlt)]
      refine ⟨trivial, by simp, fun _ h2 => absurd h2 (by omega), fun _ => ⟨trivial, ?_⟩⟩
      simp [BLEN, Block.rp_add]
    · have hm : min len h.data.length = len := by omega
      simp only [hlt, if_false, hm]
      refine ⟨trivial, trivial, fun hmsg h2 => ?_, fun h2 => ?_⟩
      · have hne : ¬ len = h.data.length := by omega
        simp [hmsg, hne]
      · rcases h2 with hmsg | hle
        · simp only [hmsg, Bool.true_or, if_true]
          refine ⟨trivial, ?_⟩
          simp only [BLEN, Block.rp_add, List.length_drop]
          omega
        · have he : len = h.data.length := by omega
          simp only [he, decide_True, Bool.or_true, if_true]
          refine ⟨trivial, ?_⟩
          simp [BLEN, Block.rp_add]
  obtain ⟨k1, k2, k3, k4⟩ := key
  refine ⟨k1, k2, k3, k4, ?_, fun q0 h0 => ?_⟩
  · rw [hpay]
    by_cases hc : q.state.Qmsg = true ∨ h.data.length ≤ len
    · obtain ⟨c1, c2⟩ := k4 hc
      rw [c1, c2]
      simp only [List.length_append]
      push_cast
      omega
    · have hmsg : q.state.Qmsg = false := by
        cases hq : q.state.Qmsg with
        | false => rfl
        | true => exact absurd (Or.inl hq) hc
      have hlt : len < h.data.length := by
        by_contra hcon
        exact hc (Or.inr (by omega))
      obtain ⟨c1, c2⟩ := k3 hmsg hlt
      rw [c1, c2]
      simp only [payload_cons, Block.rp_add, List.length_append, List.length_drop]
      push_cast
      omega
  · unfold qconsume
    have := qconsume_skip_all_empty q0.bfirst q0 h0
    generalize qconsume_skip q0.bfirst q0 = R at this
    obtain ⟨q1, o⟩ := R
    simp only [] at this
    subst this
    rfl

theorem qconsume_spec_witness :
    (qconsume (qaddlist (qopen 100 Qstream false 0) ⟨1, [], [], [], false⟩
        [⟨2, [], [1, 2, 3], [], false⟩, ⟨3, [], [4], [], false⟩]) 2).2.1
      = ((min 2 ([1, 2, 3] : List Byte).length : Nat) : Int) ∧
    (qconsume (qaddlist (qopen 100 Qstream false 0) ⟨1, [], [], [], false⟩
        [⟨2, [], [1, 2, 3], [], false⟩, ⟨3, [], [4], [], false⟩]) 2).2.2
      = ([1, 2, 3] : List Byte).take 2 :=
  ⟨(qconsume_spec (qaddlist (qopen 100 Qstream false 0) ⟨1, [], [], [], false⟩
      [⟨2, [], [1, 2, 3], [], false⟩, ⟨3, [], [4], [], false⟩]) 2 [⟨1, [], [], [], false⟩]
      ⟨2, [], [1, 2, 3], [], false⟩ [⟨3, [], [4], [], false⟩]
      (by decide) (by decide) (by decide)).1,
   (qconsume_spec (qaddlist (qopen 100 Qstream false 0) ⟨1, [], [], [], false⟩
      [⟨2, [], [1, 2, 3], [], false⟩, ⟨3, [], [4], [], false⟩]) 2 [⟨1, [], [], [], false⟩]
      ⟨2, [], [1, 2, 3], [], false⟩ [⟨3, [], [4], [], false⟩]
      (by decide) (by decide) (by decide)).2.1⟩

/-- C36: on a queue whose head buffer `h` has `m` readable bytes, `qbread`
with size `len` returns `h` cut to its first `min(len, m)` bytes.  Out of
message mode, when `m > len` the other `m - len` bytes are put back at the
head of the queue in a new buffer, so that the payload returned followed by
the payload of the queue is the payload of the queue before; when
`m <= len` nothing is put back.  In message mode the remainder is dropped. -/
theorem qbread_spec (A : Allocator) (q : Queue) (len : Nat) (h : Block) (rest : List Block)
    (hb : q.bfirst = h :: rest) :
    ∃ nb, (qbread A q len).2 = Res.ret (some nb) ∧ nb.data = h.data.take len ∧
      nb.data.length = min len h.data.length ∧ nb.addr = h.addr ∧
      (q.state.Qmsg = false → len < h.data.length →
        ∃ b2, (qbread A q len).1.bfirst = b2 :: rest ∧ b2.data = h.data.drop len ∧
          b2.addr = (allocb A (h.data.length - len)).addr) ∧
      (q.state.Qmsg = false →
        nb.data ++ payload (qbread A q len).1.bfirst = payload q.bfirst) ∧
      (h.data.length ≤ len → (qbread A q len).1.bfirst = rest) ∧
      (q.state.Qmsg = true → (qbread A q len).1.bfirst = rest) := by
  by_cases hgt : h.data.length > len
  · have hlt : len < h.data.length := hgt
    cases hm : q.state.Qmsg with
    | false =>
      refine ⟨h.wp_set len, ?_, rfl, ?_, rfl, fun _ _ => ?_, fun _ => ?_,
        fun hle => absurd hle (by omega), fun hc => absurd hc (by simp)⟩
      · simp [qbread, qwait, hb, qremove, hgt, hm]
      · simp only [Block.wp_set, List.length_take]
      · refine ⟨(allocb A (h.data.length - len)).wp_put (h.data.drop len), ?_, ?_, rfl⟩
        · simp [qbread, qwait, hb, qremove, hgt, hm, qputback]
        · simp [Block.wp_put, allocb]
      · simp only [qbread, qwait, hb, qremove, hgt, hm, qputback, Block.wp_set, Block.wp_put,
          allocb, qwakeup_bfirst, if_true, Bool.not_false, payload_cons,
          List.nil_append]
        rw [← List.append_assoc, List.take_append_drop]
    | true =>
      refine ⟨h.wp_set len, ?_, rfl, ?_, rfl, fun hc => absurd hc (by simp),
        fun hc => absurd hc (by simp), fun hle => absurd hle (by omega), fun _ => ?_⟩
      · simp [qbread, qwait, hb, qremove, hgt, hm]
      · simp only [Block.wp_set, List.length_take]
      · simp [qbread, qwait, hb, qremove, hgt, hm]
  · have hle : h.data.length ≤ len := by omega
    refine ⟨h, ?_, ?_, ?_, rfl, fun _ hlt => absurd hlt (by omega), fun _ => ?_, fun _ => ?_,
      fun _ => ?_⟩
    · simp [qbread, qwait, hb, qremove, hgt]
    · rw [List.take_of_length_le hle]
    · omega
    · simp [qbread, qwait, hb, qremove, hgt]
    · simp [qbread, qwait, hb, qremove, hgt]
    · simp [qbread, qwait, hb, qremove, hgt]

theorem qbread_spec_witness :
    ∃ nb, (qbread exAlloc (qaddlist (qopen 100 Qstream false 0)
        ⟨1, [], [1, 2, 3], [], false⟩ [⟨2, [], [4], [], false⟩]) 2).2 = Res.ret (some nb) ∧
      nb.data = ([1, 2, 3] : List Byte).take 2 ∧
      nb.data.length = min 2 ([1, 2, 3] : List Byte).length ∧
      nb.addr = 1 ∧
      ((qaddlist (qopen 100 Qstream false 0) ⟨1, [], [1, 2, 3], [], false⟩
          [⟨2, [], [4], [], false⟩]).state.Qmsg = false →
        2 < ([1, 2, 3] : List Byte).length →
        ∃ b2, (qbread exAlloc (qaddlist (qopen 100 Qstream false 0)
            ⟨1, [], [1, 2, 3], [], false⟩ [⟨2, [], [4], [], false⟩]) 2).1.bfirst
            = b2 :: [⟨2, [], [4], [], false⟩] ∧
          b2.data = ([1, 2, 3] : List Byte).drop 2 ∧
          b2.addr = (allocb exAlloc (([1, 2, 3] : List Byte).length - 2)).addr) ∧
      ((qaddlist (qopen 100 Qstream false 0) ⟨1, [], [1, 2, 3], [], false⟩
          [⟨2, [], [4], [], false⟩]).state.Qmsg = false →
        nb.data ++ payload (qbread exAlloc (qaddlist (qopen 100 Qstream false 0)
            ⟨1, [], [1, 2, 3], [], false⟩ [⟨2, [], [4], [], false⟩]) 2).1.bfirst
          = payload (qaddlist (qopen 100 Qstream false 0) ⟨1, [], [1, 2, 3], [], false⟩
              [⟨2, [], [4], [], false⟩]).bfirst) ∧
      (([1, 2, 3] : List Byte).length ≤ 2 →
        (qbread exAlloc (qaddlist (qopen 100 Qstream false 0)
          ⟨1, [], [1, 2, 3], [], false⟩ [⟨2, [], [4], [], false⟩]) 2).1.bfirst
          = [⟨2, [], [4], [], false⟩]) ∧
      ((qaddlist (qopen 100 Qstream false 0) ⟨1, [], [1, 2, 3], [], false⟩
          [⟨2, [], [4], [], false⟩]).state.Qmsg = true →
        (qbread exAlloc (qaddlist (qopen 100 Qstream false 0)
          ⟨1, [], [1, 2, 3], [], false⟩ [⟨2, [], [4], [], false⟩]) 2).1.bfirst
          = [⟨2, [], [4], [], false⟩]) :=
  qbread_spec exAlloc (qaddlist (qopen 100 Qstream false 0) ⟨1, [], [1, 2, 3], [], false⟩
    [⟨2, [], [4], [], false⟩]) 2 ⟨1, [], [1, 2, 3], [], false⟩ [⟨2, [], [4], [], false⟩]
    (by decide)

theorem qdiscard_loop_spec (len : Int) (l : List Block) (q : Queue) (sofar : Int)
    (hq : q.bfirst = l) (h0 : sofar ≤ len) :
    (qdiscard_loop len l q sofar).2 = sofar + min (len - sofar) (blocklen l) ∧
    payload (qdiscard_loop len l q sofar).1.bfirst
      = (payload l).drop (len - sofar).toNat ∧
    (qdiscard_loop len l q sofar).1.dlen
      = q.dlen - min (len - sofar) (blocklen l) := by
  induction l generalizing q sofar with
  | nil =>
    have : min (len - sofar) 0 = 0 := min_eq_right (by omega)
    simp [qdiscard_loop, blocklen, this, hq]
  | cons b next ih =>
    have hbn := blocklen_nonneg next
    have hb0 := BLEN_nonneg b
    simp only [qdiscard_loop, blocklen]
    by_cases h1 : sofar < len
    · simp only [h1, if_true]
      by_cases h2 : BLEN b ≤ len - sofar
      · simp only [h2, if_true]
        obtain ⟨i1, i2, i3⟩ := ih
          { q with bfirst := next, len := q.len - BALLOC b, dlen := q.dlen - BLEN b }
          (sofar + BLEN b) rfl (by omega)
        rw [i1, i2, i3]
        have e : len - (sofar + BLEN b) = len - sofar - BLEN b := by ring
        rw [e]
        have hmin : min (len - sofar) (BLEN b + blocklen next)
            = BLEN b + min (len - sofar - BLEN b) (blocklen next) := by
          rcases le_total (len - sofar - BLEN b) (blocklen next) with h | h
          · rw [min_eq_left h, min_eq_left (by omega)]
            ring
          · rw [min_eq_right h, min_eq_right (by omega)]
        refine ⟨by rw [hmin]; ring, ?_, by rw [hmin]; simp only []; ring⟩
        rw [payload_cons]
        have e2 : (len - sofar).toNat = b.data.length + (len - sofar - BLEN b).toNat := by
          simp only [BLEN] at h2 ⊢; omega
        rw [e2, List.drop_append]
      · simp only [h2, if_false]
        have hmin : min (len - sofar) (BLEN b + blocklen next) = len - sofar :=
          min_eq_left (by omega)
        rw [hmin]
        refine ⟨rfl, ?_, rfl⟩
        simp only [payload_cons, Block.rp_add]
        rw [List.drop_append_of_le_length (by simp only [BLEN] at h2; omega)]
    · simp only [h1, if_false]
      have hz : len - sofar = 0 := by omega
      have hmin : min (len - sofar) (BLEN b + blocklen next) = 0 := by
        rw [hz]
        exact min_eq_left (by omega)
      rw [hmin, hz, hq]
      simp

/-- C37: for every queue and `len >= 0`, `qdiscard` comes to an end, returns
`min(len, total readable bytes queued)`, leaves as payload of the queue the
old payload without that many leading bytes, and takes the value returned
from `dlen`. -/
theorem qdiscard_spec (q : Queue) (len : Int) (h0 : 0 ≤ len) :
    (qdiscard q len).2 = min len ((payload q.bfirst).length : Int) ∧
    payload (qdiscard q len).1.bfirst
      = (payload q.bfirst).drop (min len ((payload q.bfirst).length : Int)).toNat ∧
    (qdiscard q len).1.dlen = q.dlen - (qdiscard q len).2 := by
  obtain ⟨h1, h2, h3⟩ := qdiscard_loop_spec len q.bfirst q 0 rfl h0
  rw [sub_zero, zero_add, blocklen_eq_payload] at h1
  rw [sub_zero] at h2
  rw [sub_zero, blocklen_eq_payload] at h3
  refine ⟨?_, ?_, ?_⟩
  · simp only [qdiscard]
    exact h1
  · simp only [qdiscard, flowrestart_bfirst]
    rw [h2]
    by_cases hle : len ≤ ((payload q.bfirst).length : Int)
    · rw [min_eq_left hle]
    · rw [min_eq_right (by omega), List.drop_of_length_le (by omega),
        List.drop_of_length_le (by omega)]
  · simp only [qdiscard, flowrestart_dlen]
    rw [h3, h1]

theorem qdiscard_spec_witness :
    (qdiscard (qaddlist (qopen 100 Qstream false 0) ⟨1, [], [1, 2, 3], [], false⟩
        [⟨2, [], [4], [], false⟩]) 2).2
      = min 2 ((payload (qaddlist (qopen 100 Qstream false 0)
          ⟨1, [], [1, 2, 3], [], false⟩ [⟨2, [], [4], [], false⟩]).bfirst).length : Int) ∧
    payload (qdiscard (qaddlist (qopen 100 Qstream false 0) ⟨1, [], [1, 2, 3], [], false⟩
        [⟨2, [], [4], [], false⟩]) 2).1.bfirst
      = (payload (qaddlist (qopen 100 Qstream false 0) ⟨1, [], [1, 2, 3], [], false⟩
          [⟨2, [], [4], [], false⟩]).bfirst).drop
        (min 2 ((payload (qaddlist (qopen 100 Qstream false 0)
          ⟨1, [], [1, 2, 3], [], false⟩ [⟨2, [], [4], [], false⟩]).bfirst).length
            : Int)).toNat ∧
    (qdiscard (qaddlist (qopen 100 Qstream false 0) ⟨1, [], [1, 2, 3], [], false⟩
        [⟨2, [], [4], [], false⟩]) 2).1.dlen
      = (qaddlist (qopen 100 Qstream false 0) ⟨1, [], [1, 2, 3], [], false⟩
          [⟨2, [], [4], [], false⟩]).dlen
        - (qdiscard (qaddlist (qopen 100 Qstream false 0) ⟨1, [], [1, 2, 3], [], false⟩
            [⟨2, [], [4], [], false⟩]) 2).2 :=
  qdiscard_spec (qaddlist (qopen 100 Qstream false 0) ⟨1, [], [1, 2, 3], [], false⟩
    [⟨2, [], [4], [], false⟩]) 2 (by decide)

/-- C38: in every state reached from a freshly opened queue by any trace of
queue operations (`qpass`, `qpassnolim`, `qproduce`, `qbwrite`, `qwrite`,
`qiwrite`, `qaddlist`, `qget`, `qremove`, `qputback`, `qdiscard`, `qconsume`,
`qread`, `qbread`, `qflush`, `qclose`, `qhangup`, `qreopen`, `qsetlimit`,
`qnoblock`), `dlen` is the sum of `BLEN` and `len` the sum of `BALLOC` over
the buffers linked from `bfirst`, so that `qlen` is the number of readable
bytes queued. -/
theorem exact_accounting (A : Allocator) (errmax : Nat) (limit : Int) (msg : QState)
    (kick : Bool) (arg : Nat) (os : List Op) :
    (runOps A errmax (qopen limit msg kick arg) os).dlen
      = blocklen (runOps A errmax (qopen limit msg kick arg) os).bfirst ∧
    (runOps A errmax (qopen limit msg kick arg) os).len
      = blockalloclen (runOps A errmax (qopen limit msg kick arg) os).bfirst ∧
    qlen (runOps A errmax (qopen limit msg kick arg) os)
      = ((payload (runOps A errmax (qopen limit msg kick arg) os).bfirst).length : Int) := by
  obtain ⟨h1, h2, -⟩ := qinv_runOps A errmax os _ (qinv_qopen limit msg kick arg)
  exact ⟨h1, h2, by rw [qlen, h1, blocklen_eq_payload]⟩

theorem qwrite_msg_one (A : Allocator) (q : Queue) (c : Nat) (p : List Byte)
    (ho : q.state.Qclosed = false) (hm : q.state.Qmsg = true) (hby : q.bypass = false)
    (hacc : ¬ (q.len ≥ q.limit ∧ q.noblock = true)) :
    (qwrite A q c p).q
      = (qbwrite q c ((allocb A (min p.length Maxatomic)).wp_put (p.take Maxatomic)) []).q ∧
    (qwrite A q c p).ret = Res.ret (p.length : Int) := by
  have hn : (if p.length - 0 > Maxatomic then Maxatomic else p.length - 0)
      = min p.length Maxatomic := by
    split_ifs with h
    · exact (Nat.min_eq_right (by omega)).symm
    · exact (Nat.min_eq_left (by omega)).symm
  have htake : List.take (min p.length Maxatomic) p = p.take Maxatomic := by
    rcases Nat.le_total p.length Maxatomic with h | h
    · rw [Nat.min_eq_left h, List.take_of_length_le (le_refl _), List.take_of_length_le h]
    · rw [Nat.min_eq_right h]
  obtain ⟨-, -, -, -, -, -, e7, -, -, -, -, e12, -⟩ :=
    qbwrite_enq q c ((allocb A (min p.length Maxatomic)).wp_put (p.take Maxatomic)) []
      ho hby hacc
  unfold qwrite
  simp only [qwrite_loop, hn, List.drop_zero, htake, e12, Nat.zero_add, e7, hm,
    Bool.not_true, Bool.and_false, Bool.false_eq_true, if_false]
  split_ifs <;> exact ⟨rfl, rfl⟩

/-- C39 (as amended): on an open message-mode queue without bypass that is
not both non-blocking and at or over its limit, `qwrite` of `n >= 0` bytes
enqueues exactly one buffer, holding the first `min(n, 65536)` bytes of the
input, and returns `n`; so for `n > 65536` the count returned exceeds the
bytes queued, and for `n = 0` an empty message is queued (`qcanread` is true
afterwards and `qlen` is as before).  No queue made by `qopen` has a bypass,
whatever is done to it afterwards. -/
theorem qwrite_message (A : Allocator) (q : Queue) (c : Nat) (p : List Byte)
    (ho : q.state.Qclosed = false) (hm : q.state.Qmsg = true) (hby : q.bypass = false)
    (hacc : ¬ (q.len ≥ q.limit ∧ q.noblock = true)) :
    (∃ b, (qwrite A q c p).q.bfirst = q.bfirst ++ [b] ∧ b.data = p.take 65536 ∧
      b.data.length = min p.length 65536) ∧
    (qwrite A q c p).ret = Res.ret (p.length : Int) ∧
    qlen (qwrite A q c p).q = qlen q + ((min p.length 65536 : Nat) : Int) ∧
    (65536 < p.length →
      (p.length : Int) > ((payload (qwrite A q c p).q.bfirst).length : Int)
        - ((payload q.bfirst).length : Int)) ∧
    (p = [] → qcanread (qwrite A q c p).q = true ∧ qlen (qwrite A q c p).q = qlen q) ∧
    (∀ (errmax : Nat) (limit : Int) (msg : QState) (kick : Bool) (arg : Nat) (os : List Op),
      (runOps A errmax (qopen limit msg kick arg) os).bypass = false) := by
  obtain ⟨w1, w2⟩ := qwrite_msg_one A q c p ho hm hby hacc
  obtain ⟨e1, -, -, e4, -, -, -, -, -, -, -, -, -⟩ :=
    qbwrite_enq q c ((allocb A (min p.length Maxatomic)).wp_put (p.take Maxatomic)) []
      ho hby hacc
  have hd : ((allocb A (min p.length Maxatomic)).wp_put (p.take Maxatomic)).data
      = p.take 65536 := by
    simp [Block.wp_put, allocb, Maxatomic]
  have hl : (p.take 65536).length = min p.length 65536 := by
    rw [List.length_take, Nat.min_comm]
  have hq : qlen (qwrite A q c p).q = qlen q + ((min p.length 65536 : Nat) : Int) := by
    rw [qlen, w1, e4, BLEN, hd, hl]
    rfl
  have hb : (qwrite A q c p).q.bfirst
      = q.bfirst ++ [(allocb A (min p.length Maxatomic)).wp_put (p.take Maxatomic)] := by
    rw [w1, e1]
  refine ⟨⟨_, hb, hd, by rw [hd, hl]⟩, w2, hq, fun hbig => ?_, fun hp => ?_,
    fun errmax limit msg kick arg os =>
      (sameMode_runOps A errmax os (qopen limit msg kick arg)).2.1.trans rfl⟩
  · rw [hb, payload_append, payload_cons, payload_nil, List.append_nil, hd,
      List.length_append, hl]
    push_cast
    omega
  · refine ⟨?_, ?_⟩
    · rw [qcanread, hb]
      cases q.bfirst <;> rfl
    · rw [hq, hp]
      simp

theorem qwrite_message_witness :
    (∃ b, (qwrite exAlloc (qopen 1024 Qmessage false 0) 0 [1, 2, 3]).q.bfirst
        = (qopen 1024 Qmessage false 0).bfirst ++ [b] ∧
      b.data = ([1, 2, 3] : List Byte).take 65536 ∧
      b.data.length = min ([1, 2, 3] : List Byte).length 65536) ∧
    (qwrite exAlloc (qopen 1024 Qmessage false 0) 0 [1, 2, 3]).ret
      = Res.ret (([1, 2, 3] : List Byte).length : Int) :=
  ⟨(qwrite_message exAlloc (qopen 1024 Qmessage false 0) 0 [1, 2, 3] (by decide) (by decide)
      (by decide) (by decide)).1,
   (qwrite_message exAlloc (qopen 1024 Qmessage false 0) 0 [1, 2, 3] (by decide) (by decide)
      (by decide) (by decide)).2.1⟩

/-- C39 (counterexample): on an open message-mode queue in non-blocking mode
at its limit, `qwrite` of three bytes returns 3 and enqueues no buffer, and
`qwrite` of no bytes leaves `qcanread` false. -/
theorem qwrite_message_counterexample :
    (qnoblock (qopen 0 Qmessage false 0) true).state.Qclosed = false ∧
    (qnoblock (qopen 0 Qmessage false 0) true).state.Qmsg = true ∧
    (qwrite exAlloc (qnoblock (qopen 0 Qmessage false 0) true) 0 [1, 2, 3]).ret
      = Res.ret 3 ∧
    (qwrite exAlloc (qnoblock (qopen 0 Qmessage false 0) true) 0 [1, 2, 3]).q.bfirst = [] ∧
    qcanread (qwrite exAlloc (qnoblock (qopen 0 Qmessage false 0) true) 0 []).q = false := by
  decide

/-- C40: `pullupqueue` replaces the list and recomputes `blast` but never
touches `len` or `dlen`.  On a queue holding a 2-byte and a 3-byte buffer
with exact accounting (`len = dlen = 5`), `pullupqueue(q, 4)` leaves buffers
of footprint 4 and 3 while `len` stays 5 (`dlen` and `blast` are right), and
`pullupqueue(q, 9)`, which asks for more than is queued, leaves an empty list
with a null `blast` while `dlen` and `len` both stay 5. -/
theorem pullupqueue_accounting :
    (qpass (qopen 100 ⟨false, false, false, false, false, false⟩ false 0)
        ⟨1, [], [1, 2], [], false⟩ [⟨2, [], [3, 4, 5], [], false⟩]).1.dlen
      = blocklen (qpass (qopen 100 ⟨false, false, false, false, false, false⟩ false 0)
        ⟨1, [], [1, 2], [], false⟩ [⟨2, [], [3, 4, 5], [], false⟩]).1.bfirst ∧
    (qpass (qopen 100 ⟨false, false, false, false, false, false⟩ false 0)
        ⟨1, [], [1, 2], [], false⟩ [⟨2, [], [3, 4, 5], [], false⟩]).1.len
      = blockalloclen (qpass (qopen 100 ⟨false, false, false, false, false, false⟩ false 0)
        ⟨1, [], [1, 2], [], false⟩ [⟨2, [], [3, 4, 5], [], false⟩]).1.bfirst ∧
    (∃ q2, pullupqueue exAlloc
        (qpass (qopen 100 ⟨false, false, false, false, false, false⟩ false 0)
          ⟨1, [], [1, 2], [], false⟩ [⟨2, [], [3, 4, 5], [], false⟩]).1 4 = Res.ret q2 ∧
      payload q2.bfirst = [1, 2, 3, 4, 5] ∧ q2.bfirst.map BLEN = [4, 1] ∧
      q2.dlen = 5 ∧ blocklen q2.bfirst = 5 ∧
      q2.len = 5 ∧ blockalloclen q2.bfirst = 7 ∧
      q2.blast = q2.bfirst.getLast?.map Block.addr) ∧
    (∃ q2, pullupqueue exAlloc
        (qpass (qopen 100 ⟨false, false, false, false, false, false⟩ false 0)
          ⟨1, [], [1, 2], [], false⟩ [⟨2, [], [3, 4, 5], [], false⟩]).1 9 = Res.ret q2 ∧
      q2.bfirst = [] ∧ q2.blast = none ∧ q2.dlen = 5 ∧ q2.len = 5) :=
  ⟨by decide, by decide, ⟨_, rfl, by decide, by decide, by decide, by decide, by decide,
    by decide, by decide⟩, ⟨_, rfl, by decide, by decide, by decide, by decide⟩⟩

end Qio
